import Mathlib

/-!
Verification development for the `protogen` code-generator front end.

The Go sources (`type.go`, `field_number.go`, and the generator file) are
shallowly embedded below.  Modelling conventions:

* Go strings are `String`; comment text is modelled as `List Char` so that
  the formatting function can be reasoned about character by character.
* `protoreflect` descriptors are embedded as the view the Go code actually
  reads from them: full names, kinds, declared type names, oneof indices,
  dependency paths and the source-location table.
* Go pointers into the shared graph (`Field.Enum`, `Field.Message`,
  `Field.Extendee`, `Method.Input/Output`) are represented by the
  fully-qualified-name key under which the target node is registered in the
  corresponding global table; following such a link means looking the key up
  in that table.  The local links `Field.Oneof` / `Oneof.Fields` are
  represented by positional indices into the enclosing message's
  `Oneofs` / `Fields` lists.  Parent back-pointers (`Field.Parent`,
  `EnumValue.Parent`, `Oneof.Parent`, `Method.Parent`) are implicit in the
  tree structure and carry no independent information, so they are omitted.
* The Go maps `enumsByName`, `messagesByName`, `filesByPath` are association
  lists where a later `m[k] = v` store is consed on the front, so lookup
  (first match) returns the most recent store, exactly like a Go map.
* The generator additionally records a ghost `trace` of events (map writes,
  file-built markers, map reads) used to state temporal claims; the trace has
  no influence on any computed value.
* External library behaviour that the generator calls into is modelled at its
  interface: `protodesc.NewFile` fails unless every dependency path is already
  registered (full descriptor validation is out of scope, the decoder is
  assumed correct), and `protoregistry.Files.RegisterFile` fails when the file
  path or any declared full name conflicts with an already-registered one.
-/

namespace Protogen

/-! ## Field-number constants (`field_number.go`) -/

/-- `FileDescriptorProto_MessageType_FieldNumber protoreflect.FieldNumber = 4` -/
def FileDescriptorProto_MessageType_FieldNumber : Int := 4

/-- `FileDescriptorProto_EnumType_FieldNumber protoreflect.FieldNumber = 5` -/
def FileDescriptorProto_EnumType_FieldNumber : Int := 5

/-- `FileDescriptorProto_Service_FieldNumber protoreflect.FieldNumber = 6` -/
def FileDescriptorProto_Service_FieldNumber : Int := 6

/-- `FileDescriptorProto_Extension_FieldNumber protoreflect.FieldNumber = 7` -/
def FileDescriptorProto_Extension_FieldNumber : Int := 7

/-- `Descriptorproto_Field_FieldNumber protoreflect.FieldNumber = 2` -/
def Descriptorproto_Field_FieldNumber : Int := 2

/-- `Descriptorproto_Extension_FieldNumber protoreflect.FieldNumber = 6` -/
def Descriptorproto_Extension_FieldNumber : Int := 6

/-- `Descriptorproto_NestedType_FieldNumber protoreflect.FieldNumber = 3` -/
def Descriptorproto_NestedType_FieldNumber : Int := 3

/-- `Descriptorproto_EnumType_FieldNumber protoreflect.FieldNumber = 4` -/
def Descriptorproto_EnumType_FieldNumber : Int := 4

/-- `Descriptorproto_OneofDecl_FieldNumber protoreflect.FieldNumber = 8` -/
def Descriptorproto_OneofDecl_FieldNumber : Int := 8

/-- `Enumdescriptorproto_Value_FieldNumber protoreflect.FieldNumber = 2` -/
def Enumdescriptorproto_Value_FieldNumber : Int := 2

/-- `Servicedescriptorproto_Method_FieldNumber protoreflect.FieldNumber = 2` -/
def Servicedescriptorproto_Method_FieldNumber : Int := 2

/-! ## Descriptors (the `protoreflect` view consumed by the builders) -/

/-- The view of a `protoreflect.EnumValueDescriptor` read by the code. -/
structure EnumValueDesc where
  fullName : String
deriving DecidableEq

/-- The view of a `protoreflect.EnumDescriptor` read by the code. -/
structure EnumDesc where
  fullName : String
  values : List EnumValueDesc
deriving DecidableEq

/-- The `protoreflect.Kind` of a field, folded to the cases the code
distinguishes: `scalar` stands for every kind other than enum, message and
group (bool, int32, string, bytes, ...). -/
inductive FieldKind where
  | scalar
  | enumKind
  | messageKind
  | groupKind
deriving DecidableEq

/-- The view of a `protoreflect.FieldDescriptor` read by the code.
`typeName` is `desc.Enum().FullName()` for enum-kind fields and
`desc.Message().FullName()` for message- or group-kind fields (it is
meaningless for scalar kinds); `oneofIdx` is
`desc.ContainingOneof().Index()` when the field lives in a oneof;
`extendeeName` is `desc.ContainingMessage().FullName()`, read only when
`isExtension` is true. -/
structure FieldDesc where
  fullName : String
  kind : FieldKind
  typeName : String
  oneofIdx : Option Nat
  isExtension : Bool
  extendeeName : String
deriving DecidableEq

/-- The view of a `protoreflect.OneofDescriptor` read by the code. -/
structure OneofDesc where
  fullName : String
deriving DecidableEq

/-- The view of a `protoreflect.MethodDescriptor` read by the code;
`inputName` and `outputName` are `desc.Input().FullName()` and
`desc.Output().FullName()`. -/
structure MethodDesc where
  fullName : String
  inputName : String
  outputName : String
deriving DecidableEq

/-- The view of a `protoreflect.ServiceDescriptor` read by the code. -/
structure ServiceDesc where
  fullName : String
  methods : List MethodDesc
deriving DecidableEq

/-- The view of a `protoreflect.MessageDescriptor` read by the code.  A
nested inductive because messages nest. -/
inductive MessageDesc where
  | mk (fullName : String) (enums : List EnumDesc) (messages : List MessageDesc)
      (fields : List FieldDesc) (oneofs : List OneofDesc)
      (extensions : List FieldDesc)

def MessageDesc.fullName : MessageDesc → String
  | .mk n _ _ _ _ _ => n

def MessageDesc.enums : MessageDesc → List EnumDesc
  | .mk _ es _ _ _ _ => es

def MessageDesc.messages : MessageDesc → List MessageDesc
  | .mk _ _ ms _ _ _ => ms

def MessageDesc.fields : MessageDesc → List FieldDesc
  | .mk _ _ _ fs _ _ => fs

def MessageDesc.oneofs : MessageDesc → List OneofDesc
  | .mk _ _ _ _ os _ => os

def MessageDesc.extensions : MessageDesc → List FieldDesc
  | .mk _ _ _ _ _ xs => xs

/-- One entry of a file's raw source-location table
(`protoreflect.SourceLocation`): a structural path plus the comment text
attached there. -/
structure SourceLoc where
  path : List Int
  leadingDetached : List (List Char)
  leading : List Char
  trailing : List Char
deriving DecidableEq

/-- The view of a `protoreflect.FileDescriptor` (together with the parts of
the `FileDescriptorProto` the generator reads): path, dependency paths and
the declaration lists. -/
structure FileDesc where
  path : String
  dependencies : List String
  enums : List EnumDesc
  messages : List MessageDesc
  extensions : List FieldDesc
  services : List ServiceDesc
  locs : List SourceLoc

/-! ## Locations and comments (`type.go`) -/

/-- A `Location` is a location in a .proto source file (`type.go`).
`protoreflect.SourcePath` (`[]int32`) is modelled as `List Int`; the values
stored are small field tags and list indices, so 32-bit wrap-around cannot
occur. -/
structure Location where
  sourceFile : String
  path : List Int
deriving DecidableEq

/-- `appendPath` adds elements to a Location's path, returning a new
Location (`type.go`).  The Go code first copies the slice
(`append(protoreflect.SourcePath(nil), loc.Path...)`) and then appends
`int32(num), int32(idx)`; on the list model this is a pure append.  A
slice-level model of the same function, used to state the frame/aliasing
claim, appears further below as `appendPathGo`. -/
def Location.appendPath (loc : Location) (num : Int) (idx : Nat) : Location :=
  { loc with path := loc.path ++ [num, (idx : Int)] }

/-- `Comments` is a comments string as provided by protoc (`type.go`),
modelled as a character list. -/
def Comments := List Char
deriving DecidableEq

/-- Model of Go `strings.TrimSuffix(s, "\n")`: removes at most one trailing
newline. -/
def trimSuffixNl (s : List Char) : List Char :=
  if s.getLast? = some '\n' then s.dropLast else s

/-- Model of Go `strings.Split(s, "\n")`: splitting the empty string yields
one empty piece, and every separator starts a new piece. -/
def splitNl : List Char → List (List Char)
  | [] => [[]]
  | c :: cs =>
    if c = '\n' then [] :: splitNl cs
    else
      match splitNl cs with
      | [] => [[c]]
      | l :: ls => (c :: l) :: ls

/-- `Comments.String` (`type.go`): formats the comments by inserting `//` at
the start of each line, ensuring that there is a trailing newline; an empty
comment is formatted as an empty string.  The Go byte-buffer loop appends
`"//"`, the line, and `"\n"` for each piece of
`strings.Split(strings.TrimSuffix(string(c), "\n"), "\n")`, which is the
flattened map below. -/
def Comments.string (c : Comments) : List Char :=
  if c = ([] : List Char) then []
  else ((splitNl (trimSuffixNl c)).map (fun line => '/' :: '/' :: (line ++ ['\n']))).flatten

/-- `CommentSet` (`type.go`): leading / trailing / detached comments of a
declaration. -/
structure CommentSet where
  leadingDetached : List Comments
  leading : Comments
  trailing : Comments
deriving DecidableEq

/-- Model of `f.Desc.SourceLocations().ByDescriptor(desc)`: the entry of the
location table whose structural path is exactly the declaration's path, or
the zero `SourceLocation` when none matches. -/
def byDescriptor (locs : List SourceLoc) (path : List Int) : SourceLoc :=
  match locs.find? (fun l => decide (l.path = path)) with
  | some l => l
  | none => { path := path, leadingDetached := [], leading := [], trailing := [] }

/-- `makeCommentSet` (`type.go`). -/
def makeCommentSet (loc : SourceLoc) : CommentSet :=
  { leadingDetached := loc.leadingDetached
    leading := loc.leading
    trailing := loc.trailing }

/-! ## Graph nodes -/

/-- An `EnumValue` node (`type.go`); the `Parent` pointer is implicit in the
tree. -/
structure EnumValueNode where
  desc : EnumValueDesc
  location : Location
  comments : CommentSet
deriving DecidableEq

/-- An `Enum` node (`type.go`). -/
structure EnumNode where
  desc : EnumDesc
  values : List EnumValueNode
  location : Location
  comments : CommentSet
deriving DecidableEq

/-- A `Field` node (`type.go`).  `oneof` is the index of the containing
oneof in the parent message's `oneofs` list (Go: a pointer to that node);
`extendee`, `enum` and `message` are the fully-qualified-name keys of the
linked nodes in the global tables (Go: pointers to those nodes); all four
start out `none` and are filled in by wiring / resolution. -/
structure FieldNode where
  desc : FieldDesc
  oneof : Option Nat
  extendee : Option String
  enum : Option String
  message : Option String
  location : Location
  comments : CommentSet
deriving DecidableEq

/-- A `Oneof` node (`type.go`); `fields` holds the indices (into the parent
message's `fields` list) of the member fields, in the order Go appends
them. -/
structure OneofNode where
  desc : OneofDesc
  fields : List Nat
  location : Location
  comments : CommentSet
deriving DecidableEq

/-- A `Message` node (`type.go`); nested inductive because messages nest. -/
inductive MessageNode where
  | mk (fullName : String) (fields : List FieldNode) (oneofs : List OneofNode)
      (enums : List EnumNode) (messages : List MessageNode)
      (extensions : List FieldNode) (location : Location) (comments : CommentSet)

def MessageNode.fullName : MessageNode → String
  | .mk n _ _ _ _ _ _ _ => n

def MessageNode.fields : MessageNode → List FieldNode
  | .mk _ fs _ _ _ _ _ _ => fs

def MessageNode.oneofs : MessageNode → List OneofNode
  | .mk _ _ os _ _ _ _ _ => os

def MessageNode.enums : MessageNode → List EnumNode
  | .mk _ _ _ es _ _ _ _ => es

def MessageNode.messages : MessageNode → List MessageNode
  | .mk _ _ _ _ ms _ _ _ => ms

def MessageNode.extensions : MessageNode → List FieldNode
  | .mk _ _ _ _ _ xs _ _ => xs

def MessageNode.location : MessageNode → Location
  | .mk _ _ _ _ _ _ loc _ => loc

def MessageNode.comments : MessageNode → CommentSet
  | .mk _ _ _ _ _ _ _ cs => cs

/-- A `Method` node (`type.go`); `input` / `output` are name keys into the
global message table once resolved. -/
structure MethodNode where
  desc : MethodDesc
  input : Option String
  output : Option String
  location : Location
  comments : CommentSet
deriving DecidableEq

/-- A `Service` node (`type.go`). -/
structure ServiceNode where
  desc : ServiceDesc
  methods : List MethodNode
  location : Location
  comments : CommentSet
deriving DecidableEq

/-- A `File` node (`type.go`). -/
structure FileNode where
  desc : FileDesc
  enums : List EnumNode
  messages : List MessageNode
  extensions : List FieldNode
  services : List ServiceNode
  location : Location
  generate : Bool

/-! ## List helpers used by the embedding -/

/-- `mapIdxFrom f i l` maps `f` over `l` passing each element's index
starting at `i`; models Go `for i, x := range` loops that also feed
`desc.Index()` to the builders. -/
def mapIdxFrom (f : Nat → α → β) : Nat → List α → List β
  | _, [] => []
  | i, a :: as => f i a :: mapIdxFrom f (i + 1) as

def mapIdx (f : Nat → α → β) (l : List α) : List β := mapIdxFrom f 0 l

/-- In-place update of one list element, a no-op when the index is out of
range; models a Go slice-element assignment. -/
def modifyIdx (f : α → α) : Nat → List α → List α
  | _, [] => []
  | 0, a :: as => f a :: as
  | n + 1, a :: as => a :: modifyIdx f n as

/-- Go-map-style lookup on an association list whose most recent store is at
the head. -/
def mapGet (m : List (String × α)) (k : String) : Option α :=
  match m with
  | [] => none
  | (k', v) :: m => if k' = k then some v else mapGet m k

/-! ## Builders (`type.go`): construction phase -/

/-- One store into a global by-full-name table
(`gen.enumsByName[...] = ...` or `gen.messagesByName[...] = ...`). -/
inductive RegWrite where
  | enum (name : String) (node : EnumNode)
  | msg (name : String) (node : MessageNode)

def RegWrite.key : RegWrite → String
  | .enum n _ => n
  | .msg n _ => n

/-- `newEnumValue` (`type.go`). -/
def newEnumValue (locs : List SourceLoc) (enumLoc : Location) (idx : Nat)
    (d : EnumValueDesc) : EnumValueNode :=
  let loc := enumLoc.appendPath Enumdescriptorproto_Value_FieldNumber idx
  { desc := d, location := loc, comments := makeCommentSet (byDescriptor locs loc.path) }

/-- `newEnum` (`type.go`).  `parentLoc` is the enclosing message's location
(`parent.Location`), or `none` at file scope.  The returned write is the
registration `gen.enumsByName[desc.FullName()] = enum`, performed before the
values are built; since the value nodes do not feed back into the
registration, the completed node is recorded. -/
def newEnum (floc : Location) (locs : List SourceLoc) (parentLoc : Option Location)
    (idx : Nat) (d : EnumDesc) : EnumNode × List RegWrite :=
  let loc := match parentLoc with
    | some ploc => ploc.appendPath Descriptorproto_EnumType_FieldNumber idx
    | none => floc.appendPath FileDescriptorProto_EnumType_FieldNumber idx
  let enum : EnumNode :=
    { desc := d
      values := mapIdx (fun i vd => newEnumValue locs loc i vd) d.values
      location := loc
      comments := makeCommentSet (byDescriptor locs loc.path) }
  (enum, [RegWrite.enum d.fullName enum])

/-- `newField` (`type.go`).  `messageLoc` is the enclosing message's
location or `none` for a file-level extension; the Go `default` branch
dereferences `message`, which is non-nil there for every call site, so the
`getD` fallback is never exercised. -/
def newField (floc : Location) (locs : List SourceLoc) (messageLoc : Option Location)
    (idx : Nat) (d : FieldDesc) : FieldNode :=
  let loc :=
    if d.isExtension ∧ messageLoc = none then
      floc.appendPath FileDescriptorProto_Extension_FieldNumber idx
    else if d.isExtension then
      (messageLoc.getD floc).appendPath Descriptorproto_Extension_FieldNumber idx
    else
      (messageLoc.getD floc).appendPath Descriptorproto_Field_FieldNumber idx
  { desc := d, oneof := none, extendee := none, enum := none, message := none
    location := loc, comments := makeCommentSet (byDescriptor locs loc.path) }

/-- `newOneof` (`type.go`); `fields` starts empty and is filled by the local
wiring loop. -/
def newOneof (locs : List SourceLoc) (messageLoc : Location) (idx : Nat)
    (d : OneofDesc) : OneofNode :=
  let loc := messageLoc.appendPath Descriptorproto_OneofDecl_FieldNumber idx
  { desc := d, fields := [], location := loc
    comments := makeCommentSet (byDescriptor locs loc.path) }

/-- The local field/oneof wiring loop at the end of `newMessage`
(`type.go`): for each field `i` (in order) whose descriptor declares a
containing oneof `j`, set `field.Oneof` and append `i` to
`message.Oneofs[j].Fields`. -/
def wireOneofs : Nat → List FieldNode → List OneofNode → List FieldNode × List OneofNode
  | _, [], os => ([], os)
  | i, f :: fs, os =>
    match f.desc.oneofIdx with
    | none =>
      let r := wireOneofs (i + 1) fs os
      (f :: r.1, r.2)
    | some j =>
      let os1 := modifyIdx (fun o => { o with fields := o.fields ++ [i] }) j os
      let r := wireOneofs (i + 1) fs os1
      ({ f with oneof := some j } :: r.1, r.2)

mutual

/-- `newMessage` (`type.go`): computes the location, registers the message,
builds nested enums, nested messages, fields, oneofs and extensions in the
schema's declaration order, and then wires the local field/oneof links.  The
write list is in Go store order: the message itself first, then the writes
performed while building the children. -/
def newMessage (floc : Location) (locs : List SourceLoc) (parentLoc : Option Location)
    (idx : Nat) : MessageDesc → MessageNode × List RegWrite
  | .mk fullName enums messages fields oneofs extensions =>
    let loc := match parentLoc with
      | some ploc => ploc.appendPath Descriptorproto_NestedType_FieldNumber idx
      | none => floc.appendPath FileDescriptorProto_MessageType_FieldNumber idx
    let enumsW := mapIdx (fun i ed => newEnum floc locs (some loc) i ed) enums
    let msgsW := newMessageList floc locs (some loc) 0 messages
    let fields0 := mapIdx (fun i fd => newField floc locs (some loc) i fd) fields
    let oneofs0 := mapIdx (fun i od => newOneof locs loc i od) oneofs
    let exts := mapIdx (fun i fd => newField floc locs (some loc) i fd) extensions
    let wired := wireOneofs 0 fields0 oneofs0
    let node : MessageNode :=
      .mk fullName wired.1 wired.2 (enumsW.map (·.1)) (msgsW.map (·.1)) exts loc
        (makeCommentSet (byDescriptor locs loc.path))
    (node, RegWrite.msg fullName node ::
      ((enumsW.map (·.2)).flatten ++ (msgsW.map (·.2)).flatten))

/-- The `for i, mds := ...; newMessage(...)` loop, carrying the running
index. -/
def newMessageList (floc : Location) (locs : List SourceLoc)
    (parentLoc : Option Location) (i : Nat) :
    List MessageDesc → List (MessageNode × List RegWrite)
  | [] => []
  | d :: ds =>
    newMessage floc locs parentLoc i d :: newMessageList floc locs parentLoc (i + 1) ds

end

/-- `newMethod` (`type.go`). -/
def newMethod (locs : List SourceLoc) (serviceLoc : Location) (idx : Nat)
    (d : MethodDesc) : MethodNode :=
  let loc := serviceLoc.appendPath Servicedescriptorproto_Method_FieldNumber idx
  { desc := d, input := none, output := none, location := loc
    comments := makeCommentSet (byDescriptor locs loc.path) }

/-- `newService` (`type.go`). -/
def newService (floc : Location) (locs : List SourceLoc) (idx : Nat)
    (d : ServiceDesc) : ServiceNode :=
  let loc := floc.appendPath FileDescriptorProto_Service_FieldNumber idx
  { desc := d
    methods := mapIdx (fun i md => newMethod locs loc i md) d.methods
    location := loc
    comments := makeCommentSet (byDescriptor locs loc.path) }

/-! ## Errors -/

/-- The error values the generator produces (each constructor corresponds to
one `fmt.Errorf` site). -/
inductive GenError where
  | invalidFile (path : String)
  | cannotRegister (path : String)
  | duplicateFile (path : String)
  | unknownFileToGenerate (path : String)
  | fieldNoEnum (field target : String)
  | fieldNoType (field target : String)
  | methodNoType (method target : String)
deriving DecidableEq

/-- The error text each `fmt.Errorf` site formats (the `%v` of the two
wrapping sites in `newFile` elides the wrapped cause). -/
def GenError.render : GenError → List Char
  | .invalidFile p => ("invalid FileDescriptorProto " ++ p ++ ":").data
  | .cannotRegister p => ("cannot register descriptor " ++ p ++ ":").data
  | .duplicateFile p => ("duplicate file name: " ++ p).data
  | .unknownFileToGenerate p => ("no descriptor for generated file: " ++ p).data
  | .fieldNoEnum f t => ("field " ++ f ++ ": no descriptor for enum " ++ t).data
  | .fieldNoType f t => ("field " ++ f ++ ": no descriptor for type " ++ t).data
  | .methodNoType m t => ("method " ++ m ++ ": no descriptor for type " ++ t).data

/-- `xs` occurs contiguously inside `ys`. -/
def containsSeq (ys xs : List Char) : Prop :=
  ∃ s t, ys = s ++ xs ++ t

/-! ## Ghost events -/

/-- Ghost trace events recording the temporal behaviour of the generator:
stores into and reads from the two global name tables, plus a marker emitted
when a file's construction (all `new*` calls) has finished and its
resolution is about to start. -/
inductive Event where
  | regEnum (name : String)
  | regMsg (name : String)
  | builtFile (path : String)
  | lookupEnum (name : String)
  | lookupMsg (name : String)
deriving DecidableEq

def Event.isWrite : Event → Bool
  | .regEnum _ => true
  | .regMsg _ => true
  | _ => false

def Event.isRead : Event → Bool
  | .lookupEnum _ => true
  | .lookupMsg _ => true
  | _ => false

/-! ## Generator state -/

/-- The part of `protoregistry.Files` the generator observes: which file
paths and which declaration full names have been registered. -/
structure FileReg where
  paths : List String
  names : List String

/-- The `Generator` state (`NewGenerator`'s fields that the graph build
touches; `request`, `plugin`, `genFiles` and `err` belong to the excluded
code-emission layer).  `filesByPath` maps a path to the index of its node in
`files` (a Go pointer into the same slice).  `trace` is ghost. -/
structure Gen where
  fileReg : FileReg
  files : List FileNode
  filesByPath : List (String × Nat)
  enumsByName : List (String × EnumNode)
  messagesByName : List (String × MessageNode)
  trace : List Event

def Gen.initial : Gen :=
  { fileReg := { paths := [], names := [] }, files := [], filesByPath := []
    enumsByName := [], messagesByName := [], trace := [] }

/-- Apply one table store, logging the ghost event. -/
def applyWrite (gen : Gen) : RegWrite → Gen
  | .enum n e =>
    { gen with enumsByName := (n, e) :: gen.enumsByName
               trace := gen.trace ++ [Event.regEnum n] }
  | .msg n m =>
    { gen with messagesByName := (n, m) :: gen.messagesByName
               trace := gen.trace ++ [Event.regMsg n] }

def applyWrites (gen : Gen) (ws : List RegWrite) : Gen := ws.foldl applyWrite gen

/-! ## Cross-reference resolution (`type.go`): resolve phase -/

/-- `Field.resolveDependencies` (`type.go`): for an enum-kind field look the
declared enum type up in `gen.enumsByName`; for a message- or group-kind
field look the declared message type up in `gen.messagesByName`; for an
extension additionally look up the extendee.  The returned event list logs
each map read performed (reads stop at the first failure, as in Go). -/
def FieldNode.resolveDependencies (enums : List (String × EnumNode))
    (msgs : List (String × MessageNode)) (field : FieldNode) :
    Except GenError FieldNode × List Event :=
  let step1 : Except GenError FieldNode × List Event :=
    match field.desc.kind with
    | .enumKind =>
      let name := field.desc.typeName
      match mapGet enums name with
      | none => (.error (.fieldNoEnum field.desc.fullName name), [Event.lookupEnum name])
      | some _ => (.ok { field with enum := some name }, [Event.lookupEnum name])
    | .messageKind =>
      let name := field.desc.typeName
      match mapGet msgs name with
      | none => (.error (.fieldNoType field.desc.fullName name), [Event.lookupMsg name])
      | some _ => (.ok { field with message := some name }, [Event.lookupMsg name])
    | .groupKind =>
      let name := field.desc.typeName
      match mapGet msgs name with
      | none => (.error (.fieldNoType field.desc.fullName name), [Event.lookupMsg name])
      | some _ => (.ok { field with message := some name }, [Event.lookupMsg name])
    | .scalar => (.ok field, [])
  match step1 with
  | (.error e, evs) => (.error e, evs)
  | (.ok f1, evs) =>
    if f1.desc.isExtension then
      let name := f1.desc.extendeeName
      match mapGet msgs name with
      | none => (.error (.fieldNoType f1.desc.fullName name), evs ++ [Event.lookupMsg name])
      | some _ => (.ok { f1 with extendee := some name }, evs ++ [Event.lookupMsg name])
    else (.ok f1, evs)

/-- A `for _, field := range ...` loop over `resolveDependencies`, stopping
at the first error but keeping the events already emitted. -/
def resolveFieldList (enums : List (String × EnumNode))
    (msgs : List (String × MessageNode)) :
    List FieldNode → Except GenError (List FieldNode) × List Event
  | [] => (.ok [], [])
  | f :: fs =>
    match f.resolveDependencies enums msgs with
    | (.error e, evs) => (.error e, evs)
    | (.ok f1, evs) =>
      match resolveFieldList enums msgs fs with
      | (.error e, evs2) => (.error e, evs ++ evs2)
      | (.ok fs1, evs2) => (.ok (f1 :: fs1), evs ++ evs2)

mutual

/-- `Message.resolveDependencies` (`type.go`): resolve the message's own
fields, then its nested messages, then its extensions, stopping at the
first error. -/
def MessageNode.resolveDependencies (enums : List (String × EnumNode))
    (msgs : List (String × MessageNode)) :
    MessageNode → Except GenError MessageNode × List Event
  | .mk fullName fields oneofs enumNodes messages extensions loc cs =>
    match resolveFieldList enums msgs fields with
    | (.error e, evs) => (.error e, evs)
    | (.ok fields1, evs1) =>
      match resolveMessageList enums msgs messages with
      | (.error e, evs2) => (.error e, evs1 ++ evs2)
      | (.ok messages1, evs2) =>
        match resolveFieldList enums msgs extensions with
        | (.error e, evs3) => (.error e, evs1 ++ evs2 ++ evs3)
        | (.ok extensions1, evs3) =>
          (.ok (.mk fullName fields1 oneofs enumNodes messages1 extensions1 loc cs),
            evs1 ++ evs2 ++ evs3)

/-- The `for _, message := range message.Messages` recursion. -/
def resolveMessageList (enums : List (String × EnumNode))
    (msgs : List (String × MessageNode)) :
    List MessageNode → Except GenError (List MessageNode) × List Event
  | [] => (.ok [], [])
  | m :: ms =>
    match m.resolveDependencies enums msgs with
    | (.error e, evs) => (.error e, evs)
    | (.ok m1, evs) =>
      match resolveMessageList enums msgs ms with
      | (.error e, evs2) => (.error e, evs ++ evs2)
      | (.ok ms1, evs2) => (.ok (m1 :: ms1), evs ++ evs2)

end

/-- `Method.resolveDependencies` (`type.go`): resolve the input type, then
the output type, in `gen.messagesByName`. -/
def MethodNode.resolveDependencies (msgs : List (String × MessageNode))
    (method : MethodNode) : Except GenError MethodNode × List Event :=
  let inName := method.desc.inputName
  match mapGet msgs inName with
  | none => (.error (.methodNoType method.desc.fullName inName), [Event.lookupMsg inName])
  | some _ =>
    let m1 : MethodNode := { method with input := some inName }
    let outName := m1.desc.outputName
    match mapGet msgs outName with
    | none =>
      (.error (.methodNoType m1.desc.fullName outName),
        [Event.lookupMsg inName, Event.lookupMsg outName])
    | some _ =>
      (.ok { m1 with output := some outName },
        [Event.lookupMsg inName, Event.lookupMsg outName])

/-- The `for _, method := range service.Methods` loop inside `newFile`. -/
def resolveMethodList (msgs : List (String × MessageNode)) :
    List MethodNode → Except GenError (List MethodNode) × List Event
  | [] => (.ok [], [])
  | m :: ms =>
    match m.resolveDependencies msgs with
    | (.error e, evs) => (.error e, evs)
    | (.ok m1, evs) =>
      match resolveMethodList msgs ms with
      | (.error e, evs2) => (.error e, evs ++ evs2)
      | (.ok ms1, evs2) => (.ok (m1 :: ms1), evs ++ evs2)

/-- The `for _, service := range f.Services { for _, method ... }` loops. -/
def resolveServiceList (msgs : List (String × MessageNode)) :
    List ServiceNode → Except GenError (List ServiceNode) × List Event
  | [] => (.ok [], [])
  | s :: ss =>
    match resolveMethodList msgs s.methods with
    | (.error e, evs) => (.error e, evs)
    | (.ok ms1, evs) =>
      match resolveServiceList msgs ss with
      | (.error e, evs2) => (.error e, evs ++ evs2)
      | (.ok ss1, evs2) => (.ok ({ s with methods := ms1 } :: ss1), evs ++ evs2)

/-! ## The registry (`NewGenerator` and `newFile`) -/

/-- `Location{SourceFile: desc.Path()}`: a file's own location, with the
empty path. -/
def fileLoc (p : FileDesc) : Location :=
  { sourceFile := p.path, path := [] }

/-- The file's top-level enum builder loop in `newFile`. -/
def fileEnumsW (p : FileDesc) : List (EnumNode × List RegWrite) :=
  mapIdx (fun i ed => newEnum (fileLoc p) p.locs none i ed) p.enums

/-- The file's top-level message builder loop in `newFile`. -/
def fileMsgsW (p : FileDesc) : List (MessageNode × List RegWrite) :=
  newMessageList (fileLoc p) p.locs none 0 p.messages

/-- The file's top-level extension builder loop in `newFile`. -/
def fileExts (p : FileDesc) : List FieldNode :=
  mapIdx (fun i fd => newField (fileLoc p) p.locs none i fd) p.extensions

/-- The file's service builder loop in `newFile`. -/
def fileSvcs (p : FileDesc) : List ServiceNode :=
  mapIdx (fun i sd => newService (fileLoc p) p.locs i sd) p.services

/-- All table stores building one file performs, in Go store order. -/
def fileWritesOf (p : FileDesc) : List RegWrite :=
  ((fileEnumsW p).map (·.2)).flatten ++ ((fileMsgsW p).map (·.2)).flatten

mutual

/-- The auxiliary declaration names of a message subtree (enum values,
extension fields), beyond the enum/message names themselves. -/
def msgAuxNames : MessageDesc → List String
  | .mk _ enums messages _ _ extensions =>
    (enums.map (fun e => e.values.map (·.fullName))).flatten ++
      msgAuxNamesList messages ++ (extensions.map (·.fullName))

def msgAuxNamesList : List MessageDesc → List String
  | [] => []
  | m :: ms => msgAuxNames m ++ msgAuxNamesList ms

end

/-- The declaration full names `RegisterFile` indexes for a file: the
enum/message registration keys plus the auxiliary names. -/
def declaredNames (p : FileDesc) : List String :=
  (fileWritesOf p).map RegWrite.key ++
    (p.enums.map (fun e => e.values.map (·.fullName))).flatten ++
    msgAuxNamesList p.messages ++ (p.extensions.map (·.fullName)) ++
    (p.services.map (·.fullName))

/-- Modelled behaviour of `protodesc.NewFile(p, gen.fileReg)`: converting
the `FileDescriptorProto` fails unless every dependency path is already
registered; the full validation it performs besides this is out of scope
(spec §1: the decoder layer is assumed correct). -/
def protodescNewFile (reg : FileReg) (p : FileDesc) : Except GenError Unit :=
  if p.dependencies.all (fun d => reg.paths.contains d) then .ok ()
  else .error (.invalidFile p.path)

/-- Modelled behaviour of `gen.fileReg.RegisterFile(desc)`: fails when the
file path or any declared full name conflicts with one already registered
(also with an earlier name of the same file). -/
def registerNames (p : FileDesc) (reg : FileReg) : List String → Except GenError FileReg
  | [] => .ok reg
  | n :: ns =>
    if reg.names.contains n then .error (.cannotRegister p.path)
    else registerNames p { reg with names := reg.names ++ [n] } ns

def registerFile (reg : FileReg) (p : FileDesc) : Except GenError FileReg :=
  if reg.paths.contains p.path then .error (.cannotRegister p.path)
  else registerNames p { reg with paths := reg.paths ++ [p.path] } (declaredNames p)

/-- `newFile` (`type.go`): converts and registers the descriptor, builds the
file's enums, messages, extensions and services (in that order), and then
immediately resolves the file's messages, extensions and service methods.
The updated generator state is returned alongside the result, mirroring the
mutation of `*Generator`; a `builtFile` ghost event separates the file's
construction from its resolution. -/
def newFile (gen : Gen) (p : FileDesc) : Gen × Except GenError FileNode :=
  match protodescNewFile gen.fileReg p with
  | .error e => (gen, .error e)
  | .ok () =>
    match registerFile gen.fileReg p with
    | .error e => (gen, .error e)
    | .ok reg1 =>
      let floc := fileLoc p
      let enumsW := fileEnumsW p
      let msgsW := fileMsgsW p
      let exts := fileExts p
      let svcs := fileSvcs p
      let gen1 := applyWrites { gen with fileReg := reg1 } (fileWritesOf p)
      let gen2 := { gen1 with trace := gen1.trace ++ [Event.builtFile p.path] }
      match resolveMessageList gen2.enumsByName gen2.messagesByName (msgsW.map (·.1)) with
      | (.error e, evs) => ({ gen2 with trace := gen2.trace ++ evs }, .error e)
      | (.ok msgs1, evs1) =>
        match resolveFieldList gen2.enumsByName gen2.messagesByName exts with
        | (.error e, evs2) =>
          ({ gen2 with trace := gen2.trace ++ evs1 ++ evs2 }, .error e)
        | (.ok exts1, evs2) =>
          match resolveServiceList gen2.messagesByName svcs with
          | (.error e, evs3) =>
            ({ gen2 with trace := gen2.trace ++ evs1 ++ evs2 ++ evs3 }, .error e)
          | (.ok svcs1, evs3) =>
            ({ gen2 with trace := gen2.trace ++ evs1 ++ evs2 ++ evs3 },
              .ok { desc := p, enums := enumsW.map (·.1), messages := msgs1
                    extensions := exts1, services := svcs1, location := floc
                    generate := false })

/-- The request fed to `NewGenerator` (the parts of
`pluginpb.CodeGeneratorRequest` it reads). -/
structure CodeGeneratorRequest where
  protoFile : List FileDesc
  fileToGenerate : List String

/-- The `for _, protoFile := range gen.request.ProtoFile` loop of
`NewGenerator`: duplicate-path check, then `newFile`, then recording the
file in `gen.files` and `gen.filesByPath`. -/
def newGeneratorLoop (gen : Gen) : List FileDesc → Gen × Except GenError Unit
  | [] => (gen, .ok ())
  | p :: ps =>
    if (mapGet gen.filesByPath p.path).isSome then
      (gen, .error (.duplicateFile p.path))
    else
      match newFile gen p with
      | (gen1, .error e) => (gen1, .error e)
      | (gen1, .ok f) =>
        newGeneratorLoop
          { gen1 with files := gen1.files ++ [f]
                      filesByPath := (p.path, gen1.files.length) :: gen1.filesByPath }
          ps

/-- The `for _, filename := range gen.request.FileToGenerate` loop of
`NewGenerator`: look each requested path up and set its file's `Generate`
flag, failing on the first unknown path. -/
def markGenerate (gen : Gen) : List String → Gen × Except GenError Unit
  | [] => (gen, .ok ())
  | fn :: fns =>
    match mapGet gen.filesByPath fn with
    | none => (gen, .error (.unknownFileToGenerate fn))
    | some i =>
      markGenerate
        { gen with files := modifyIdx (fun f => { f with generate := true }) i gen.files }
        fns

/-- `NewGenerator` (generator file): process every supplied file in order,
then mark the files to generate.  The final generator state is returned in
both the success and the failure case (in Go the caller discards it on
failure). -/
def NewGenerator (req : CodeGeneratorRequest) : Gen × Except GenError Unit :=
  match newGeneratorLoop Gen.initial req.protoFile with
  | (gen, .error e) => (gen, .error e)
  | (gen, .ok ()) => markGenerate gen req.fileToGenerate

/-! ## Pure characterizations of the resolve phase

When resolution of a node succeeds, the only change it makes is to fill the
link keys in from the node's own descriptor, so the successful result is a
pure function of the node; likewise the sequence of map reads it performs is
then the full, state-independent list of the node's lookups.  These pure
functions are proved to characterize the resolvers below and are used to
state graph-level claims. -/

/-- The field a successful `Field.resolveDependencies` returns. -/
def fieldResolved (f : FieldNode) : FieldNode :=
  let f1 := match f.desc.kind with
    | .enumKind => { f with enum := some f.desc.typeName }
    | .messageKind => { f with message := some f.desc.typeName }
    | .groupKind => { f with message := some f.desc.typeName }
    | .scalar => f
  if f1.desc.isExtension then { f1 with extendee := some f1.desc.extendeeName } else f1

/-- The map reads a successful `Field.resolveDependencies` performs. -/
def fieldLookupEvents (f : FieldNode) : List Event :=
  (match f.desc.kind with
    | .enumKind => [Event.lookupEnum f.desc.typeName]
    | .messageKind => [Event.lookupMsg f.desc.typeName]
    | .groupKind => [Event.lookupMsg f.desc.typeName]
    | .scalar => []) ++
    (if f.desc.isExtension then [Event.lookupMsg f.desc.extendeeName] else [])

mutual

/-- The message a successful `Message.resolveDependencies` returns. -/
def msgResolved : MessageNode → MessageNode
  | .mk fullName fields oneofs enumNodes messages extensions loc cs =>
    .mk fullName (fields.map fieldResolved) oneofs enumNodes
      (msgResolvedList messages) (extensions.map fieldResolved) loc cs

def msgResolvedList : List MessageNode → List MessageNode
  | [] => []
  | m :: ms => msgResolved m :: msgResolvedList ms

end

mutual

/-- The map reads a successful `Message.resolveDependencies` performs. -/
def msgLookupEvents : MessageNode → List Event
  | .mk _ fields _ _ messages extensions _ _ =>
    (fields.map fieldLookupEvents).flatten ++ msgLookupEventsList messages ++
      (extensions.map fieldLookupEvents).flatten

def msgLookupEventsList : List MessageNode → List Event
  | [] => []
  | m :: ms => msgLookupEvents m ++ msgLookupEventsList ms

end

/-- The method a successful `Method.resolveDependencies` returns. -/
def methodResolved (m : MethodNode) : MethodNode :=
  { m with input := some m.desc.inputName, output := some m.desc.outputName }

/-- The map reads a successful `Method.resolveDependencies` performs. -/
def methodLookupEvents (m : MethodNode) : List Event :=
  [Event.lookupMsg m.desc.inputName, Event.lookupMsg m.desc.outputName]

/-- The service a successful resolution pass returns. -/
def svcResolved (s : ServiceNode) : ServiceNode :=
  { s with methods := s.methods.map methodResolved }

def svcLookupEvents (s : ServiceNode) : List Event :=
  (s.methods.map methodLookupEvents).flatten

/-- The fully linked file node a successful `newFile` returns. -/
def fileNodeResolved (p : FileDesc) : FileNode :=
  { desc := p
    enums := (fileEnumsW p).map (·.1)
    messages := msgResolvedList ((fileMsgsW p).map (·.1))
    extensions := (fileExts p).map fieldResolved
    services := (fileSvcs p).map svcResolved
    location := fileLoc p
    generate := false }

/-- The ghost event of one table store. -/
def RegWrite.event : RegWrite → Event
  | .enum n _ => .regEnum n
  | .msg n _ => .regMsg n

/-- The map reads a successful `newFile` performs while resolving, in
order: messages, then extensions, then service methods. -/
def fileResolveEvents (p : FileDesc) : List Event :=
  msgLookupEventsList ((fileMsgsW p).map (·.1)) ++
    ((fileExts p).map fieldLookupEvents).flatten ++
    ((fileSvcs p).map svcLookupEvents).flatten

/-- The ghost trace a successful `newFile` appends: the build-phase table
stores, the built marker, then the resolve-phase reads. -/
def fileTrace (p : FileDesc) : List Event :=
  (fileWritesOf p).map RegWrite.event ++ [Event.builtFile p.path] ++ fileResolveEvents p

/-! ## A slice-level model of `appendPath` (for the aliasing claim)

`protoreflect.SourcePath` is a Go slice.  To state that `appendPath` copies
and never aliases, Go slices of `int32` are modelled against an explicit
store of numbered buffers: a slice is a buffer id plus a length, its
contents are the first `len` cells of the buffer, and its capacity is the
buffer size.  `goAppend` follows Go `append`: it writes in place when spare
capacity suffices (mutating the shared buffer) and otherwise moves the data
to a fresh buffer. -/

/-- The store of slice buffers. -/
structure SliceStore where
  bufs : List (List Int)

/-- A Go slice value: a reference into the store (`none` is the nil slice,
which views no buffer and has capacity 0). -/
structure GoSlice where
  buf : Option Nat
  len : Nat

/-- The whole buffer a slice points into. -/
def SliceStore.bufOf (st : SliceStore) (s : GoSlice) : List Int :=
  match s.buf with
  | none => []
  | some b => (st.bufs.get? b).getD []

/-- The elements a slice views. -/
def SliceStore.contents (st : SliceStore) (s : GoSlice) : List Int :=
  (st.bufOf s).take s.len

/-- The capacity of a slice (its whole buffer, since the slices built here
always start at offset 0). -/
def SliceStore.cap (st : SliceStore) (s : GoSlice) : Nat :=
  (st.bufOf s).length

def GoSlice.nilSlice : GoSlice := { buf := none, len := 0 }

/-- Go `append`: write in place into spare capacity (mutating the shared
buffer), else move the data to a fresh buffer (the fresh buffer is given
exactly the needed capacity; Go's exact growth factor is unspecified and
does not matter for these claims). -/
def goAppend (st : SliceStore) (s : GoSlice) (vals : List Int) :
    SliceStore × GoSlice :=
  match s.buf with
  | some b =>
    if s.len + vals.length ≤ st.cap s ∧ b < st.bufs.length then
      ({ bufs := modifyIdx
            (fun bf => bf.take s.len ++ vals ++ bf.drop (s.len + vals.length)) b st.bufs }
       , { s with len := s.len + vals.length })
    else
      ({ bufs := st.bufs ++ [st.contents s ++ vals] },
        { buf := some st.bufs.length, len := s.len + vals.length })
  | none =>
    ({ bufs := st.bufs ++ [st.contents s ++ vals] },
      { buf := some st.bufs.length, len := s.len + vals.length })

/-- A `Location` whose path is a real Go slice. -/
structure LocationS where
  sourceFile : String
  path : GoSlice

/-- `appendPath` at the slice level, line for line: copy the path
(`append(protoreflect.SourcePath(nil), loc.Path...)`), then append
`int32(num), int32(idx)`. -/
def appendPathGo (st : SliceStore) (loc : LocationS) (num : Int) (idx : Nat) :
    SliceStore × LocationS :=
  let copied := goAppend st GoSlice.nilSlice (st.contents loc.path)
  let extended := goAppend copied.1 copied.2 [num, (idx : Int)]
  (extended.1, { loc with path := extended.2 })

/-! ## Helper lemmas about the list combinators -/

theorem mapIdxFrom_get? (f : Nat → α → β) :
    ∀ (l : List α) (n i : Nat), (mapIdxFrom f n l).get? i = (l.get? i).map (f (n + i))
  | [], n, i => by simp [mapIdxFrom]
  | a :: as, n, 0 => by simp [mapIdxFrom]
  | a :: as, n, i + 1 => by
    have h := mapIdxFrom_get? f as (n + 1) i
    simpa [mapIdxFrom, Nat.add_assoc, Nat.add_comm 1 i] using h

theorem mapIdx_get? (f : Nat → α → β) (l : List α) (i : Nat) :
    (mapIdx f l).get? i = (l.get? i).map (f i) := by
  simpa using mapIdxFrom_get? f l 0 i

theorem mapIdxFrom_length (f : Nat → α → β) :
    ∀ (l : List α) (n : Nat), (mapIdxFrom f n l).length = l.length
  | [], _ => rfl
  | a :: as, n => by simp [mapIdxFrom, mapIdxFrom_length f as (n + 1)]

theorem mapIdx_length (f : Nat → α → β) (l : List α) :
    (mapIdx f l).length = l.length := mapIdxFrom_length f l 0

theorem modifyIdx_get? (f : α → α) :
    ∀ (j : Nat) (l : List α) (i : Nat),
      (modifyIdx f j l).get? i = if i = j then (l.get? i).map f else l.get? i
  | _, [], i => by simp [modifyIdx]
  | 0, a :: as, 0 => by simp [modifyIdx]
  | 0, a :: as, i + 1 => by simp [modifyIdx]
  | j + 1, a :: as, 0 => by simp [modifyIdx]
  | j + 1, a :: as, i + 1 => by
    have h := modifyIdx_get? f j as i
    by_cases hij : i = j
    · subst hij
      simp only [if_pos rfl] at h
      simpa [modifyIdx] using h
    · have hij1 : ¬(i + 1 = j + 1) := fun hc => hij (by omega)
      simp only [if_neg hij] at h
      simpa [modifyIdx, hij1] using h

theorem modifyIdx_mem (f : α → α) :
    ∀ (j : Nat) (l : List α) (x : α), x ∈ modifyIdx f j l →
      ∃ y ∈ l, x = y ∨ x = f y
  | _, [], x, h => by simp [modifyIdx] at h
  | 0, a :: as, x, h => by
    rcases List.mem_cons.mp h with h | h
    · exact ⟨a, by simp, Or.inr h⟩
    · exact ⟨x, by simp [h], Or.inl rfl⟩
  | j + 1, a :: as, x, h => by
    rcases List.mem_cons.mp h with h | h
    · exact ⟨a, by simp, Or.inl h⟩
    · rcases modifyIdx_mem f j as x h with ⟨y, hy, hxy⟩
      exact ⟨y, by simp [hy], hxy⟩

theorem mapGet_mem : ∀ (l : List (String × α)) (k : String) (v : α),
    mapGet l k = some v → (k, v) ∈ l
  | [], _, _, h => by simp [mapGet] at h
  | (k', v') :: l, k, v, h => by
    by_cases hk : k' = k
    · subst hk
      have h' : v' = v := by simpa [mapGet] using h
      subst h'
      exact List.mem_cons_self _ _
    · simp only [mapGet, if_neg hk] at h
      exact List.mem_cons_of_mem _ (mapGet_mem l k v h)

theorem mapGet_eq_none_iff : ∀ (l : List (String × α)) (k : String),
    mapGet l k = none ↔ k ∉ l.map (·.1)
  | [], k => by simp [mapGet]
  | (k', v') :: l, k => by
    by_cases hk : k' = k
    · subst hk
      simp [mapGet]
    · simp only [mapGet, if_neg hk, List.map_cons, List.mem_cons]
      rw [mapGet_eq_none_iff l k]
      constructor
      · intro h hc
        rcases hc with hc | hc
        · exact hk hc.symm
        · exact h hc
      · intro h hc
        exact h (Or.inr hc)

theorem mapGet_isSome_iff (l : List (String × α)) (k : String) :
    (mapGet l k).isSome = true ↔ k ∈ l.map (·.1) := by
  rcases hm : mapGet l k with _ | v
  · rw [mapGet_eq_none_iff] at hm
    simp [hm]
  · simp only [Option.isSome_some, true_iff]
    exact List.mem_map_of_mem (·.1) (mapGet_mem l k v hm)

theorem mem_mapGet : ∀ (l : List (String × α)) (k : String) (v : α),
    (l.map (·.1)).Nodup → (k, v) ∈ l → mapGet l k = some v
  | [], _, _, _, h => by simp at h
  | (k', v') :: l, k, v, hnd, h => by
    simp only [List.map_cons, List.nodup_cons] at hnd
    rcases List.mem_cons.mp h with h | h
    · injection h with hk hv
      subst hk
      subst hv
      simp [mapGet]
    · have hk : k' ≠ k := by
        intro he
        subst he
        exact hnd.1 (List.mem_map_of_mem (·.1) h)
      simp only [mapGet, if_neg hk]
      exact mem_mapGet l k v hnd.2 h

theorem mapGet_append_some : ∀ (A B : List (String × α)) (k : String) (v : α),
    mapGet A k = some v → mapGet (A ++ B) k = some v
  | [], _, _, _, h => by simp [mapGet] at h
  | (k', v') :: A, B, k, v, h => by
    by_cases hk : k' = k
    · simp only [mapGet, if_pos hk] at h
      simpa [mapGet, if_pos hk] using h
    · simp only [mapGet, if_neg hk] at h
      simpa [mapGet, if_neg hk] using mapGet_append_some A B k v h

theorem mapGet_append_none : ∀ (A B : List (String × α)) (k : String),
    mapGet A k = none → mapGet (A ++ B) k = mapGet B k
  | [], _, _, _ => rfl
  | (k', v') :: A, B, k, h => by
    by_cases hk : k' = k
    · simp [mapGet, if_pos hk] at h
    · simp only [mapGet, if_neg hk] at h
      simpa [mapGet, if_neg hk] using mapGet_append_none A B k h

/-- First-found index of a matching element. -/
def findIdxB (pred : α → Bool) : List α → Option Nat
  | [] => none
  | a :: as => if pred a then some 0 else (findIdxB pred as).map (· + 1)

theorem findIdxB_get? (pred : α → Bool) :
    ∀ l : List α,
      (match findIdxB pred l with
        | none => none
        | some i => l.get? i) = l.find? pred
  | [] => rfl
  | a :: as => by
    have ih := findIdxB_get? pred as
    by_cases h : pred a
    · simp [findIdxB, h, List.find?_cons]
    · simp only [findIdxB, if_neg h, List.find?_cons, h, if_neg (by simp [h] : ¬(pred a = true))]
      rw [← ih]
      rcases findIdxB pred as with _ | i <;> simp

theorem findIdxB_append (pred : α → Bool) :
    ∀ (A B : List α), findIdxB pred (A ++ B) =
      match findIdxB pred A with
      | some i => some i
      | none => (findIdxB pred B).map (· + A.length)
  | [], B => by
    simp only [List.nil_append, findIdxB, List.length_nil]
    rcases findIdxB pred B with _ | j <;> simp
  | a :: A, B => by
    have ih := findIdxB_append pred A B
    by_cases h : pred a
    · simp [findIdxB, h]
    · simp only [List.cons_append, findIdxB, if_neg h, List.append_eq]
      rw [ih]
      rcases hA : findIdxB pred A with _ | i
      · rcases hB : findIdxB pred B with _ | j
        · simp [hA, hB]
        · simp [hA, hB, Nat.add_assoc]
      · simp [hA]

theorem findIdxB_none_iff (pred : α → Bool) :
    ∀ l : List α, findIdxB pred l = none ↔ ∀ x ∈ l, pred x = false
  | [] => by simp [findIdxB]
  | a :: as => by
    have ih := findIdxB_none_iff pred as
    by_cases h : pred a
    · constructor
      · intro hn
        simp [findIdxB, h] at hn
      · intro hall
        have hfa := hall a (List.mem_cons_self a as)
        rw [h] at hfa
        cases hfa
    · constructor
      · intro hn x hx
        simp only [findIdxB, if_neg h] at hn
        have has : findIdxB pred as = none := by
          rcases hfa : findIdxB pred as with _ | i
          · rfl
          · rw [hfa] at hn
            cases hn
        rcases List.mem_cons.mp hx with rfl | hx
        · simpa using h
        · exact ih.mp has x hx
      · intro hall
        simp only [findIdxB, if_neg h]
        rw [ih.mpr (fun x hx => hall x (List.mem_cons_of_mem a hx))]
        rfl

/-! ## Claim C10: comment formatting -/

theorem splitNl_ne_nil : ∀ s : List Char, splitNl s ≠ []
  | [] => by simp [splitNl]
  | c :: cs => by
    by_cases h : c = '\n'
    · simp [splitNl, h]
    · simp only [splitNl, if_neg h]
      rcases hs : splitNl cs with _ | ⟨l, ls⟩
      · simp
      · simp

/-- Lines joined with a newline separator and a `//` opening for the next
line: the spec-side description of the comment body between the initial
`//` and the final newline. -/
def interNl : List (List Char) → List Char
  | [] => []
  | [l] => l
  | l :: l2 :: ls => l ++ '\n' :: '/' :: '/' :: interNl (l2 :: ls)

theorem flatten_commentLines : ∀ ls : List (List Char), ls ≠ [] →
    (ls.map (fun line => '/' :: '/' :: (line ++ ['\n']))).flatten =
      ['/', '/'] ++ interNl ls ++ ['\n']
  | [], h => absurd rfl h
  | [a], _ => by simp [interNl]
  | a :: b :: ls, _ => by
    have ih := flatten_commentLines (b :: ls) (by simp)
    simp only [List.map_cons, List.flatten_cons] at ih ⊢
    rw [ih, interNl]
    simp

/-- Claim C10: `Comments.String` returns the empty string on an empty
comment; otherwise it removes one trailing newline, splits the rest into
lines, prefixes every line with `//` and terminates every line with a
newline — so the nonempty result is `//`, then the lines joined by
`"\n//"`, then a final newline, and in particular always ends in a
newline. -/
theorem C10_comments_string (c : Comments) :
    (c = ([] : List Char) → Comments.string c = []) ∧
    (c ≠ ([] : List Char) →
      Comments.string c = ['/', '/'] ++ interNl (splitNl (trimSuffixNl c)) ++ ['\n'] ∧
      (Comments.string c).getLast? = some '\n') := by
  constructor
  · intro h
    simp [Comments.string, h]
  · intro h
    have hne := splitNl_ne_nil (trimSuffixNl c)
    have heq : Comments.string c =
        ((splitNl (trimSuffixNl c)).map (fun line => '/' :: '/' :: (line ++ ['\n']))).flatten := by
      simp [Comments.string, h]
    rw [heq, flatten_commentLines _ hne]
    refine ⟨rfl, ?_⟩
    rw [show ['/', '/'] ++ interNl (splitNl (trimSuffixNl c)) ++ ['\n'] =
          (['/', '/'] ++ interNl (splitNl (trimSuffixNl c))) ++ ['\n'] by
        simp [List.append_assoc]]
    exact List.getLast?_concat _

/-- Witness for C10 at the two-line comment `"a\nb\n"`. -/
theorem C10_comments_string_witness :
    Comments.string ['a', '\n', 'b', '\n'] =
      ['/', '/'] ++ interNl (splitNl (trimSuffixNl ['a', '\n', 'b', '\n'])) ++ ['\n'] ∧
    (Comments.string ['a', '\n', 'b', '\n']).getLast? = some '\n' :=
  (C10_comments_string ['a', '\n', 'b', '\n']).2 (by decide)

/-! ## Claim C9: `appendPath` copies and never aliases -/

theorem goAppend_nilSlice (st : SliceStore) (vals : List Int) :
    goAppend st GoSlice.nilSlice vals =
      ({ bufs := st.bufs ++ [vals] }, { buf := some st.bufs.length, len := vals.length }) := by
  simp [goAppend, GoSlice.nilSlice, SliceStore.contents, SliceStore.bufOf]

theorem sliceGet_concat (A : List (List Int)) (v : List Int) :
    (A ++ [v]).get? A.length = some v := by
  rw [List.get?_eq_getElem?]
  exact List.getElem?_concat_length A v

/-- Contents of a slice viewing the freshly appended last buffer. -/
theorem contents_last (A : List (List Int)) (v : List Int) (n : Nat) (hn : v.length ≤ n) :
    SliceStore.contents { bufs := A ++ [v] } { buf := some A.length, len := n } = v := by
  show (((A ++ [v]).get? A.length).getD []).take n = v
  rw [sliceGet_concat]
  exact List.take_of_length_le hn

/-- Extending the store leaves the view of every slice into the old part
unchanged. -/
theorem contents_append_frame (A B : List (List Int)) (s : GoSlice)
    (hs : ∀ b, s.buf = some b → b < A.length) :
    SliceStore.contents { bufs := A ++ B } s = SliceStore.contents { bufs := A } s := by
  rcases hb : s.buf with _ | b
  · simp [SliceStore.contents, SliceStore.bufOf, hb]
  · have hlt : b < A.length := hs b hb
    have hgb : (A ++ B)[b]? = A[b]? := List.getElem?_append_left hlt
    simp [SliceStore.contents, SliceStore.bufOf, hb, List.get?_eq_getElem?, hgb]

theorem goAppend_lastFull (A : List (List Int)) (v vals : List Int) (hv : vals ≠ []) :
    goAppend { bufs := A ++ [v] } { buf := some A.length, len := v.length } vals =
      ({ bufs := (A ++ [v]) ++ [v ++ vals] },
        { buf := some (A ++ [v]).length, len := v.length + vals.length }) := by
  have hcap : SliceStore.cap { bufs := A ++ [v] } { buf := some A.length, len := v.length } =
      v.length := by
    show (((A ++ [v]).get? A.length).getD []).length = v.length
    rw [sliceGet_concat]
    rfl
  have hcond : ¬(v.length + vals.length ≤
      SliceStore.cap { bufs := A ++ [v] } { buf := some A.length, len := v.length } ∧
      A.length < (A ++ [v]).length) := by
    rw [hcap]
    rintro ⟨hle, -⟩
    have : vals.length = 0 := by omega
    exact hv (List.length_eq_zero.mp this)
  have hcont : SliceStore.contents { bufs := A ++ [v] }
      { buf := some A.length, len := v.length } = v :=
    contents_last A v v.length le_rfl
  simp only [goAppend, if_neg hcond, hcont]

/-- The two `append` calls of `appendPath`, fully evaluated: both allocate,
so the store grows by two fresh buffers and nothing else changes. -/
theorem appendPathGo_eq (st : SliceStore) (loc : LocationS) (num : Int) (idx : Nat) :
    appendPathGo st loc num idx =
      ({ bufs := (st.bufs ++ [st.contents loc.path]) ++
            [st.contents loc.path ++ [num, (idx : Int)]] },
        { sourceFile := loc.sourceFile
          path := { buf := some (st.bufs.length + 1)
                    len := (st.contents loc.path).length + 2 } }) := by
  unfold appendPathGo
  rw [goAppend_nilSlice]
  have h2 := goAppend_lastFull st.bufs (st.contents loc.path) [num, (idx : Int)] (by simp)
  simp only [h2, List.length_append, List.length_cons, List.length_nil]

/-- Claim C9: `appendPath` returns a new Location whose path is the
original path with `(num, idx)` appended; the receiver's path — and every
other live slice, in particular any sibling's path — is left unchanged
because every existing buffer of the store is untouched; the returned path
lives in a fresh buffer, sharing no storage with the input; and the
contents agree with the list-level `Location.appendPath` used by the rest
of the development. -/
theorem C9_appendPath_copies (st : SliceStore) (loc : LocationS) (num : Int) (idx : Nat) :
    (appendPathGo st loc num idx).1.contents (appendPathGo st loc num idx).2.path =
      st.contents loc.path ++ [num, (idx : Int)] ∧
    (∀ s : GoSlice, (∀ b, s.buf = some b → b < st.bufs.length) →
      (appendPathGo st loc num idx).1.contents s = st.contents s) ∧
    (∀ b, (appendPathGo st loc num idx).2.path.buf = some b → st.bufs.length ≤ b) ∧
    (appendPathGo st loc num idx).1.contents (appendPathGo st loc num idx).2.path =
      (Location.appendPath { sourceFile := loc.sourceFile, path := st.contents loc.path }
        num idx).path ∧
    (appendPathGo st loc num idx).2.sourceFile = loc.sourceFile := by
  rw [appendPathGo_eq]
  have hmain := contents_last (st.bufs ++ [st.contents loc.path])
    (st.contents loc.path ++ [num, (idx : Int)]) ((st.contents loc.path).length + 2)
    (by simp)
  have hlen : (st.bufs ++ [st.contents loc.path]).length = st.bufs.length + 1 := by simp
  rw [hlen] at hmain
  refine ⟨hmain, ?_, ?_, ?_, rfl⟩
  · intro s hs
    have hframe := contents_append_frame st.bufs
      ([st.contents loc.path] ++ [st.contents loc.path ++ [num, (idx : Int)]]) s hs
    rw [← List.append_assoc] at hframe
    exact hframe
  · intro b hb
    simp only at hb
    injection hb with hb
    omega
  · rw [hmain]
    simp [Location.appendPath]

/-- Witness for C9: appending `(4, 0)` to a one-element path stored in a
one-buffer store. -/
theorem C9_appendPath_copies_witness :
    (appendPathGo { bufs := [[9]] }
        { sourceFile := "w.proto", path := { buf := some 0, len := 1 } } 4 0).1.contents
      (appendPathGo { bufs := [[9]] }
        { sourceFile := "w.proto", path := { buf := some 0, len := 1 } } 4 0).2.path =
      [9, 4, 0] ∧
    (appendPathGo { bufs := [[9]] }
        { sourceFile := "w.proto", path := { buf := some 0, len := 1 } } 4 0).1.contents
      { buf := some 0, len := 1 } = [9] := by
  have h := C9_appendPath_copies { bufs := [[9]] }
    { sourceFile := "w.proto", path := { buf := some 0, len := 1 } } 4 0
  refine ⟨?_, ?_⟩
  · have := h.1
    simpa using this
  · exact h.2.1 { buf := some 0, len := 1 }
      (by
        intro b hb
        have hb' : (0 : Nat) = b := Option.some.inj hb
        subst hb'
        decide)

/-! ## Claim C5: field/oneof wiring -/

/-- The indices (counting from `i`) of the fields whose descriptor places
them in oneof `j`. -/
def oneofMembers (i j : Nat) : List FieldNode → List Nat
  | [] => []
  | f :: fs =>
    if f.desc.oneofIdx = some j then i :: oneofMembers (i + 1) j fs
    else oneofMembers (i + 1) j fs

/-- The per-field effect of the wiring loop. -/
def wireField (f : FieldNode) : FieldNode :=
  match f.desc.oneofIdx with
  | some j => { f with oneof := some j }
  | none => f

theorem wireOneofs_fst : ∀ (i : Nat) (fs : List FieldNode) (os : List OneofNode),
    (wireOneofs i fs os).1 = fs.map wireField
  | _, [], _ => rfl
  | i, f :: fs, os => by
    rcases hf : f.desc.oneofIdx with _ | j
    · simp [wireOneofs, hf, wireField, wireOneofs_fst (i + 1) fs os]
    · simp [wireOneofs, hf, wireField, wireOneofs_fst (i + 1) fs]

theorem wireOneofs_snd : ∀ (i : Nat) (fs : List FieldNode) (os : List OneofNode) (j : Nat),
    (wireOneofs i fs os).2.get? j =
      (os.get? j).map (fun o => { o with fields := o.fields ++ oneofMembers i j fs })
  | _, [], os, j => by
    simp only [wireOneofs, oneofMembers, List.append_nil]
    rcases os.get? j with _ | o <;> rfl
  | i, f :: fs, os, j => by
    rcases hf : f.desc.oneofIdx with _ | j'
    · simp only [wireOneofs, hf]
      rw [wireOneofs_snd (i + 1) fs os j]
      simp [oneofMembers, hf]
    · simp only [wireOneofs, hf]
      rw [wireOneofs_snd (i + 1) fs _ j]
      rw [modifyIdx_get?]
      by_cases hjj : j = j'
      · subst hjj
        simp only [if_pos rfl, oneofMembers, hf, if_pos rfl]
        rcases os.get? j with _ | o <;> simp
      · have : f.desc.oneofIdx = some j' ∧ j' ≠ j := ⟨hf, fun hc => hjj hc.symm⟩
        simp only [if_neg hjj, oneofMembers, hf]
        rw [if_neg (fun hc : some j' = some j => hjj (Option.some.inj hc).symm)]

theorem oneofMembers_mem : ∀ (fs : List FieldNode) (i j k : Nat),
    k ∈ oneofMembers i j fs ↔
      ∃ f, i ≤ k ∧ fs.get? (k - i) = some f ∧ f.desc.oneofIdx = some j
  | [], i, j, k => by simp [oneofMembers]
  | f :: fs, i, j, k => by
    have ih := oneofMembers_mem fs (i + 1) j k
    by_cases hf : f.desc.oneofIdx = some j
    · simp only [oneofMembers, if_pos hf, List.mem_cons, ih]
      constructor
      · rintro (rfl | ⟨g, hik, hget, hj⟩)
        · exact ⟨f, le_rfl, by simp, hf⟩
        · refine ⟨g, by omega, ?_, hj⟩
          have : k - i = (k - (i + 1)) + 1 := by omega
          rw [this]
          simpa using hget
      · rintro ⟨g, hik, hget, hj⟩
        by_cases hk : k = i
        · exact Or.inl hk
        · refine Or.inr ⟨g, by omega, ?_, hj⟩
          have : k - i = (k - (i + 1)) + 1 := by omega
          rw [this] at hget
          simpa using hget
    · simp only [oneofMembers, if_neg hf, ih]
      constructor
      · rintro ⟨g, hik, hget, hj⟩
        refine ⟨g, by omega, ?_, hj⟩
        have : k - i = (k - (i + 1)) + 1 := by omega
        rw [this]
        simpa using hget
      · rintro ⟨g, hik, hget, hj⟩
        by_cases hk : k = i
        · subst hk
          simp at hget
          cases hget
          exact absurd hj hf
        · refine ⟨g, by omega, ?_, hj⟩
          have : k - i = (k - (i + 1)) + 1 := by omega
          rw [this] at hget
          simpa using hget

theorem oneofMembers_le : ∀ (fs : List FieldNode) (i j k : Nat),
    k ∈ oneofMembers i j fs → i ≤ k := by
  intro fs i j k hk
  rcases (oneofMembers_mem fs i j k).mp hk with ⟨f, hik, -, -⟩
  exact hik

theorem oneofMembers_sorted : ∀ (fs : List FieldNode) (i j : Nat),
    (oneofMembers i j fs).Pairwise (· < ·)
  | [], _, _ => List.Pairwise.nil
  | f :: fs, i, j => by
    by_cases hf : f.desc.oneofIdx = some j
    · simp only [oneofMembers, if_pos hf]
      refine List.Pairwise.cons ?_ (oneofMembers_sorted fs (i + 1) j)
      intro k hk
      have := oneofMembers_le fs (i + 1) j k hk
      omega
    · simp only [oneofMembers, if_neg hf]
      exact oneofMembers_sorted fs (i + 1) j

/-- Claim C5: after `newMessage` builds a message, a field's oneof
back-link points at oneof `j` exactly when that oneof's member list
contains the field's index, and every member list is strictly increasing,
i.e. holds its fields in declaration order. -/
theorem C5_oneof_consistency (floc : Location) (locs : List SourceLoc)
    (parentLoc : Option Location) (idx : Nat) (d : MessageDesc)
    (i j : Nat) (f : FieldNode) (o : OneofNode)
    (hf : (newMessage floc locs parentLoc idx d).1.fields.get? i = some f)
    (ho : (newMessage floc locs parentLoc idx d).1.oneofs.get? j = some o) :
    (f.oneof = some j ↔ i ∈ o.fields) ∧ o.fields.Pairwise (· < ·) := by
  rcases d with ⟨fn, es, ms, dfs, dos, dxs⟩
  simp only [newMessage.eq_def] at hf ho
  simp only [MessageNode.fields, MessageNode.oneofs] at hf ho
  set mloc := (match parentLoc with
    | some ploc => ploc.appendPath Descriptorproto_NestedType_FieldNumber idx
    | none => floc.appendPath FileDescriptorProto_MessageType_FieldNumber idx) with hmloc
  set F := mapIdx (fun i fd => newField floc locs (some mloc) i fd) dfs with hFdef
  set O := mapIdx (fun i od => newOneof locs mloc i od) dos with hOdef
  rw [wireOneofs_fst] at hf
  rw [wireOneofs_snd] at ho
  rw [List.get?_eq_getElem?, List.getElem?_map, ← List.get?_eq_getElem?] at hf
  rcases hf0 : F.get? i with _ | f0
  · rw [hf0] at hf
    cases hf
  · rw [hf0] at hf
    have hff : wireField f0 = f := by simpa using hf
    rcases hoo : O.get? j with _ | o0
    · rw [hoo] at ho
      cases ho
    · rw [hoo] at ho
      have hoe : { o0 with fields := o0.fields ++ oneofMembers 0 j F } = o := by
        simpa using ho
      have hf0oneof : f0.oneof = none := by
        rw [hFdef, mapIdx_get?] at hf0
        rcases hfd : dfs.get? i with _ | fd
        · rw [hfd] at hf0
          cases hf0
        · rw [hfd] at hf0
          have hnf : newField floc locs (some mloc) i fd = f0 := by simpa using hf0
          rw [← hnf]
          rfl
      have ho0fields : o0.fields = [] := by
        rw [hOdef, mapIdx_get?] at hoo
        rcases hod : dos.get? j with _ | od
        · rw [hod] at hoo
          cases hoo
        · rw [hod] at hoo
          have hno : newOneof locs mloc j od = o0 := by simpa using hoo
          rw [← hno]
          rfl
      have hofields : o.fields = oneofMembers 0 j F := by
        rw [← hoe]
        show o0.fields ++ oneofMembers 0 j F = _
        rw [ho0fields, List.nil_append]
      have hfoneof : f.oneof = f0.desc.oneofIdx := by
        rw [← hff]
        unfold wireField
        rcases hidx : f0.desc.oneofIdx with _ | j1
        · exact hf0oneof
        · rfl
      refine ⟨?_, ?_⟩
      · rw [hfoneof, hofields, oneofMembers_mem]
        constructor
        · intro hidx
          exact ⟨f0, Nat.zero_le i, by simpa using hf0, hidx⟩
        · rintro ⟨g, -, hget, hj⟩
          rw [Nat.sub_zero, hf0] at hget
          have hgf : f0 = g := Option.some.inj hget
          rw [← hgf] at hj
          exact hj
      · rw [hofields]
        exact oneofMembers_sorted F 0 j


/-- Witness for C5: a message with one oneof containing its two fields. -/
theorem C5_oneof_consistency_witness :
    ((newMessage { sourceFile := "w.proto", path := [] } [] none 0
        (.mk "M"
          [] []
          [{ fullName := "M.a", kind := .scalar, typeName := "", oneofIdx := some 0,
             isExtension := false, extendeeName := "" },
           { fullName := "M.b", kind := .scalar, typeName := "", oneofIdx := some 0,
             isExtension := false, extendeeName := "" }]
          [{ fullName := "M.o" }] [])).1.fields.get? 1).isSome = true ∧
    (∀ f o,
      (newMessage { sourceFile := "w.proto", path := [] } [] none 0
        (.mk "M"
          [] []
          [{ fullName := "M.a", kind := .scalar, typeName := "", oneofIdx := some 0,
             isExtension := false, extendeeName := "" },
           { fullName := "M.b", kind := .scalar, typeName := "", oneofIdx := some 0,
             isExtension := false, extendeeName := "" }]
          [{ fullName := "M.o" }] [])).1.fields.get? 1 = some f →
      (newMessage { sourceFile := "w.proto", path := [] } [] none 0
        (.mk "M"
          [] []
          [{ fullName := "M.a", kind := .scalar, typeName := "", oneofIdx := some 0,
             isExtension := false, extendeeName := "" },
           { fullName := "M.b", kind := .scalar, typeName := "", oneofIdx := some 0,
             isExtension := false, extendeeName := "" }]
          [{ fullName := "M.o" }] [])).1.oneofs.get? 0 = some o →
      ((f.oneof = some 0 ↔ 1 ∈ o.fields) ∧ o.fields.Pairwise (· < ·))) :=
  ⟨by decide, fun f o hf ho =>
    C5_oneof_consistency { sourceFile := "w.proto", path := [] } [] none 0 _ 1 0 f o hf ho⟩

/-! ## Claim C8: resolver failure conditions and error contents -/

theorem containsSeq_of_eq (ys s xs t : List Char) (h : ys = s ++ xs ++ t) :
    containsSeq ys xs := ⟨s, t, h⟩

/-- Claim C8: the field resolver fails exactly when the declared enum type,
message type, or extendee is absent from the corresponding global table,
and the method resolver fails exactly when the input or output type is
absent from the message table; every error rendered carries both the
offending declaration's fully-qualified name and the unresolved target's
fully-qualified name. -/
theorem C8_resolver_errors (enums : List (String × EnumNode))
    (msgs : List (String × MessageNode)) (field : FieldNode) (method : MethodNode) :
    ((∃ e, (field.resolveDependencies enums msgs).1 = .error e) ↔
      ((field.desc.kind = .enumKind ∧ mapGet enums field.desc.typeName = none) ∨
        ((field.desc.kind = .messageKind ∨ field.desc.kind = .groupKind) ∧
          mapGet msgs field.desc.typeName = none) ∨
        (field.desc.isExtension = true ∧ mapGet msgs field.desc.extendeeName = none))) ∧
    (∀ e, (field.resolveDependencies enums msgs).1 = .error e →
      containsSeq e.render field.desc.fullName.data ∧
      ∃ target, containsSeq e.render target.data ∧
        ((target = field.desc.typeName ∧ field.desc.kind = .enumKind ∧
            mapGet enums target = none) ∨
          (target = field.desc.typeName ∧
            (field.desc.kind = .messageKind ∨ field.desc.kind = .groupKind) ∧
            mapGet msgs target = none) ∨
          (target = field.desc.extendeeName ∧ field.desc.isExtension = true ∧
            mapGet msgs target = none))) ∧
    ((∃ e, (method.resolveDependencies msgs).1 = .error e) ↔
      (mapGet msgs method.desc.inputName = none ∨
        mapGet msgs method.desc.outputName = none)) ∧
    (∀ e, (method.resolveDependencies msgs).1 = .error e →
      containsSeq e.render method.desc.fullName.data ∧
      ∃ target, containsSeq e.render target.data ∧ mapGet msgs target = none ∧
        (target = method.desc.inputName ∨ target = method.desc.outputName)) := by
  refine ⟨?_, ?_, ?_, ?_⟩
  · rcases hk : field.desc.kind
    · rcases hx : field.desc.isExtension
      · simp [FieldNode.resolveDependencies, hk, hx]
      · rcases hg : mapGet msgs field.desc.extendeeName with _ | m
        · simp [FieldNode.resolveDependencies, hk, hx, hg]
        · simp [FieldNode.resolveDependencies, hk, hx, hg]
    · rcases hg : mapGet enums field.desc.typeName with _ | e0
      · simp [FieldNode.resolveDependencies, hk, hg]
      · rcases hx : field.desc.isExtension
        · simp [FieldNode.resolveDependencies, hk, hg, hx]
        · rcases hg2 : mapGet msgs field.desc.extendeeName with _ | m
          · simp [FieldNode.resolveDependencies, hk, hg, hx, hg2]
          · simp [FieldNode.resolveDependencies, hk, hg, hx, hg2]
    · rcases hg : mapGet msgs field.desc.typeName with _ | m0
      · simp [FieldNode.resolveDependencies, hk, hg]
      · rcases hx : field.desc.isExtension
        · simp [FieldNode.resolveDependencies, hk, hg, hx]
        · rcases hg2 : mapGet msgs field.desc.extendeeName with _ | m
          · simp [FieldNode.resolveDependencies, hk, hg, hx, hg2]
          · simp [FieldNode.resolveDependencies, hk, hg, hx, hg2]
    · rcases hg : mapGet msgs field.desc.typeName with _ | m0
      · simp [FieldNode.resolveDependencies, hk, hg]
      · rcases hx : field.desc.isExtension
        · simp [FieldNode.resolveDependencies, hk, hg, hx]
        · rcases hg2 : mapGet msgs field.desc.extendeeName with _ | m
          · simp [FieldNode.resolveDependencies, hk, hg, hx, hg2]
          · simp [FieldNode.resolveDependencies, hk, hg, hx, hg2]
  · intro e he
    rcases hk : field.desc.kind
    · rcases hx : field.desc.isExtension
      · simp [FieldNode.resolveDependencies, hk, hx] at he
      · rcases hg : mapGet msgs field.desc.extendeeName with _ | m
        · simp [FieldNode.resolveDependencies, hk, hx, hg] at he
          subst he
          refine ⟨containsSeq_of_eq _ "field ".data _
              (((": no descriptor for type ") ++ field.desc.extendeeName).data)
              (by simp [GenError.render]), ?_⟩
          refine ⟨field.desc.extendeeName, containsSeq_of_eq _
              (("field " ++ field.desc.fullName ++ ": no descriptor for type ").data) _ []
              (by simp [GenError.render]), ?_⟩
          exact Or.inr (Or.inr ⟨rfl, rfl, hg⟩)
        · simp [FieldNode.resolveDependencies, hk, hx, hg] at he
    · rcases hg : mapGet enums field.desc.typeName with _ | e0
      · simp [FieldNode.resolveDependencies, hk, hg] at he
        subst he
        refine ⟨containsSeq_of_eq _ "field ".data _
            (((": no descriptor for enum ") ++ field.desc.typeName).data)
            (by simp [GenError.render]), ?_⟩
        refine ⟨field.desc.typeName, containsSeq_of_eq _
            (("field " ++ field.desc.fullName ++ ": no descriptor for enum ").data) _ []
            (by simp [GenError.render]), ?_⟩
        exact Or.inl ⟨rfl, rfl, hg⟩
      · rcases hx : field.desc.isExtension
        · simp [FieldNode.resolveDependencies, hk, hg, hx] at he
        · rcases hg2 : mapGet msgs field.desc.extendeeName with _ | m
          · simp [FieldNode.resolveDependencies, hk, hg, hx, hg2] at he
            subst he
            refine ⟨containsSeq_of_eq _ "field ".data _
                (((": no descriptor for type ") ++ field.desc.extendeeName).data)
                (by simp [GenError.render]), ?_⟩
            refine ⟨field.desc.extendeeName, containsSeq_of_eq _
                (("field " ++ field.desc.fullName ++ ": no descriptor for type ").data) _ []
                (by simp [GenError.render]), ?_⟩
            exact Or.inr (Or.inr ⟨rfl, rfl, hg2⟩)
          · simp [FieldNode.resolveDependencies, hk, hg, hx, hg2] at he
    · rcases hg : mapGet msgs field.desc.typeName with _ | m0
      · simp [FieldNode.resolveDependencies, hk, hg] at he
        subst he
        refine ⟨containsSeq_of_eq _ "field ".data _
            (((": no descriptor for type ") ++ field.desc.typeName).data)
            (by simp [GenError.render]), ?_⟩
        refine ⟨field.desc.typeName, containsSeq_of_eq _
            (("field " ++ field.desc.fullName ++ ": no descriptor for type ").data) _ []
            (by simp [GenError.render]), ?_⟩
        exact Or.inr (Or.inl ⟨rfl, Or.inl rfl, hg⟩)
      · rcases hx : field.desc.isExtension
        · simp [FieldNode.resolveDependencies, hk, hg, hx] at he
        · rcases hg2 : mapGet msgs field.desc.extendeeName with _ | m
          · simp [FieldNode.resolveDependencies, hk, hg, hx, hg2] at he
            subst he
            refine ⟨containsSeq_of_eq _ "field ".data _
                (((": no descriptor for type ") ++ field.desc.extendeeName).data)
                (by simp [GenError.render]), ?_⟩
            refine ⟨field.desc.extendeeName, containsSeq_of_eq _
                (("field " ++ field.desc.fullName ++ ": no descriptor for type ").data) _ []
                (by simp [GenError.render]), ?_⟩
            exact Or.inr (Or.inr ⟨rfl, rfl, hg2⟩)
          · simp [FieldNode.resolveDependencies, hk, hg, hx, hg2] at he
    · rcases hg : mapGet msgs field.desc.typeName with _ | m0
      · simp [FieldNode.resolveDependencies, hk, hg] at he
        subst he
        refine ⟨containsSeq_of_eq _ "field ".data _
            (((": no descriptor for type ") ++ field.desc.typeName).data)
            (by simp [GenError.render]), ?_⟩
        refine ⟨field.desc.typeName, containsSeq_of_eq _
            (("field " ++ field.desc.fullName ++ ": no descriptor for type ").data) _ []
            (by simp [GenError.render]), ?_⟩
        exact Or.inr (Or.inl ⟨rfl, Or.inr rfl, hg⟩)
      · rcases hx : field.desc.isExtension
        · simp [FieldNode.resolveDependencies, hk, hg, hx] at he
        · rcases hg2 : mapGet msgs field.desc.extendeeName with _ | m
          · simp [FieldNode.resolveDependencies, hk, hg, hx, hg2] at he
            subst he
            refine ⟨containsSeq_of_eq _ "field ".data _
                (((": no descriptor for type ") ++ field.desc.extendeeName).data)
                (by simp [GenError.render]), ?_⟩
            refine ⟨field.desc.extendeeName, containsSeq_of_eq _
                (("field " ++ field.desc.fullName ++ ": no descriptor for type ").data) _ []
                (by simp [GenError.render]), ?_⟩
            exact Or.inr (Or.inr ⟨rfl, rfl, hg2⟩)
          · simp [FieldNode.resolveDependencies, hk, hg, hx, hg2] at he
  · rcases hin : mapGet msgs method.desc.inputName with _ | mi
    · simp [MethodNode.resolveDependencies, hin]
    · rcases hout : mapGet msgs method.desc.outputName with _ | mo
      · simp [MethodNode.resolveDependencies, hin, hout]
      · simp [MethodNode.resolveDependencies, hin, hout]
  · intro e he
    rcases hin : mapGet msgs method.desc.inputName with _ | mi
    · simp [MethodNode.resolveDependencies, hin] at he
      subst he
      refine ⟨containsSeq_of_eq _ "method ".data _
          (((": no descriptor for type ") ++ method.desc.inputName).data)
          (by simp [GenError.render]), ?_⟩
      exact ⟨method.desc.inputName, containsSeq_of_eq _
          (("method " ++ method.desc.fullName ++ ": no descriptor for type ").data) _ []
          (by simp [GenError.render]), hin, Or.inl rfl⟩
    · rcases hout : mapGet msgs method.desc.outputName with _ | mo
      · simp [MethodNode.resolveDependencies, hin, hout] at he
        subst he
        refine ⟨containsSeq_of_eq _ "method ".data _
            (((": no descriptor for type ") ++ method.desc.outputName).data)
            (by simp [GenError.render]), ?_⟩
        exact ⟨method.desc.outputName, containsSeq_of_eq _
            (("method " ++ method.desc.fullName ++ ": no descriptor for type ").data) _ []
            (by simp [GenError.render]), hout, Or.inr rfl⟩
      · simp [MethodNode.resolveDependencies, hin, hout] at he

/-- A concrete enum-typed field, used by the C8 witness. -/
def wFieldC8 : FieldNode where
  desc := { fullName := "M.x", kind := .enumKind, typeName := "pkg.E"
            oneofIdx := none, isExtension := false, extendeeName := "" }
  oneof := none
  extendee := none
  enum := none
  message := none
  location := { sourceFile := "w.proto", path := [] }
  comments := { leadingDetached := [], leading := [], trailing := [] }

/-- A concrete method, used by the C8 witness. -/
def wMethodC8 : MethodNode where
  desc := { fullName := "S.m", inputName := "I", outputName := "O" }
  input := none
  output := none
  location := { sourceFile := "w.proto", path := [] }
  comments := { leadingDetached := [], leading := [], trailing := [] }

/-- Witness for C8: a lone enum-typed field resolved against empty tables
fails and the rendered error names both the field and the missing enum. -/
theorem C8_resolver_errors_witness :
    containsSeq (GenError.fieldNoEnum "M.x" "pkg.E").render "M.x".data ∧
    ∃ target, containsSeq (GenError.fieldNoEnum "M.x" "pkg.E").render target.data ∧
      ((target = wFieldC8.desc.typeName ∧ wFieldC8.desc.kind = FieldKind.enumKind ∧
          mapGet ([] : List (String × EnumNode)) target = none) ∨
        (target = wFieldC8.desc.typeName ∧ (wFieldC8.desc.kind = FieldKind.messageKind ∨
          wFieldC8.desc.kind = FieldKind.groupKind) ∧
          mapGet ([] : List (String × MessageNode)) target = none) ∨
        (target = wFieldC8.desc.extendeeName ∧ wFieldC8.desc.isExtension = true ∧
          mapGet ([] : List (String × MessageNode)) target = none)) :=
  (C8_resolver_errors ([] : List (String × EnumNode))
    ([] : List (String × MessageNode)) wFieldC8 wMethodC8).2.1
    (GenError.fieldNoEnum "M.x" "pkg.E") rfl

/-! ## Success characterization of the resolve phase -/

mutual

/-- All fields a message subtree resolves, in resolution order (own fields,
then nested messages' fields, then extensions). -/
def msgAllFields : MessageNode → List FieldNode
  | .mk _ fields _ _ messages extensions _ _ =>
    fields ++ msgAllFieldsList messages ++ extensions

def msgAllFieldsList : List MessageNode → List FieldNode
  | [] => []
  | m :: ms => msgAllFields m ++ msgAllFieldsList ms

end

/-- All fields `newFile` resolves for a file node, in resolution order. -/
def fileAllFields (f : FileNode) : List FieldNode :=
  msgAllFieldsList f.messages ++ f.extensions

/-- The lookups a field's resolution needs must all succeed. -/
def fieldResolvable (enums : List (String × EnumNode))
    (msgs : List (String × MessageNode)) (f : FieldNode) : Prop :=
  (f.desc.kind = .enumKind → (mapGet enums f.desc.typeName).isSome = true) ∧
  ((f.desc.kind = .messageKind ∨ f.desc.kind = .groupKind) →
    (mapGet msgs f.desc.typeName).isSome = true) ∧
  (f.desc.isExtension = true → (mapGet msgs f.desc.extendeeName).isSome = true)

def methodResolvable (msgs : List (String × MessageNode)) (m : MethodNode) : Prop :=
  (mapGet msgs m.desc.inputName).isSome = true ∧
  (mapGet msgs m.desc.outputName).isSome = true

theorem resolveField_ok (enums : List (String × EnumNode))
    (msgs : List (String × MessageNode)) (f f' : FieldNode) (evs : List Event)
    (h : f.resolveDependencies enums msgs = (.ok f', evs)) :
    f' = fieldResolved f ∧ evs = fieldLookupEvents f ∧ fieldResolvable enums msgs f := by
  rcases hk : f.desc.kind
  · rcases hx : f.desc.isExtension
    · simp [FieldNode.resolveDependencies, hk, hx] at h
      obtain ⟨rfl, rfl⟩ := h
      exact ⟨by simp [fieldResolved, hk, hx], by simp [fieldLookupEvents, hk, hx],
        by simp [fieldResolvable, hk, hx]⟩
    · rcases hg : mapGet msgs f.desc.extendeeName with _ | m
      · simp [FieldNode.resolveDependencies, hk, hx, hg] at h
      · simp [FieldNode.resolveDependencies, hk, hx, hg] at h
        refine ⟨?_, ?_, by simp [fieldResolvable, hk, hx, hg]⟩
        · rw [← h.1]
          simp [fieldResolved, hk, hx]
        · rw [← h.2]
          simp [fieldLookupEvents, hk, hx]
  · rcases hg : mapGet enums f.desc.typeName with _ | e0
    · simp [FieldNode.resolveDependencies, hk, hg] at h
    · rcases hx : f.desc.isExtension
      · simp [FieldNode.resolveDependencies, hk, hg, hx] at h
        refine ⟨?_, ?_, by simp [fieldResolvable, hk, hx, hg]⟩
        · rw [← h.1]
          simp [fieldResolved, hk, hx]
        · rw [← h.2]
          simp [fieldLookupEvents, hk, hx]
      · rcases hg2 : mapGet msgs f.desc.extendeeName with _ | m
        · simp [FieldNode.resolveDependencies, hk, hg, hx, hg2] at h
        · simp [FieldNode.resolveDependencies, hk, hg, hx, hg2] at h
          refine ⟨?_, ?_, by simp [fieldResolvable, hk, hx, hg, hg2]⟩
          · rw [← h.1]
            simp [fieldResolved, hk, hx]
          · rw [← h.2]
            simp [fieldLookupEvents, hk, hx]
  · rcases hg : mapGet msgs f.desc.typeName with _ | m0
    · simp [FieldNode.resolveDependencies, hk, hg] at h
    · rcases hx : f.desc.isExtension
      · simp [FieldNode.resolveDependencies, hk, hg, hx] at h
        refine ⟨?_, ?_, by simp [fieldResolvable, hk, hx, hg]⟩
        · rw [← h.1]
          simp [fieldResolved, hk, hx]
        · rw [← h.2]
          simp [fieldLookupEvents, hk, hx]
      · rcases hg2 : mapGet msgs f.desc.extendeeName with _ | m
        · simp [FieldNode.resolveDependencies, hk, hg, hx, hg2] at h
        · simp [FieldNode.resolveDependencies, hk, hg, hx, hg2] at h
          refine ⟨?_, ?_, by simp [fieldResolvable, hk, hx, hg, hg2]⟩
          · rw [← h.1]
            simp [fieldResolved, hk, hx]
          · rw [← h.2]
            simp [fieldLookupEvents, hk, hx]
  · rcases hg : mapGet msgs f.desc.typeName with _ | m0
    · simp [FieldNode.resolveDependencies, hk, hg] at h
    · rcases hx : f.desc.isExtension
      · simp [FieldNode.resolveDependencies, hk, hg, hx] at h
        refine ⟨?_, ?_, by simp [fieldResolvable, hk, hx, hg]⟩
        · rw [← h.1]
          simp [fieldResolved, hk, hx]
        · rw [← h.2]
          simp [fieldLookupEvents, hk, hx]
      · rcases hg2 : mapGet msgs f.desc.extendeeName with _ | m
        · simp [FieldNode.resolveDependencies, hk, hg, hx, hg2] at h
        · simp [FieldNode.resolveDependencies, hk, hg, hx, hg2] at h
          refine ⟨?_, ?_, by simp [fieldResolvable, hk, hx, hg, hg2]⟩
          · rw [← h.1]
            simp [fieldResolved, hk, hx]
          · rw [← h.2]
            simp [fieldLookupEvents, hk, hx]

theorem resolveFieldList_ok (enums : List (String × EnumNode))
    (msgs : List (String × MessageNode)) :
    ∀ (fs fs' : List FieldNode) (evs : List Event),
      resolveFieldList enums msgs fs = (.ok fs', evs) →
      fs' = fs.map fieldResolved ∧ evs = (fs.map fieldLookupEvents).flatten ∧
      ∀ f ∈ fs, fieldResolvable enums msgs f
  | [], fs', evs, h => by
    simp [resolveFieldList] at h
    obtain ⟨rfl, rfl⟩ := h
    exact ⟨rfl, rfl, by simp⟩
  | f :: fs, fs', evs, h => by
    simp only [resolveFieldList] at h
    rcases hr : f.resolveDependencies enums msgs with ⟨r1, evs1⟩
    rcases r1 with e | f1
    · rw [hr] at h
      simp at h
    · rw [hr] at h
      rcases hrl : resolveFieldList enums msgs fs with ⟨r2, evs2⟩
      rcases r2 with e | fs1
      · rw [hrl] at h
        simp at h
      · rw [hrl] at h
        simp only [Prod.mk.injEq, Except.ok.injEq] at h
        rcases resolveField_ok enums msgs f f1 evs1 hr with ⟨hf1, hev1, hres⟩
        rcases resolveFieldList_ok enums msgs fs fs1 evs2 hrl with ⟨hfs1, hev2, hress⟩
        refine ⟨?_, ?_, ?_⟩
        · rw [← h.1, hf1, hfs1]
          rfl
        · rw [← h.2, hev1, hev2]
          simp
        · intro g hg
          rcases List.mem_cons.mp hg with rfl | hg
          · exact hres
          · exact hress g hg

mutual

theorem resolveMsg_ok (enums : List (String × EnumNode))
    (msgs : List (String × MessageNode)) :
    ∀ (m m' : MessageNode) (evs : List Event),
      m.resolveDependencies enums msgs = (.ok m', evs) →
      m' = msgResolved m ∧ evs = msgLookupEvents m ∧
      ∀ f ∈ msgAllFields m, fieldResolvable enums msgs f
  | .mk fn fields oneofs enumNodes messages extensions loc cs, m', evs, h => by
    rw [MessageNode.resolveDependencies] at h
    rcases hfl : resolveFieldList enums msgs fields with ⟨r1, evs1⟩
    rcases r1 with e | fields1
    · rw [hfl] at h
      simp at h
    · rw [hfl] at h
      rcases hml : resolveMessageList enums msgs messages with ⟨r2, evs2⟩
      rcases r2 with e | messages1
      · rw [hml] at h
        simp at h
      · rw [hml] at h
        rcases hxl : resolveFieldList enums msgs extensions with ⟨r3, evs3⟩
        rcases r3 with e | extensions1
        · rw [hxl] at h
          simp at h
        · rw [hxl] at h
          simp only [Prod.mk.injEq, Except.ok.injEq] at h
          rcases resolveFieldList_ok enums msgs fields fields1 evs1 hfl with ⟨ha, hb, hc⟩
          rcases resolveMsgList_ok enums msgs messages messages1 evs2 hml with ⟨hd, he, hfres⟩
          rcases resolveFieldList_ok enums msgs extensions extensions1 evs3 hxl with
            ⟨hg, hh, hi⟩
          refine ⟨?_, ?_, ?_⟩
          · rw [← h.1, ha, hd, hg]
            rw [msgResolved]
          · rw [← h.2, hb, he, hh]
            rw [msgLookupEvents]
          · intro f hf
            rw [msgAllFields] at hf
            rcases List.mem_append.mp hf with hf2 | hf2
            · rcases List.mem_append.mp hf2 with hf3 | hf3
              · exact hc f hf3
              · exact hfres f hf3
            · exact hi f hf2

theorem resolveMsgList_ok (enums : List (String × EnumNode))
    (msgs : List (String × MessageNode)) :
    ∀ (ms ms' : List MessageNode) (evs : List Event),
      resolveMessageList enums msgs ms = (.ok ms', evs) →
      ms' = msgResolvedList ms ∧ evs = msgLookupEventsList ms ∧
      ∀ f ∈ msgAllFieldsList ms, fieldResolvable enums msgs f
  | [], ms', evs, h => by
    simp [resolveMessageList] at h
    obtain ⟨rfl, rfl⟩ := h
    exact ⟨by rw [msgResolvedList], by rw [msgLookupEventsList], by simp [msgAllFieldsList]⟩
  | m :: ms, ms', evs, h => by
    rw [resolveMessageList] at h
    rcases hm : m.resolveDependencies enums msgs with ⟨r1, evs1⟩
    rcases r1 with e | m1
    · rw [hm] at h
      simp at h
    · rw [hm] at h
      rcases hms : resolveMessageList enums msgs ms with ⟨r2, evs2⟩
      rcases r2 with e | ms1
      · rw [hms] at h
        simp at h
      · rw [hms] at h
        simp only [Prod.mk.injEq, Except.ok.injEq] at h
        rcases resolveMsg_ok enums msgs m m1 evs1 hm with ⟨ha, hb, hc⟩
        rcases resolveMsgList_ok enums msgs ms ms1 evs2 hms with ⟨hd, he, hfres⟩
        refine ⟨?_, ?_, ?_⟩
        · rw [← h.1, ha, hd, msgResolvedList]
        · rw [← h.2, hb, he, msgLookupEventsList]
        · intro f hf
          rw [msgAllFieldsList] at hf
          rcases List.mem_append.mp hf with hf2 | hf2
          · exact hc f hf2
          · exact hfres f hf2

end

theorem resolveMethod_ok (msgs : List (String × MessageNode))
    (m m' : MethodNode) (evs : List Event)
    (h : m.resolveDependencies msgs = (.ok m', evs)) :
    m' = methodResolved m ∧ evs = methodLookupEvents m ∧ methodResolvable msgs m := by
  rcases hin : mapGet msgs m.desc.inputName with _ | mi
  · simp [MethodNode.resolveDependencies, hin] at h
  · rcases hout : mapGet msgs m.desc.outputName with _ | mo
    · simp [MethodNode.resolveDependencies, hin, hout] at h
    · simp [MethodNode.resolveDependencies, hin, hout] at h
      refine ⟨?_, ?_, by simp [methodResolvable, hin, hout]⟩
      · rw [← h.1]
        rfl
      · rw [← h.2]
        rfl

theorem resolveMethodList_ok (msgs : List (String × MessageNode)) :
    ∀ (ms ms' : List MethodNode) (evs : List Event),
      resolveMethodList msgs ms = (.ok ms', evs) →
      ms' = ms.map methodResolved ∧ evs = (ms.map methodLookupEvents).flatten ∧
      ∀ m ∈ ms, methodResolvable msgs m
  | [], ms', evs, h => by
    simp [resolveMethodList] at h
    obtain ⟨rfl, rfl⟩ := h
    exact ⟨rfl, rfl, by simp⟩
  | m :: ms, ms', evs, h => by
    rw [resolveMethodList] at h
    rcases hm : m.resolveDependencies msgs with ⟨r1, evs1⟩
    rcases r1 with e | m1
    · rw [hm] at h
      simp at h
    · rw [hm] at h
      rcases hms : resolveMethodList msgs ms with ⟨r2, evs2⟩
      rcases r2 with e | ms1
      · rw [hms] at h
        simp at h
      · rw [hms] at h
        simp only [Prod.mk.injEq, Except.ok.injEq] at h
        rcases resolveMethod_ok msgs m m1 evs1 hm with ⟨ha, hb, hc⟩
        rcases resolveMethodList_ok msgs ms ms1 evs2 hms with ⟨hd, he, hfres⟩
        refine ⟨?_, ?_, ?_⟩
        · rw [← h.1, ha, hd]
          rfl
        · rw [← h.2, hb, he]
          simp
        · intro g hg
          rcases List.mem_cons.mp hg with rfl | hg
          · exact hc
          · exact hfres g hg

theorem resolveServiceList_ok (msgs : List (String × MessageNode)) :
    ∀ (ss ss' : List ServiceNode) (evs : List Event),
      resolveServiceList msgs ss = (.ok ss', evs) →
      ss' = ss.map svcResolved ∧ evs = (ss.map svcLookupEvents).flatten ∧
      ∀ s ∈ ss, ∀ m ∈ s.methods, methodResolvable msgs m
  | [], ss', evs, h => by
    simp [resolveServiceList] at h
    obtain ⟨rfl, rfl⟩ := h
    exact ⟨rfl, rfl, by simp⟩
  | s :: ss, ss', evs, h => by
    rw [resolveServiceList] at h
    rcases hm : resolveMethodList msgs s.methods with ⟨r1, evs1⟩
    rcases r1 with e | ms1
    · rw [hm] at h
      simp at h
    · rw [hm] at h
      rcases hss : resolveServiceList msgs ss with ⟨r2, evs2⟩
      rcases r2 with e | ss1
      · rw [hss] at h
        simp at h
      · rw [hss] at h
        simp only [Prod.mk.injEq, Except.ok.injEq] at h
        rcases resolveMethodList_ok msgs s.methods ms1 evs1 hm with ⟨ha, hb, hc⟩
        rcases resolveServiceList_ok msgs ss ss1 evs2 hss with ⟨hd, he, hfres⟩
        refine ⟨?_, ?_, ?_⟩
        · rw [← h.1, ha, hd]
          rfl
        · rw [← h.2, hb, he]
          simp [svcLookupEvents]
        · intro t ht
          rcases List.mem_cons.mp ht with rfl | ht
          · exact hc
          · exact hfres t ht

/-! ## Success characterization of registration and the per-file build -/

theorem registerNames_ok (p : FileDesc) : ∀ (reg reg1 : FileReg) (ns : List String),
    registerNames p reg ns = .ok reg1 →
    reg1.paths = reg.paths ∧ reg1.names = reg.names ++ ns ∧ ns.Nodup ∧
    ∀ n ∈ ns, n ∉ reg.names
  | reg, reg1, [], h => by
    simp only [registerNames, Except.ok.injEq] at h
    subst h
    exact ⟨rfl, by simp, List.nodup_nil, by simp⟩
  | reg, reg1, n :: ns, h => by
    rw [registerNames] at h
    split at h
    · simp at h
    · rename_i hcond
      have hnmem : n ∉ reg.names := by
        intro hm
        exact hcond (List.elem_eq_true_of_mem hm)
      rcases registerNames_ok p { reg with names := reg.names ++ [n] } reg1 ns h with
        ⟨hp, hn, hnd, hfresh⟩
      refine ⟨hp, ?_, ?_, ?_⟩
      · rw [hn]
        simp
      · refine List.nodup_cons.mpr ⟨?_, hnd⟩
        intro hns
        exact absurd (by simp : n ∈ reg.names ++ [n]) (hfresh n hns)
      · intro m hm
        rcases List.mem_cons.mp hm with rfl | hm
        · exact hnmem
        · intro hmem
          exact hfresh m hm (by simp [hmem])

theorem registerFile_ok (reg : FileReg) (p : FileDesc) (reg1 : FileReg)
    (h : registerFile reg p = .ok reg1) :
    reg1.paths = reg.paths ++ [p.path] ∧ reg1.names = reg.names ++ declaredNames p ∧
    (declaredNames p).Nodup ∧ (∀ n ∈ declaredNames p, n ∉ reg.names) ∧
    p.path ∉ reg.paths := by
  rw [registerFile] at h
  split at h
  · simp at h
  · rename_i hcond
    rcases registerNames_ok p { reg with paths := reg.paths ++ [p.path] } reg1
      (declaredNames p) h with ⟨hp, hn, hnd, hfresh⟩
    exact ⟨hp, hn, hnd, hfresh, fun hm => hcond (List.elem_eq_true_of_mem hm)⟩

/-- The `enumsByName` stores among a write list, in store order. -/
def writesEnumEntries : List RegWrite → List (String × EnumNode)
  | [] => []
  | .enum n e :: ws => (n, e) :: writesEnumEntries ws
  | .msg _ _ :: ws => writesEnumEntries ws

/-- The `messagesByName` stores among a write list, in store order. -/
def writesMsgEntries : List RegWrite → List (String × MessageNode)
  | [] => []
  | .enum _ _ :: ws => writesMsgEntries ws
  | .msg n m :: ws => (n, m) :: writesMsgEntries ws

theorem applyWrites_char : ∀ (ws : List RegWrite) (g : Gen),
    applyWrites g ws =
      { g with enumsByName := (writesEnumEntries ws).reverse ++ g.enumsByName
               messagesByName := (writesMsgEntries ws).reverse ++ g.messagesByName
               trace := g.trace ++ ws.map RegWrite.event }
  | [], g => by simp [applyWrites, writesEnumEntries, writesMsgEntries]
  | .enum n e :: ws, g => by
    have ih := applyWrites_char ws (applyWrite g (.enum n e))
    simp only [applyWrites, List.foldl_cons] at ih ⊢
    rw [ih]
    simp [applyWrite, writesEnumEntries, writesMsgEntries, RegWrite.event]
  | .msg n m :: ws, g => by
    have ih := applyWrites_char ws (applyWrite g (.msg n m))
    simp only [applyWrites, List.foldl_cons] at ih ⊢
    rw [ih]
    simp [applyWrite, writesEnumEntries, writesMsgEntries, RegWrite.event]

theorem mem_writesEnumEntries : ∀ (ws : List RegWrite) (n : String) (e : EnumNode),
    (n, e) ∈ writesEnumEntries ws ↔ RegWrite.enum n e ∈ ws
  | [], n, e => by simp [writesEnumEntries]
  | .enum n1 e1 :: ws, n, e => by
    simp only [writesEnumEntries, List.mem_cons, mem_writesEnumEntries ws n e,
      Prod.mk.injEq, RegWrite.enum.injEq]
  | .msg n1 m1 :: ws, n, e => by
    simp [writesEnumEntries, mem_writesEnumEntries ws n e]

theorem mem_writesMsgEntries : ∀ (ws : List RegWrite) (n : String) (m : MessageNode),
    (n, m) ∈ writesMsgEntries ws ↔ RegWrite.msg n m ∈ ws
  | [], n, m => by simp [writesMsgEntries]
  | .msg n1 m1 :: ws, n, m => by
    simp only [writesMsgEntries, List.mem_cons, mem_writesMsgEntries ws n m,
      Prod.mk.injEq, RegWrite.msg.injEq]
  | .enum n1 e1 :: ws, n, m => by
    simp [writesMsgEntries, mem_writesMsgEntries ws n m]

theorem writes_keys_perm : ∀ ws : List RegWrite,
    List.Perm (ws.map RegWrite.key)
      ((writesEnumEntries ws).map (·.1) ++ (writesMsgEntries ws).map (·.1))
  | [] => by simp [writesEnumEntries, writesMsgEntries]
  | .enum n e :: ws => by
    simpa [writesEnumEntries, writesMsgEntries, RegWrite.key] using
      (writes_keys_perm ws).cons n
  | .msg n m :: ws => by
    have ih := (writes_keys_perm ws).cons n
    simp only [writesEnumEntries, writesMsgEntries, RegWrite.key, List.map_cons]
    exact ih.trans (List.perm_middle.symm)

theorem mem_mapIdxFrom (f : Nat → α → β) :
    ∀ (l : List α) (n : Nat) (x : β), x ∈ mapIdxFrom f n l → ∃ i a, a ∈ l ∧ x = f i a
  | [], _, _, h => by simp [mapIdxFrom] at h
  | a :: as, n, x, h => by
    rcases List.mem_cons.mp h with rfl | h
    · exact ⟨n, a, by simp, rfl⟩
    · rcases mem_mapIdxFrom f as (n + 1) x h with ⟨i, b, hb, rfl⟩
      exact ⟨i, b, by simp [hb], rfl⟩

theorem mem_mapIdx (f : Nat → α → β) (l : List α) (x : β) (h : x ∈ mapIdx f l) :
    ∃ i a, a ∈ l ∧ x = f i a :=
  mem_mapIdxFrom f l 0 x h

/-- Every builder write stores a node under its own full name. -/
def writeWF : RegWrite → Prop
  | .enum n e => e.desc.fullName = n
  | .msg n m => m.fullName = n

theorem newEnum_writesWF (floc : Location) (locs : List SourceLoc)
    (parentLoc : Option Location) (idx : Nat) (d : EnumDesc) :
    ∀ w ∈ (newEnum floc locs parentLoc idx d).2, writeWF w := by
  intro w hw
  simp only [newEnum, List.mem_singleton] at hw
  subst hw
  rfl

mutual

theorem newMessage_writesWF (floc : Location) (locs : List SourceLoc)
    (parentLoc : Option Location) (idx : Nat) :
    ∀ (d : MessageDesc), ∀ w ∈ (newMessage floc locs parentLoc idx d).2, writeWF w
  | .mk fn es ms dfs dos dxs, w, hw => by
    simp only [newMessage.eq_def] at hw
    rcases List.mem_cons.mp hw with rfl | hw2
    · rfl
    · rcases List.mem_append.mp hw2 with hw3 | hw3
      · rcases List.mem_flatten.mp hw3 with ⟨l, hl, hwl⟩
        rcases List.mem_map.mp hl with ⟨pair, hpair, rfl⟩
        rcases mem_mapIdx _ _ _ hpair with ⟨i, ed, hed, rfl⟩
        exact newEnum_writesWF floc locs _ i ed w hwl
      · rcases List.mem_flatten.mp hw3 with ⟨l, hl, hwl⟩
        rcases List.mem_map.mp hl with ⟨pair, hpair, rfl⟩
        exact newMessageList_writesWF floc locs _ 0 ms pair hpair w hwl

theorem newMessageList_writesWF (floc : Location) (locs : List SourceLoc)
    (parentLoc : Option Location) (i : Nat) :
    ∀ (ds : List MessageDesc), ∀ pair ∈ newMessageList floc locs parentLoc i ds,
      ∀ w ∈ pair.2, writeWF w
  | [], pair, hp, w, hw => by
    rw [newMessageList.eq_def] at hp
    simp at hp
  | d :: ds, pair, hp, w, hw => by
    rw [newMessageList.eq_def] at hp
    rcases List.mem_cons.mp hp with rfl | hp2
    · exact newMessage_writesWF floc locs parentLoc i d w hw
    · exact newMessageList_writesWF floc locs parentLoc (i + 1) ds pair hp2 w hw

end

theorem fileWritesOf_WF (p : FileDesc) : ∀ w ∈ fileWritesOf p, writeWF w := by
  intro w hw
  rcases List.mem_append.mp hw with hw2 | hw2
  · rcases List.mem_flatten.mp hw2 with ⟨l, hl, hwl⟩
    rcases List.mem_map.mp hl with ⟨pair, hpair, rfl⟩
    rcases mem_mapIdx _ _ _ hpair with ⟨i, ed, hed, rfl⟩
    exact newEnum_writesWF (fileLoc p) p.locs none i ed w hwl
  · rcases List.mem_flatten.mp hw2 with ⟨l, hl, hwl⟩
    rcases List.mem_map.mp hl with ⟨pair, hpair, rfl⟩
    exact newMessageList_writesWF (fileLoc p) p.locs none 0 p.messages pair hpair w hwl

theorem fieldResolved_desc (f : FieldNode) : (fieldResolved f).desc = f.desc := by
  unfold fieldResolved
  rcases hk : f.desc.kind
  all_goals rcases hx : f.desc.isExtension
  all_goals simp [hk, hx]

theorem fieldResolved_links (f : FieldNode) :
    (f.desc.kind = .enumKind → (fieldResolved f).enum = some f.desc.typeName) ∧
    ((f.desc.kind = .messageKind ∨ f.desc.kind = .groupKind) →
      (fieldResolved f).message = some f.desc.typeName) ∧
    (f.desc.isExtension = true → (fieldResolved f).extendee = some f.desc.extendeeName) := by
  unfold fieldResolved
  rcases hk : f.desc.kind
  all_goals rcases hx : f.desc.isExtension
  all_goals simp [hk, hx]

mutual

theorem msgAllFields_resolved : ∀ m : MessageNode,
    msgAllFields (msgResolved m) = (msgAllFields m).map fieldResolved
  | .mk fn fs os es ms xs loc cs => by
    rw [msgResolved, msgAllFields, msgAllFields]
    rw [msgAllFieldsList_resolved ms]
    simp

theorem msgAllFieldsList_resolved : ∀ ms : List MessageNode,
    msgAllFieldsList (msgResolvedList ms) = (msgAllFieldsList ms).map fieldResolved
  | [] => by
    rw [msgResolvedList]
    rw [msgAllFieldsList]
    rfl
  | m :: ms => by
    rw [msgResolvedList, msgAllFieldsList, msgAllFieldsList]
    rw [msgAllFields_resolved m, msgAllFieldsList_resolved ms]
    simp

end

/-- The property claim C1 needs of a linked file against the two global
tables: every type-requiring field carries the declared type name as its
link, and that name is present in the corresponding table. -/
def fileLinksOK (enums : List (String × EnumNode)) (msgs : List (String × MessageNode))
    (f : FileNode) : Prop :=
  ∀ fl ∈ fileAllFields f,
    (fl.desc.kind = .enumKind →
      fl.enum = some fl.desc.typeName ∧ (mapGet enums fl.desc.typeName).isSome = true) ∧
    ((fl.desc.kind = .messageKind ∨ fl.desc.kind = .groupKind) →
      fl.message = some fl.desc.typeName ∧
        (mapGet msgs fl.desc.typeName).isSome = true) ∧
    (fl.desc.isExtension = true →
      fl.extendee = some fl.desc.extendeeName ∧
        (mapGet msgs fl.desc.extendeeName).isSome = true)

/-- The conclusions available about the generator state and result after
one successful `newFile`. -/
theorem newFile_ok (gen : Gen) (p : FileDesc) (gen' : Gen) (f : FileNode)
    (h : newFile gen p = (gen', .ok f)) :
    f = fileNodeResolved p ∧
    gen'.files = gen.files ∧
    gen'.filesByPath = gen.filesByPath ∧
    gen'.fileReg.paths = gen.fileReg.paths ++ [p.path] ∧
    gen'.fileReg.names = gen.fileReg.names ++ declaredNames p ∧
    (declaredNames p).Nodup ∧ (∀ n ∈ declaredNames p, n ∉ gen.fileReg.names) ∧
    p.path ∉ gen.fileReg.paths ∧
    gen'.enumsByName = (writesEnumEntries (fileWritesOf p)).reverse ++ gen.enumsByName ∧
    gen'.messagesByName = (writesMsgEntries (fileWritesOf p)).reverse ++ gen.messagesByName ∧
    gen'.trace = gen.trace ++ fileTrace p ∧
    fileLinksOK gen'.enumsByName gen'.messagesByName (fileNodeResolved p) := by
  simp only [newFile] at h
  split at h
  · simp at h
  · split at h
    · simp at h
    · rename_i reg1 hreg
      simp only [applyWrites_char] at h
      split at h
      · simp at h
      · rename_i msgs1 evs1 hrm
        split at h
        · simp at h
        · rename_i exts1 evs2 hrx
          split at h
          · simp at h
          · rename_i svcs1 evs3 hrs
            rcases registerFile_ok gen.fileReg p reg1 hreg with
              ⟨hrp, hrn, hnd, hfresh, hpnew⟩
            rcases resolveMsgList_ok _ _ _ _ _ hrm with ⟨hm1, hm2, hm3⟩
            rcases resolveFieldList_ok _ _ _ _ _ hrx with ⟨hx1, hx2, hx3⟩
            rcases resolveServiceList_ok _ _ _ _ hrs with ⟨hs1, hs2, hs3⟩
            rw [Prod.mk.injEq] at h
            obtain ⟨hgen, hnode⟩ := h
            rw [Except.ok.injEq] at hnode
            subst hgen
            subst hnode
            refine ⟨?_, rfl, rfl, ?_, ?_, hnd, hfresh, hpnew, rfl, rfl, ?_, ?_⟩
            · rw [hm1, hx1, hs1]
              rfl
            · exact hrp
            · exact hrn
            · rw [hm2, hx2, hs2]
              simp [fileTrace, fileResolveEvents]
            · intro fl hfl
              have hsplit : fileAllFields (fileNodeResolved p) =
                  (msgAllFieldsList ((fileMsgsW p).map (·.1))).map fieldResolved ++
                    (fileExts p).map fieldResolved := by
                show msgAllFieldsList (msgResolvedList ((fileMsgsW p).map (·.1))) ++
                    (fileExts p).map fieldResolved = _
                rw [msgAllFieldsList_resolved]
              rw [hsplit] at hfl
              have hstep : ∃ fl0, fl = fieldResolved fl0 ∧
                  fieldResolvable
                    ((writesEnumEntries (fileWritesOf p)).reverse ++ gen.enumsByName)
                    ((writesMsgEntries (fileWritesOf p)).reverse ++ gen.messagesByName)
                    fl0 := by
                rcases List.mem_append.mp hfl with hfl2 | hfl2
                · rcases List.mem_map.mp hfl2 with ⟨fl0, hfl0, rfl⟩
                  exact ⟨fl0, rfl, hm3 fl0 hfl0⟩
                · rcases List.mem_map.mp hfl2 with ⟨fl0, hfl0, rfl⟩
                  exact ⟨fl0, rfl, hx3 fl0 hfl0⟩
              rcases hstep with ⟨fl0, rfl, hres⟩
              rcases fieldResolved_links fl0 with ⟨hl1, hl2, hl3⟩
              rw [fieldResolved_desc]
              exact ⟨fun hk => ⟨hl1 hk, hres.1 hk⟩,
                fun hk => ⟨hl2 hk, hres.2.1 hk⟩,
                fun hk => ⟨hl3 hk, hres.2.2 hk⟩⟩

/-! ## Generator-state invariant and the main loop -/

theorem mapGet_isSome_mono (A B : List (String × α)) (k : String)
    (h : (mapGet B k).isSome = true) : (mapGet (A ++ B) k).isSome = true := by
  rcases hA : mapGet A k with _ | v
  · rw [mapGet_append_none A B k hA]
    exact h
  · rw [mapGet_append_some A B k v hA]
    rfl

theorem fileLinksOK_mono (A : List (String × EnumNode)) (B : List (String × MessageNode))
    (enums : List (String × EnumNode)) (msgs : List (String × MessageNode))
    (f : FileNode) (h : fileLinksOK enums msgs f) :
    fileLinksOK (A ++ enums) (B ++ msgs) f := by
  intro fl hfl
  rcases h fl hfl with ⟨h1, h2, h3⟩
  exact ⟨fun hk => ⟨(h1 hk).1, mapGet_isSome_mono A enums _ (h1 hk).2⟩,
    fun hk => ⟨(h2 hk).1, mapGet_isSome_mono B msgs _ (h2 hk).2⟩,
    fun hk => ⟨(h3 hk).1, mapGet_isSome_mono B msgs _ (h3 hk).2⟩⟩

theorem findIdxB_some_get (pred : α → Bool) :
    ∀ (l : List α) (i : Nat), findIdxB pred l = some i →
      ∃ a, l.get? i = some a ∧ pred a = true
  | [], i, h => by simp [findIdxB] at h
  | a :: as, i, h => by
    by_cases hp : pred a
    · simp only [findIdxB, if_pos hp, Option.some.injEq] at h
      subst h
      exact ⟨a, rfl, hp⟩
    · simp only [findIdxB, if_neg hp] at h
      rcases hfa : findIdxB pred as with _ | j
      · rw [hfa] at h
        cases h
      · rw [hfa] at h
        have h2 : j + 1 = i := by simpa using h
        subst h2
        rcases findIdxB_some_get pred as j hfa with ⟨b, hb, hpb⟩
        exact ⟨b, by simpa using hb, hpb⟩

/-- The key well-formedness the generator maintains: registered names are
unique, every table key was registered, table entries are keyed by their
node's full name, the by-path table is exactly first-occurrence index
search over `files`, and file paths are unique. -/
structure GenWF (g : Gen) : Prop where
  namesNodup : g.fileReg.names.Nodup
  enumKeysSub : ∀ kv ∈ g.enumsByName, kv.1 ∈ g.fileReg.names
  msgKeysSub : ∀ kv ∈ g.messagesByName, kv.1 ∈ g.fileReg.names
  tableKeysNodup : (g.enumsByName.map (·.1) ++ g.messagesByName.map (·.1)).Nodup
  enumEntryWF : ∀ kv ∈ g.enumsByName, (kv.2 : EnumNode).desc.fullName = kv.1
  msgEntryWF : ∀ kv ∈ g.messagesByName, MessageNode.fullName kv.2 = kv.1
  fbpEq : ∀ path, mapGet g.filesByPath path =
    findIdxB (fun fl => fl.desc.path == path) g.files
  pathsNodup : (g.files.map (fun fl => fl.desc.path)).Nodup

theorem GenWF_initial : GenWF Gen.initial := by
  refine ⟨?_, ?_, ?_, ?_, ?_, ?_, ?_, ?_⟩ <;>
    simp [Gen.initial, findIdxB, mapGet]

/-- Keys of the enum-table stores of a write list sit among the write
keys. -/
theorem writesEnumEntries_key_sub (ws : List RegWrite) (kv : String × EnumNode)
    (h : kv ∈ writesEnumEntries ws) : kv.1 ∈ ws.map RegWrite.key := by
  have : kv.1 ∈ (writesEnumEntries ws).map (·.1) := List.mem_map_of_mem _ h
  have hperm := writes_keys_perm ws
  exact hperm.mem_iff.mpr (List.mem_append_left _ this)

theorem writesMsgEntries_key_sub (ws : List RegWrite) (kv : String × MessageNode)
    (h : kv ∈ writesMsgEntries ws) : kv.1 ∈ ws.map RegWrite.key := by
  have : kv.1 ∈ (writesMsgEntries ws).map (·.1) := List.mem_map_of_mem _ h
  have hperm := writes_keys_perm ws
  exact hperm.mem_iff.mpr (List.mem_append_right _ this)

/-- The write keys of a file are a prefix of its declared names. -/
theorem fileWrites_key_sub (p : FileDesc) (k : String)
    (h : k ∈ (fileWritesOf p).map RegWrite.key) : k ∈ declaredNames p := by
  rw [declaredNames]
  simp only [List.mem_append]
  exact Or.inl (Or.inl (Or.inl (Or.inl h)))

theorem fileWrites_keys_nodup (p : FileDesc) (hnd : (declaredNames p).Nodup) :
    ((fileWritesOf p).map RegWrite.key).Nodup := by
  rw [declaredNames] at hnd
  exact hnd.of_append_left.of_append_left.of_append_left.of_append_left

theorem perm_four (A B C D : List α) : ((A ++ B) ++ (C ++ D)).Perm ((A ++ C) ++ (B ++ D)) := by
  rw [List.append_assoc, List.append_assoc]
  refine List.Perm.append_left A ?_
  rw [← List.append_assoc, ← List.append_assoc]
  exact List.Perm.append_right D List.perm_append_comm

theorem nodup_four (A B C D : List α) (hAC : (A ++ C).Nodup) (hBD : (B ++ D).Nodup)
    (hdisj : ∀ a, a ∈ A ++ C → a ∉ B ++ D) : ((A ++ B) ++ (C ++ D)).Nodup :=
  (perm_four A B C D).nodup_iff.mpr (hAC.append hBD hdisj)

/-- One successful loop step preserves the generator invariant and the
link property of every file recorded so far. -/
theorem step_wf (gen gen1 : Gen) (p : FileDesc) (f : FileNode)
    (hwf : GenWF gen)
    (hlinks : ∀ fl ∈ gen.files, fileLinksOK gen.enumsByName gen.messagesByName fl)
    (hdup : mapGet gen.filesByPath p.path = none)
    (hf : f = fileNodeResolved p)
    (hfiles : gen1.files = gen.files)
    (hfbp : gen1.filesByPath = gen.filesByPath)
    (hnarn : gen1.fileReg.names = gen.fileReg.names ++ declaredNames p)
    (hnd : (declaredNames p).Nodup)
    (hfresh : ∀ n ∈ declaredNames p, n ∉ gen.fileReg.names)
    (hE : gen1.enumsByName = (writesEnumEntries (fileWritesOf p)).reverse ++ gen.enumsByName)
    (hM : gen1.messagesByName =
      (writesMsgEntries (fileWritesOf p)).reverse ++ gen.messagesByName)
    (hlinksnew : fileLinksOK gen1.enumsByName gen1.messagesByName (fileNodeResolved p)) :
    GenWF
      { gen1 with
        files := gen1.files ++ [f]
        filesByPath := (p.path, gen1.files.length) :: gen1.filesByPath } ∧
    ∀ fl ∈ gen1.files ++ [f],
      fileLinksOK gen1.enumsByName gen1.messagesByName fl := by
  have hnone : findIdxB (fun fl => fl.desc.path == p.path) gen.files = none := by
    rw [← hwf.fbpEq]
    exact hdup
  have hpold : ∀ fl ∈ gen.files, (fl.desc.path == p.path) = false :=
    (findIdxB_none_iff _ _).mp hnone
  have hpnotmem : p.path ∉ gen.files.map (fun fl => fl.desc.path) := by
    intro hm
    rcases List.mem_map.mp hm with ⟨fl, hfl, hfl2⟩
    have := hpold fl hfl
    rw [hfl2] at this
    simp at this
  have hfdesc : f.desc = p := by
    rw [hf]
    rfl
  constructor
  · refine ⟨?_, ?_, ?_, ?_, ?_, ?_, ?_, ?_⟩
    · show gen1.fileReg.names.Nodup
      rw [hnarn]
      refine hwf.namesNodup.append hnd ?_
      intro a ha hb
      exact hfresh a hb ha
    · intro kv hkv
      show kv.1 ∈ gen1.fileReg.names
      rw [hE] at hkv
      rw [hnarn]
      rcases List.mem_append.mp hkv with hkv2 | hkv2
      · rw [List.mem_reverse] at hkv2
        exact List.mem_append_right _
          (fileWrites_key_sub p kv.1 (writesEnumEntries_key_sub _ kv hkv2))
      · exact List.mem_append_left _ (hwf.enumKeysSub kv hkv2)
    · intro kv hkv
      show kv.1 ∈ gen1.fileReg.names
      rw [hM] at hkv
      rw [hnarn]
      rcases List.mem_append.mp hkv with hkv2 | hkv2
      · rw [List.mem_reverse] at hkv2
        exact List.mem_append_right _
          (fileWrites_key_sub p kv.1 (writesMsgEntries_key_sub _ kv hkv2))
      · exact List.mem_append_left _ (hwf.msgKeysSub kv hkv2)
    · show ((gen1.enumsByName.map (·.1)) ++ (gen1.messagesByName.map (·.1))).Nodup
      rw [hE, hM]
      rw [List.map_append, List.map_append]
      refine nodup_four _ _ _ _ ?_ ?_ ?_
      · have hperm : ((writesEnumEntries (fileWritesOf p)).reverse.map (·.1) ++
            (writesMsgEntries (fileWritesOf p)).reverse.map (·.1)).Perm
            ((fileWritesOf p).map RegWrite.key) := by
          refine List.Perm.trans ?_ (writes_keys_perm (fileWritesOf p)).symm
          refine List.Perm.append ?_ ?_
          · rw [List.map_reverse]
            exact List.reverse_perm _
          · rw [List.map_reverse]
            exact List.reverse_perm _
        exact hperm.nodup_iff.mpr (fileWrites_keys_nodup p hnd)
      · exact hwf.tableKeysNodup
      · intro a ha hb
        have haN : a ∈ declaredNames p := by
          rcases List.mem_append.mp ha with ha2 | ha2
          · rw [List.map_reverse, List.mem_reverse] at ha2
            rcases List.mem_map.mp ha2 with ⟨kv, hkv, rfl⟩
            exact fileWrites_key_sub p _ (writesEnumEntries_key_sub _ kv hkv)
          · rw [List.map_reverse, List.mem_reverse] at ha2
            rcases List.mem_map.mp ha2 with ⟨kv, hkv, rfl⟩
            exact fileWrites_key_sub p _ (writesMsgEntries_key_sub _ kv hkv)
        have hbN : a ∈ gen.fileReg.names := by
          rcases List.mem_append.mp hb with hb2 | hb2
          · rcases List.mem_map.mp hb2 with ⟨kv, hkv, rfl⟩
            exact hwf.enumKeysSub kv hkv
          · rcases List.mem_map.mp hb2 with ⟨kv, hkv, rfl⟩
            exact hwf.msgKeysSub kv hkv
        exact hfresh a haN hbN
    · intro kv hkv
      rw [hE] at hkv
      rcases List.mem_append.mp hkv with hkv2 | hkv2
      · rw [List.mem_reverse] at hkv2
        have hwmem := (mem_writesEnumEntries _ kv.1 kv.2).mp hkv2
        exact fileWritesOf_WF p _ hwmem
      · exact hwf.enumEntryWF kv hkv2
    · intro kv hkv
      rw [hM] at hkv
      rcases List.mem_append.mp hkv with hkv2 | hkv2
      · rw [List.mem_reverse] at hkv2
        have hwmem := (mem_writesMsgEntries _ kv.1 kv.2).mp hkv2
        exact fileWritesOf_WF p _ hwmem
      · exact hwf.msgEntryWF kv hkv2
    · intro q
      show mapGet ((p.path, gen1.files.length) :: gen1.filesByPath) q =
        findIdxB (fun fl => fl.desc.path == q) (gen1.files ++ [f])
      rw [hfiles, hfbp]
      rw [findIdxB_append]
      by_cases hq : p.path = q
      · subst hq
        rw [hnone]
        have hfone : findIdxB (fun fl => fl.desc.path == p.path) [f] = some 0 := by
          simp [findIdxB, hfdesc]
        rw [hfone]
        simp [mapGet]
      · have hLHS : mapGet ((p.path, gen.files.length) :: gen.filesByPath) q =
            mapGet gen.filesByPath q := by
          simp [mapGet, hq]
        rw [hLHS, hwf.fbpEq]
        rcases hold : findIdxB (fun fl => fl.desc.path == q) gen.files with _ | i
        · rw [hold]
          have hfnone : findIdxB (fun fl => fl.desc.path == q) [f] = none := by
            simp [findIdxB, hfdesc]
            exact hq
          rw [hfnone]
          rfl
        · rw [hold]
    · show ((gen1.files ++ [f]).map (fun fl => fl.desc.path)).Nodup
      rw [hfiles, List.map_append]
      refine List.Nodup.append hwf.pathsNodup ?_ ?_
      · simp
      · intro a ha hb
        simp only [List.map_cons, List.map_nil, List.mem_singleton, hfdesc] at hb
        subst hb
        exact hpnotmem ha
  · intro fl hfl
    rcases List.mem_append.mp hfl with hfl2 | hfl2
    · rw [hfiles] at hfl2
      rw [hE, hM]
      exact fileLinksOK_mono _ _ _ _ fl (hlinks fl hfl2)
    · rw [List.mem_singleton] at hfl2
      subst hfl2
      rw [hf]
      exact hlinksnew

/-- Full characterization of a successful run of the `NewGenerator` file
loop: the invariant is maintained, files, trace, registry and tables
accumulate the per-file pure contributions in order, and every recorded
file satisfies the link property against the final tables. -/
theorem loop_ok : ∀ (ps : List FileDesc) (gen gen' : Gen),
    newGeneratorLoop gen ps = (gen', .ok ()) →
    GenWF gen →
    (∀ fl ∈ gen.files, fileLinksOK gen.enumsByName gen.messagesByName fl) →
    GenWF gen' ∧
    gen'.files = gen.files ++ ps.map fileNodeResolved ∧
    gen'.trace = gen.trace ++ (ps.map fileTrace).flatten ∧
    gen'.fileReg.names = gen.fileReg.names ++ (ps.map declaredNames).flatten ∧
    gen'.fileReg.paths = gen.fileReg.paths ++ ps.map (·.path) ∧
    (∀ kv : String × EnumNode, kv ∈ gen'.enumsByName ↔
      kv ∈ gen.enumsByName ∨ ∃ p ∈ ps, kv ∈ writesEnumEntries (fileWritesOf p)) ∧
    (∀ kv : String × MessageNode, kv ∈ gen'.messagesByName ↔
      kv ∈ gen.messagesByName ∨ ∃ p ∈ ps, kv ∈ writesMsgEntries (fileWritesOf p)) ∧
    (∀ fl ∈ gen'.files, fileLinksOK gen'.enumsByName gen'.messagesByName fl)
  | [], gen, gen', h, hwf, hlinks => by
    have hg : gen = gen' := congrArg Prod.fst h
    subst hg
    exact ⟨hwf, by simp, by simp, by simp, by simp, by simp, by simp, hlinks⟩
  | p :: ps, gen, gen', h, hwf, hlinks => by
    rw [newGeneratorLoop] at h
    split at h
    · simp at h
    · rename_i hdup
      split at h
      · simp at h
      · rename_i gen1 f hnf
        rcases newFile_ok gen p gen1 f hnf with
          ⟨hf, hfiles, hfbp, hparp, hnarn, hnd, hfresh, hpnew, hE, hM, htr, hlinksnew⟩
        have hdup' : mapGet gen.filesByPath p.path = none := by
          rcases hx : mapGet gen.filesByPath p.path with _ | i
          · rfl
          · rw [hx] at hdup
            simp at hdup
        rcases step_wf gen gen1 p f hwf hlinks hdup' hf hfiles hfbp hnarn hnd hfresh hE hM
          hlinksnew with ⟨hwf2, hlinks2⟩
        rcases loop_ok ps _ gen' h hwf2 hlinks2 with
          ⟨iwf, ifiles, itrace, inames, ipaths, ienum, imsg, ilinks⟩
        refine ⟨iwf, ?_, ?_, ?_, ?_, ?_, ?_, ilinks⟩
        · rw [ifiles]
          show (gen1.files ++ [f]) ++ ps.map fileNodeResolved = _
          rw [hfiles, hf]
          simp
        · rw [itrace]
          show gen1.trace ++ (ps.map fileTrace).flatten = _
          rw [htr]
          simp
        · rw [inames]
          show gen1.fileReg.names ++ (ps.map declaredNames).flatten = _
          rw [hnarn]
          simp
        · rw [ipaths]
          show gen1.fileReg.paths ++ ps.map (·.path) = _
          rw [hparp]
          simp
        · intro kv
          rw [ienum kv]
          have hmem2 : kv ∈ gen1.enumsByName ↔
              kv ∈ writesEnumEntries (fileWritesOf p) ∨ kv ∈ gen.enumsByName := by
            rw [hE]
            simp [List.mem_append]
          constructor
          · rintro (hkv | ⟨q, hq, hkv⟩)
            · rcases hmem2.mp hkv with hkv2 | hkv2
              · exact Or.inr ⟨p, List.mem_cons_self p ps, hkv2⟩
              · exact Or.inl hkv2
            · exact Or.inr ⟨q, List.mem_cons_of_mem p hq, hkv⟩
          · rintro (hkv | ⟨q, hq, hkv⟩)
            · exact Or.inl (hmem2.mpr (Or.inr hkv))
            · rcases List.mem_cons.mp hq with rfl | hq2
              · exact Or.inl (hmem2.mpr (Or.inl hkv))
              · exact Or.inr ⟨q, hq2, hkv⟩
        · intro kv
          rw [imsg kv]
          have hmem2 : kv ∈ gen1.messagesByName ↔
              kv ∈ writesMsgEntries (fileWritesOf p) ∨ kv ∈ gen.messagesByName := by
            rw [hM]
            simp [List.mem_append]
          constructor
          · rintro (hkv | ⟨q, hq, hkv⟩)
            · rcases hmem2.mp hkv with hkv2 | hkv2
              · exact Or.inr ⟨p, List.mem_cons_self p ps, hkv2⟩
              · exact Or.inl hkv2
            · exact Or.inr ⟨q, List.mem_cons_of_mem p hq, hkv⟩
          · rintro (hkv | ⟨q, hq, hkv⟩)
            · exact Or.inl (hmem2.mpr (Or.inr hkv))
            · rcases List.mem_cons.mp hq with rfl | hq2
              · exact Or.inl (hmem2.mpr (Or.inl hkv))
              · exact Or.inr ⟨q, hq2, hkv⟩

/-! ## The `FileToGenerate` marking loop -/

theorem findIdxB_modifyIdx (pred : α → Bool) (g : α → α) (hg : ∀ x, pred (g x) = pred x) :
    ∀ (i : Nat) (l : List α), findIdxB pred (modifyIdx g i l) = findIdxB pred l
  | i, [] => by cases i <;> rfl
  | 0, a :: as => by
    simp [modifyIdx, findIdxB, hg a]
  | i + 1, a :: as => by
    simp [modifyIdx, findIdxB, findIdxB_modifyIdx pred g hg i as]

theorem map_modifyIdx (m : α → β) (g : α → α) (hg : ∀ x, m (g x) = m x) :
    ∀ (i : Nat) (l : List α), (modifyIdx g i l).map m = l.map m
  | i, [] => by cases i <;> rfl
  | 0, a :: as => by simp [modifyIdx, hg a]
  | i + 1, a :: as => by simp [modifyIdx, map_modifyIdx m g hg i as]

theorem nodup_map_get?_inj (m : α → β) (l : List α) (hnd : (l.map m).Nodup)
    (i j : Nat) (a b : α) (hi : l.get? i = some a) (hj : l.get? j = some b)
    (hab : m a = m b) : i = j := by
  have h1 : (l.map m).get? i = some (m a) := by
    rw [List.get?_map, hi]
    rfl
  have h2 : (l.map m).get? j = some (m b) := by
    rw [List.get?_map, hj]
    rfl
  have hlen : i < (l.map m).length := by
    by_contra hc
    rw [List.get?_eq_none.mpr (Nat.le_of_not_lt hc)] at h1
    cases h1
  refine List.get?_inj hlen hnd ?_
  rw [h1, h2, hab]

/-- A successful marking pass only flips `Generate` flags: every other
generator component is unchanged, the invariant is kept, and a file's flag
is ORed with whether its path occurs in the request list. -/
theorem markGenerate_ok : ∀ (fns : List String) (gen gen' : Gen),
    markGenerate gen fns = (gen', .ok ()) →
    GenWF gen →
    gen'.enumsByName = gen.enumsByName ∧ gen'.messagesByName = gen.messagesByName ∧
    gen'.filesByPath = gen.filesByPath ∧ gen'.trace = gen.trace ∧
    gen'.fileReg = gen.fileReg ∧ GenWF gen' ∧
    (∀ i : Nat, gen'.files.get? i = (gen.files.get? i).map (fun fl =>
      { fl with generate := fl.generate || fns.contains fl.desc.path }))
  | [], gen, gen', h, hwf => by
    have hg : gen = gen' := congrArg Prod.fst h
    subst hg
    refine ⟨rfl, rfl, rfl, rfl, rfl, hwf, ?_⟩
    intro i
    rcases gen.files.get? i with _ | fl
    · rfl
    · simp
  | fn :: fns, gen, gen', h, hwf => by
    rw [markGenerate] at h
    split at h
    · simp at h
    · rename_i i hfind
      have hwf1 : GenWF { gen with
          files := modifyIdx (fun fl => { fl with generate := true }) i gen.files } := by
        refine ⟨hwf.namesNodup, hwf.enumKeysSub, hwf.msgKeysSub, hwf.tableKeysNodup,
          hwf.enumEntryWF, hwf.msgEntryWF, ?_, ?_⟩
        · intro path
          show mapGet gen.filesByPath path = _
          rw [hwf.fbpEq path]
          exact (findIdxB_modifyIdx (fun fl => fl.desc.path == path)
            (fun fl => { fl with generate := true }) (fun x => rfl) i gen.files).symm
        · show ((modifyIdx _ i gen.files).map (fun fl => fl.desc.path)).Nodup
          rw [map_modifyIdx (fun fl : FileNode => fl.desc.path)
            (fun fl : FileNode => { fl with generate := true }) (fun x => rfl) i gen.files]
          exact hwf.pathsNodup
      rcases markGenerate_ok fns _ gen' h hwf1 with ⟨h1, h2, h3, h4, h5, h6, h7⟩
      have hfl0 : ∃ fl0, gen.files.get? i = some fl0 ∧ fl0.desc.path = fn := by
        have := hwf.fbpEq fn
        rw [hfind] at this
        rcases findIdxB_some_get _ _ _ this.symm with ⟨fl0, hfl0, hp⟩
        exact ⟨fl0, hfl0, by simpa using hp⟩
      rcases hfl0 with ⟨fl0, hget0, hpath0⟩
      refine ⟨h1, h2, h3, h4, h5, h6, ?_⟩
      intro j
      rw [h7 j]
      show (((modifyIdx (fun fl => { fl with generate := true }) i gen.files).get? j).map
        (fun fl => { fl with generate := fl.generate || fns.contains fl.desc.path })) = _
      rw [modifyIdx_get?]
      by_cases hij : j = i
      · subst hij
        rw [hget0]
        simp [hpath0]
      · rw [if_neg hij]
        rcases hgetj : gen.files.get? j with _ | flj
        · rfl
        · have hne : flj.desc.path ≠ fn := by
            intro hc
            exact hij (nodup_map_get?_inj (fun fl => fl.desc.path) gen.files
              hwf.pathsNodup j i flj fl0 hgetj hget0 (hc.trans hpath0.symm))
          have hcons : (fn :: fns).contains flj.desc.path = fns.contains flj.desc.path := by
            rw [List.contains_cons]
            have hbeq : (flj.desc.path == fn) = false := by
              simpa using hne
            rw [hbeq, Bool.false_or]
          simp only [Option.map_some']
          rw [hcons]

/-- When the request names a path that was never supplied, the marking
loop fails with `UnknownFileToGenerate` for the first such path and leaves
the trace untouched. -/
theorem markGenerate_err (paths : List String) : ∀ (fns : List String) (gen : Gen)
    (fn0 : String),
    (∀ s, (mapGet gen.filesByPath s).isSome = true ↔ s ∈ paths) →
    fns.find? (fun s => !paths.contains s) = some fn0 →
    (markGenerate gen fns).2 = .error (.unknownFileToGenerate fn0) ∧
    (markGenerate gen fns).1.trace = gen.trace ∧
    (markGenerate gen fns).1.filesByPath = gen.filesByPath
  | [], gen, fn0, hmem, hfind => by simp [List.find?] at hfind
  | fn :: fns, gen, fn0, hmem, hfind => by
    rw [List.find?_cons] at hfind
    by_cases hp : fn ∈ paths
    · have hpred : (!paths.contains fn) = false := by
        simp [hp]
      rw [hpred] at hfind
      simp only [Bool.false_eq_true, if_false] at hfind
      have hsome : (mapGet gen.filesByPath fn).isSome = true := (hmem fn).mpr hp
      rcases hg : mapGet gen.filesByPath fn with _ | i
      · rw [hg] at hsome
        cases hsome
      · rw [markGenerate]
        rw [hg]
        have hmem1 : ∀ s, (mapGet ({ gen with
            files := modifyIdx (fun fl => { fl with generate := true }) i gen.files
            } : Gen).filesByPath s).isSome = true ↔ s ∈ paths := hmem
        exact markGenerate_err paths fns _ fn0 hmem1 hfind
    · have hpred : (!paths.contains fn) = true := by
        simp [hp]
      rw [hpred] at hfind
      simp only [if_true] at hfind
      have hfn0 : fn = fn0 := by
        simpa using hfind
      subst hfn0
      have hnone : mapGet gen.filesByPath fn = none := by
        rcases hg : mapGet gen.filesByPath fn with _ | i
        · rfl
        · have : (mapGet gen.filesByPath fn).isSome = true := by
            rw [hg]
            rfl
          exact absurd ((hmem fn).mp this) hp
      rw [markGenerate, hnone]
      exact ⟨rfl, rfl, rfl⟩

/-! ## Claim C1: resolved type links -/

/-- Claim C1: after a successful build, every enum-kind field in the graph
links (by name) to its declared enum type, every message- or group-kind
field links to its declared message type, the linked name is present in the
corresponding global table, and the registered node's fully-qualified name
equals the field's declared type name. -/
theorem C1_field_type_links (req : CodeGeneratorRequest) (gen : Gen)
    (h : NewGenerator req = (gen, .ok ())) :
    ∀ f ∈ gen.files, ∀ fl ∈ fileAllFields f,
      (fl.desc.kind = .enumKind →
        fl.enum = some fl.desc.typeName ∧
        ∃ e, mapGet gen.enumsByName fl.desc.typeName = some e ∧
          e.desc.fullName = fl.desc.typeName) ∧
      ((fl.desc.kind = .messageKind ∨ fl.desc.kind = .groupKind) →
        fl.message = some fl.desc.typeName ∧
        ∃ m, mapGet gen.messagesByName fl.desc.typeName = some m ∧
          MessageNode.fullName m = fl.desc.typeName) := by
  rw [NewGenerator] at h
  split at h
  · simp at h
  · rename_i gen0 hloop
    rcases loop_ok req.protoFile Gen.initial gen0 hloop GenWF_initial
      (by simp [Gen.initial]) with
      ⟨wf0, hfiles0, htrace0, hnames0, hpaths0, henum0, hmsg0, hlinks0⟩
    rcases markGenerate_ok req.fileToGenerate gen0 gen h wf0 with
      ⟨hE, hM, hFbp, hTr, hReg, hwf, hfilesPoint⟩
    intro f hf fl hfl
    rcases List.mem_iff_get?.mp hf with ⟨i, hgi⟩
    have h0i := hfilesPoint i
    rw [hgi] at h0i
    rcases hg0 : gen0.files.get? i with _ | f0
    · rw [hg0] at h0i
      cases h0i
    · rw [hg0] at h0i
      have hff0 : f = { f0 with
          generate := f0.generate || req.fileToGenerate.contains f0.desc.path } := by
        simpa using h0i

      have hfl0 : fl ∈ fileAllFields f0 := by
        rw [hff0] at hfl
        exact hfl
      have hf0mem : f0 ∈ gen0.files := List.mem_iff_get?.mpr ⟨i, hg0⟩
      have hl := hlinks0 f0 hf0mem fl hfl0
      rcases hl with ⟨hl1, hl2, -⟩
      constructor
      · intro hk
        rcases hl1 hk with ⟨hset, hsome⟩
        rw [hE]
        rcases Option.isSome_iff_exists.mp hsome with ⟨e, he⟩
        exact ⟨hset, e, he, wf0.enumEntryWF (fl.desc.typeName, e) (mapGet_mem _ _ _ he)⟩
      · intro hk
        rcases hl2 hk with ⟨hset, hsome⟩
        rw [hM]
        rcases Option.isSome_iff_exists.mp hsome with ⟨m, hm⟩
        exact ⟨hset, m, hm, wf0.msgEntryWF (fl.desc.typeName, m) (mapGet_mem _ _ _ hm)⟩

/-- A file with one enum and one message whose fields reference both, used
by the C1 witness. -/
def fileC1 : FileDesc :=
  { path := "c1.proto"
    dependencies := []
    enums := [{ fullName := "E", values := [{ fullName := "E.A" }] }]
    messages := [.mk "M" [] []
      [{ fullName := "M.e", kind := .enumKind, typeName := "E", oneofIdx := none,
         isExtension := false, extendeeName := "" },
       { fullName := "M.m", kind := .messageKind, typeName := "M", oneofIdx := none,
         isExtension := false, extendeeName := "" }] [] []]
    extensions := []
    services := []
    locs := [] }

def reqC1 : CodeGeneratorRequest := { protoFile := [fileC1], fileToGenerate := [] }

def c1file : FileNode := (NewGenerator reqC1).1.files.get ⟨0, by decide⟩

def c1fl : FieldNode := (fileAllFields c1file).get ⟨0, by decide⟩

/-- Witness for C1: the enum-typed field of `fileC1` ends up linked to the
registered enum `E`. -/
theorem C1_field_type_links_witness :
    c1fl.enum = some c1fl.desc.typeName ∧
    ∃ e, mapGet (NewGenerator reqC1).1.enumsByName c1fl.desc.typeName = some e ∧
      e.desc.fullName = c1fl.desc.typeName :=
  (C1_field_type_links reqC1 (NewGenerator reqC1).1 rfl c1file (List.get_mem _ _ _) c1fl
    (List.get_mem _ _ _)).1 (by rfl)

/-! ## Claim C2: build/resolve phase structure -/

theorem fieldLookupEvents_read (f : FieldNode) : ∀ e ∈ fieldLookupEvents f,
    e.isRead = true := by
  intro e he
  rw [fieldLookupEvents] at he
  rcases List.mem_append.mp he with h2 | h2
  · rcases hk : f.desc.kind
    all_goals rw [hk] at h2
    all_goals simp at h2
    all_goals simp [h2, Event.isRead]
  · rcases hx : f.desc.isExtension
    all_goals rw [hx] at h2
    all_goals simp at h2
    all_goals simp [h2, Event.isRead]

mutual

theorem msgLookupEvents_read : ∀ (m : MessageNode), ∀ e ∈ msgLookupEvents m,
    e.isRead = true
  | .mk fn fs os es ms xs loc cs, e, he => by
    rw [msgLookupEvents] at he
    rcases List.mem_append.mp he with h2 | h2
    · rcases List.mem_append.mp h2 with h3 | h3
      · rcases List.mem_flatten.mp h3 with ⟨l, hl, hel⟩
        rcases List.mem_map.mp hl with ⟨fld, hfld, rfl⟩
        exact fieldLookupEvents_read fld e hel
      · exact msgLookupEventsList_read ms e h3
    · rcases List.mem_flatten.mp h2 with ⟨l, hl, hel⟩
      rcases List.mem_map.mp hl with ⟨fld, hfld, rfl⟩
      exact fieldLookupEvents_read fld e hel

theorem msgLookupEventsList_read : ∀ (ms : List MessageNode),
    ∀ e ∈ msgLookupEventsList ms, e.isRead = true
  | [], e, he => by simp [msgLookupEventsList] at he
  | m :: ms, e, he => by
    rw [msgLookupEventsList] at he
    rcases List.mem_append.mp he with h2 | h2
    · exact msgLookupEvents_read m e h2
    · exact msgLookupEventsList_read ms e h2

end

theorem svcLookupEvents_read (s : ServiceNode) : ∀ e ∈ svcLookupEvents s,
    e.isRead = true := by
  intro e he
  rw [svcLookupEvents] at he
  rcases List.mem_flatten.mp he with ⟨l, hl, hel⟩
  rcases List.mem_map.mp hl with ⟨m, hm, rfl⟩
  rw [methodLookupEvents] at hel
  rcases List.mem_cons.mp hel with rfl | hel2
  · rfl
  · rcases List.mem_cons.mp hel2 with rfl | hel3
    · rfl
    · simp at hel3

theorem fileResolveEvents_read (p : FileDesc) : ∀ e ∈ fileResolveEvents p,
    e.isRead = true := by
  intro e he
  rw [fileResolveEvents] at he
  rcases List.mem_append.mp he with h2 | h2
  · rcases List.mem_append.mp h2 with h3 | h3
    · exact msgLookupEventsList_read _ e h3
    · rcases List.mem_flatten.mp h3 with ⟨l, hl, hel⟩
      rcases List.mem_map.mp hl with ⟨fld, hfld, rfl⟩
      exact fieldLookupEvents_read fld e hel
  · rcases List.mem_flatten.mp h2 with ⟨l, hl, hel⟩
    rcases List.mem_map.mp hl with ⟨s, hs, rfl⟩
    exact svcLookupEvents_read s e hel

theorem writeEvents_write (p : FileDesc) :
    ∀ e ∈ (fileWritesOf p).map RegWrite.event, e.isWrite = true := by
  intro e he
  rcases List.mem_map.mp he with ⟨w, hw, rfl⟩
  cases w <;> rfl

/-- The trace shape the generator actually produces: a block per file —
its table writes, the built marker, then its resolution reads — with the
blocks in file order. -/
inductive Phased : List Event → Prop where
  | nil : Phased []
  | block (ws rs t : List Event) (path : String)
      (hws : ∀ e ∈ ws, e.isWrite = true) (hrs : ∀ e ∈ rs, e.isRead = true)
      (ht : Phased t) : Phased (ws ++ (Event.builtFile path :: rs) ++ t)

theorem phased_flatten : ∀ ps : List FileDesc, Phased ((ps.map fileTrace).flatten)
  | [] => Phased.nil
  | p :: ps => by
    have hb := Phased.block ((fileWritesOf p).map RegWrite.event) (fileResolveEvents p)
      ((ps.map fileTrace).flatten) p.path (writeEvents_write p) (fileResolveEvents_read p)
      (phased_flatten ps)
    simpa [fileTrace, List.append_assoc] using hb

/-- The sequence of names written into the two global tables, read off the
trace. -/
def Event.regName : Event → Option String
  | .regEnum n => some n
  | .regMsg n => some n
  | _ => none

def traceRegNames (t : List Event) : List String := t.filterMap Event.regName

theorem traceRegNames_append (a b : List Event) :
    traceRegNames (a ++ b) = traceRegNames a ++ traceRegNames b :=
  List.filterMap_append a b Event.regName

theorem regName_none_of_read (e : Event) (h : e.isRead = true) : e.regName = none := by
  cases e <;> first | rfl | simp [Event.isRead] at h

theorem filterMap_regName_writes : ∀ ws : List RegWrite,
    traceRegNames (ws.map RegWrite.event) = ws.map RegWrite.key
  | [] => rfl
  | w :: ws => by
    have ih : List.filterMap Event.regName (ws.map RegWrite.event) = ws.map RegWrite.key :=
      filterMap_regName_writes ws
    cases w with
    | enum n node =>
      show List.filterMap Event.regName (RegWrite.event (.enum n node) :: ws.map RegWrite.event)
        = RegWrite.key (.enum n node) :: ws.map RegWrite.key
      rw [List.filterMap_cons, ih]
      rfl
    | msg n node =>
      show List.filterMap Event.regName (RegWrite.event (.msg n node) :: ws.map RegWrite.event)
        = RegWrite.key (.msg n node) :: ws.map RegWrite.key
      rw [List.filterMap_cons, ih]
      rfl

theorem filterMap_regName_reads (t : List Event) (h : ∀ e ∈ t, e.isRead = true) :
    traceRegNames t = [] := by
  induction t with
  | nil => rfl
  | cons e t ih =>
    show List.filterMap Event.regName (e :: t) = []
    rw [List.filterMap_cons, regName_none_of_read e (h e (by simp))]
    exact ih (fun x hx => h x (by simp [hx]))

theorem traceRegNames_fileTrace (p : FileDesc) :
    traceRegNames (fileTrace p) = (fileWritesOf p).map RegWrite.key := by
  rw [fileTrace, traceRegNames_append, traceRegNames_append]
  rw [filterMap_regName_writes]
  rw [filterMap_regName_reads (fileResolveEvents p) (fileResolveEvents_read p)]
  have hb : traceRegNames [Event.builtFile p.path] = [] := rfl
  rw [hb]
  simp

theorem traceRegNames_flatten : ∀ ps : List FileDesc,
    traceRegNames ((ps.map fileTrace).flatten) =
      (ps.map (fun p => (fileWritesOf p).map RegWrite.key)).flatten
  | [] => rfl
  | p :: ps => by
    simp only [List.map_cons, List.flatten_cons]
    rw [traceRegNames_append, traceRegNames_fileTrace, traceRegNames_flatten ps]

theorem flatten_sublist_of_forall {β : Type} : ∀ (ps : List FileDesc)
    (f g : FileDesc → List β), (∀ p, (f p).Sublist (g p)) →
    ((ps.map f).flatten).Sublist ((ps.map g).flatten)
  | [], _, _, _ => List.Sublist.refl []
  | p :: ps, f, g, h => by
    simp only [List.map_cons, List.flatten_cons]
    exact (h p).append (flatten_sublist_of_forall ps f g h)

theorem writeKeys_sublist_declared (p : FileDesc) :
    ((fileWritesOf p).map RegWrite.key).Sublist (declaredNames p) := by
  rw [declaredNames]
  exact (((List.sublist_append_left _ _).trans (List.sublist_append_left _ _)).trans
    (List.sublist_append_left _ _)).trans (List.sublist_append_left _ _)

/-- Claim C2 (amended): in every successful build the ghost trace splits
into one block per file — that file's table writes, then its built marker,
then its resolution reads — so each file is resolved right after it is
built (not after all files are built), the maps are written only while
building and read only while resolving, and each fully-qualified name is
written at most once over the whole run. -/
theorem C2_per_file_phases (req : CodeGeneratorRequest) (gen : Gen)
    (h : NewGenerator req = (gen, .ok ())) :
    Phased gen.trace ∧ (traceRegNames gen.trace).Nodup := by
  rw [NewGenerator] at h
  split at h
  · simp at h
  · rename_i gen0 hloop
    rcases loop_ok req.protoFile Gen.initial gen0 hloop GenWF_initial
      (by simp [Gen.initial]) with ⟨wf0, _, htrace0, hnames0, _, _, _, _⟩
    rcases markGenerate_ok _ gen0 gen h wf0 with ⟨_, _, _, hTr, _, _, _⟩
    have htr : gen.trace = ((req.protoFile.map fileTrace)).flatten := by
      rw [hTr, htrace0]
      simp [Gen.initial]
    rw [htr]
    refine ⟨phased_flatten req.protoFile, ?_⟩
    rw [traceRegNames_flatten]
    have hnd : ((req.protoFile.map declaredNames).flatten).Nodup := by
      have hn := wf0.namesNodup
      rw [hnames0] at hn
      simpa [Gen.initial] using hn
    exact hnd.sublist
      (flatten_sublist_of_forall req.protoFile _ declaredNames writeKeys_sublist_declared)

/-- A file whose single message has a self-referencing message field, so
its resolution performs a read. -/
def fileC2a : FileDesc :=
  { path := "a.proto"
    dependencies := []
    enums := []
    messages := [.mk "M" [] []
      [{ fullName := "M.x", kind := .messageKind, typeName := "M", oneofIdx := none,
         isExtension := false, extendeeName := "" }] [] []]
    extensions := []
    services := []
    locs := [] }

/-- A second file declaring an enum, so building it writes to a table. -/
def fileC2b : FileDesc :=
  { path := "b.proto"
    dependencies := []
    enums := [{ fullName := "E", values := [] }]
    messages := []
    extensions := []
    services := []
    locs := [] }

def reqC2 : CodeGeneratorRequest := { protoFile := [fileC2a, fileC2b], fileToGenerate := [] }

/-- The trace satisfies the claim's global phasing only if no table write
occurs after the first table read. -/
def writesPrecedeReads (t : List Event) : Bool :=
  ((t.dropWhile (fun e => !e.isRead)).filter (fun e => e.isWrite)).isEmpty

/-- Counterexample to C2 as stated: on a two-file input the build succeeds,
yet the table write registering the second file's enum happens after the
read that resolved the first file's field — cross-reference resolution does
not wait until all supplied files are built, and the global
write-phase/read-phase separation fails. -/
theorem C2_counterexample :
    (NewGenerator reqC2).2 = .ok () ∧
    writesPrecedeReads (NewGenerator reqC2).1.trace = false :=
  ⟨rfl, rfl⟩

/-- Witness for the amended C2 at the same two-file input. -/
theorem C2_per_file_phases_witness :
    Phased (NewGenerator reqC2).1.trace ∧
    (traceRegNames (NewGenerator reqC2).1.trace).Nodup :=
  C2_per_file_phases reqC2 (NewGenerator reqC2).1 rfl

/-! ## Claim C3: order of supplied files -/

/-- Follow the `filesByPath` pointer: the file node recorded for a path. -/
def Gen.fileAt (g : Gen) (s : String) : Option FileNode :=
  match mapGet g.filesByPath s with
  | none => none
  | some i => g.files.get? i

theorem findIdxB_map (pred : β → Bool) (f : α → β) : ∀ l : List α,
    findIdxB pred (l.map f) = findIdxB (fun a => pred (f a)) l
  | [] => rfl
  | a :: as => by simp only [List.map_cons, findIdxB, findIdxB_map pred f as]

theorem nodup_map_mem_inj (m : α → β) (l : List α) (hnd : (l.map m).Nodup)
    (a b : α) (ha : a ∈ l) (hb : b ∈ l) (hm : m a = m b) : a = b := by
  rcases List.mem_iff_get?.mp ha with ⟨i, hi⟩
  rcases List.mem_iff_get?.mp hb with ⟨j, hj⟩
  have hij : i = j := nodup_map_get?_inj m l hnd i j a b hi hj hm
  subst hij
  rw [hi] at hj
  injection hj

theorem mapGet_eq_of_mem_iff (A B : List (String × α))
    (hB : (B.map (·.1)).Nodup)
    (h : ∀ kv, kv ∈ A ↔ kv ∈ B) (k : String) : mapGet A k = mapGet B k := by
  rcases hga : mapGet A k with _ | v
  · rcases hgb : mapGet B k with _ | w
    · rfl
    · exfalso
      have hmem : (k, w) ∈ A := (h _).mpr (mapGet_mem B k w hgb)
      rw [mapGet_eq_none_iff] at hga
      exact hga (List.mem_map_of_mem (·.1) hmem)
  · have hmem : (k, v) ∈ B := (h _).mp (mapGet_mem A k v hga)
    exact (mem_mapGet B k v hB hmem).symm

/-- After a successful run, the node reached through `filesByPath` is the
resolved node of the first supplied descriptor with that path, with its
`Generate` flag set from the request. -/
theorem NewGenerator_fileAt (req : CodeGeneratorRequest) (gen : Gen)
    (h : NewGenerator req = (gen, .ok ())) (s : String) :
    Gen.fileAt gen s = (req.protoFile.find? (fun p => p.path == s)).map
      (fun p => { fileNodeResolved p with generate := req.fileToGenerate.contains s }) := by
  rw [NewGenerator] at h
  split at h
  · simp at h
  · rename_i gen0 hloop
    rcases loop_ok req.protoFile Gen.initial gen0 hloop GenWF_initial
      (by simp [Gen.initial]) with ⟨wf0, hfiles0, _, _, _, _, _, _⟩
    rcases markGenerate_ok _ gen0 gen h wf0 with ⟨_, _, hfbp, _, _, _, hpoint⟩
    have hfiles0' : gen0.files = req.protoFile.map fileNodeResolved := by
      rw [hfiles0]
      simp [Gen.initial]
    simp only [Gen.fileAt]
    rw [hfbp, wf0.fbpEq s, hfiles0', findIdxB_map]
    have hpred : (fun fl : FileDesc => (fileNodeResolved fl).desc.path == s) =
        (fun p : FileDesc => p.path == s) := rfl
    rw [hpred]
    have hfind := findIdxB_get? (fun p : FileDesc => p.path == s) req.protoFile
    rcases hidx : findIdxB (fun p : FileDesc => p.path == s) req.protoFile with _ | i
    · have hfind2 : List.find? (fun p : FileDesc => p.path == s) req.protoFile = none := by
        rw [← hfind, hidx]
      rw [hfind2]
      rfl
    · have hfind2 : List.find? (fun p : FileDesc => p.path == s) req.protoFile =
          req.protoFile.get? i := by
        rw [← hfind, hidx]
      rw [hfind2]
      show gen.files.get? i = Option.map _ (req.protoFile.get? i)
      rcases hget : req.protoFile.get? i with _ | p
      · rcases findIdxB_some_get _ _ _ hidx with ⟨q, hq, _⟩
        rw [hget] at hq
        cases hq
      · have hps : p.path = s := by
          rcases findIdxB_some_get _ _ _ hidx with ⟨q, hq, hqs⟩
          rw [hget] at hq
          injection hq with hq2
          subst hq2
          simpa using hqs
        rw [hpoint i, hfiles0', List.get?_map, hget]
        simp only [Option.map_some', fileNodeResolved, Bool.false_or]
        rw [hps]

/-- After a successful run: supplied paths are unique, the two global
tables have unique keys, and their entries are exactly the per-file pure
table stores of the supplied descriptors. -/
theorem NewGenerator_tables (req : CodeGeneratorRequest) (gen : Gen)
    (h : NewGenerator req = (gen, .ok ())) :
    (req.protoFile.map (·.path)).Nodup ∧
    (gen.enumsByName.map (·.1)).Nodup ∧ (gen.messagesByName.map (·.1)).Nodup ∧
    (∀ kv : String × EnumNode, kv ∈ gen.enumsByName ↔
      ∃ p ∈ req.protoFile, kv ∈ writesEnumEntries (fileWritesOf p)) ∧
    (∀ kv : String × MessageNode, kv ∈ gen.messagesByName ↔
      ∃ p ∈ req.protoFile, kv ∈ writesMsgEntries (fileWritesOf p)) := by
  rw [NewGenerator] at h
  split at h
  · simp at h
  · rename_i gen0 hloop
    rcases loop_ok req.protoFile Gen.initial gen0 hloop GenWF_initial
      (by simp [Gen.initial]) with ⟨wf0, hfiles0, _, _, _, henum, hmsg, _⟩
    rcases markGenerate_ok _ gen0 gen h wf0 with ⟨hE, hM, _, _, _, _, _⟩
    refine ⟨?_, ?_, ?_, ?_, ?_⟩
    · have hp := wf0.pathsNodup
      rw [hfiles0] at hp
      simp only [Gen.initial, List.nil_append, List.map_map] at hp
      exact hp
    · rw [hE]
      exact wf0.tableKeysNodup.of_append_left
    · rw [hM]
      exact wf0.tableKeysNodup.of_append_right
    · intro kv
      rw [hE, henum kv]
      simp [Gen.initial]
    · intro kv
      rw [hM, hmsg kv]
      simp [Gen.initial]

/-- Claim C3 (amended): when the build succeeds on two supplied orders that
are permutations of each other (with the same to-generate list), the
resulting graphs agree — the file node reached through any path and the
entry found under any full name in either global table are identical.  The
original claim is refuted separately: order can also decide whether the
build succeeds at all (dependency registration order), not only duplicate
detection and which error surfaces first. -/
theorem C3_permutation (req req' : CodeGeneratorRequest) (gen gen' : Gen)
    (hperm : req.protoFile.Perm req'.protoFile)
    (hgen : req.fileToGenerate = req'.fileToGenerate)
    (h : NewGenerator req = (gen, .ok ()))
    (h' : NewGenerator req' = (gen', .ok ())) :
    (∀ s, Gen.fileAt gen s = Gen.fileAt gen' s) ∧
    (∀ n, mapGet gen.enumsByName n = mapGet gen'.enumsByName n) ∧
    (∀ n, mapGet gen.messagesByName n = mapGet gen'.messagesByName n) := by
  rcases NewGenerator_tables req gen h with ⟨hpnd, _, _, hEmem, hMmem⟩
  rcases NewGenerator_tables req' gen' h' with ⟨_, hEnd', hMnd', hEmem', hMmem'⟩
  refine ⟨?_, ?_, ?_⟩
  · intro s
    rw [NewGenerator_fileAt req gen h s, NewGenerator_fileAt req' gen' h' s, hgen]
    have hfind : req.protoFile.find? (fun p => p.path == s) =
        req'.protoFile.find? (fun p => p.path == s) := by
      rcases hA : req.protoFile.find? (fun p => p.path == s) with _ | p
      · rcases hB : req'.protoFile.find? (fun p => p.path == s) with _ | q
        · rw [hA, hB]
        · exfalso
          have hq : q ∈ req.protoFile := hperm.mem_iff.mpr (List.mem_of_find?_eq_some hB)
          have hqs := List.find?_some hB
          exact List.find?_eq_none.mp hA q hq hqs
      · have hp : p ∈ req.protoFile := List.mem_of_find?_eq_some hA
        have hps := List.find?_some hA
        rcases hB : req'.protoFile.find? (fun p => p.path == s) with _ | q
        · exfalso
          exact List.find?_eq_none.mp hB p (hperm.mem_iff.mp hp) hps
        · have hq : q ∈ req.protoFile := hperm.mem_iff.mpr (List.mem_of_find?_eq_some hB)
          have hqs := List.find?_some hB
          have hpq : p = q := nodup_map_mem_inj (fun p => p.path) req.protoFile hpnd
            p q hp hq (by
              show p.path = q.path
              rw [show p.path = s from by simpa using hps,
                show q.path = s from by simpa using hqs])
          rw [hA, hB, hpq]
    rw [hfind]
  · intro n
    refine mapGet_eq_of_mem_iff _ _ hEnd' ?_ n
    intro kv
    rw [hEmem kv, hEmem' kv]
    constructor
    · rintro ⟨p, hp, hkv⟩
      exact ⟨p, hperm.mem_iff.mp hp, hkv⟩
    · rintro ⟨p, hp, hkv⟩
      exact ⟨p, hperm.mem_iff.mpr hp, hkv⟩
  · intro n
    refine mapGet_eq_of_mem_iff _ _ hMnd' ?_ n
    intro kv
    rw [hMmem kv, hMmem' kv]
    constructor
    · rintro ⟨p, hp, hkv⟩
      exact ⟨p, hperm.mem_iff.mp hp, hkv⟩
    · rintro ⟨p, hp, hkv⟩
      exact ⟨p, hperm.mem_iff.mpr hp, hkv⟩

/-- An empty file with no dependencies. -/
def fileG3 : FileDesc :=
  { path := "g.proto", dependencies := [], enums := [], messages := []
    extensions := [], services := [], locs := [] }

/-- An empty file depending on `g.proto`. -/
def fileF3 : FileDesc :=
  { path := "f.proto", dependencies := ["g.proto"], enums := [], messages := []
    extensions := [], services := [], locs := [] }

def reqC3ok : CodeGeneratorRequest := { protoFile := [fileG3, fileF3], fileToGenerate := [] }

def reqC3sw : CodeGeneratorRequest := { protoFile := [fileF3, fileG3], fileToGenerate := [] }

/-- Counterexample to C3 as stated: the two orders are permutations of one
another with distinct file paths and the same to-generate list, yet one
order builds successfully while the other fails — with an invalid-descriptor
error, not a duplicate-path error — because a file is converted before the
dependency it imports has been registered.  Order therefore matters beyond
duplicate detection and error selection. -/
theorem C3_counterexample :
    reqC3sw.protoFile.Perm reqC3ok.protoFile ∧
    reqC3sw.fileToGenerate = reqC3ok.fileToGenerate ∧
    (NewGenerator reqC3ok).2 = .ok () ∧
    (NewGenerator reqC3sw).2 = .error (.invalidFile "f.proto") :=
  ⟨List.Perm.swap fileG3 fileF3 [], rfl, rfl, rfl⟩

/-- Two independent files, in the two orders. -/
def fileC3x : FileDesc :=
  { path := "x.proto", dependencies := [], enums := [{ fullName := "E1", values := [] }]
    messages := [], extensions := [], services := [], locs := [] }

def fileC3y : FileDesc :=
  { path := "y.proto", dependencies := [], enums := [{ fullName := "E2", values := [] }]
    messages := [], extensions := [], services := [], locs := [] }

def reqC3w : CodeGeneratorRequest := { protoFile := [fileC3x, fileC3y], fileToGenerate := [] }

def reqC3w2 : CodeGeneratorRequest := { protoFile := [fileC3y, fileC3x], fileToGenerate := [] }

/-- Witness for the amended C3 on two independent files supplied in both
orders: both builds succeed and agree on a concrete path and name. -/
theorem C3_permutation_witness :
    Gen.fileAt (NewGenerator reqC3w).1 "x.proto" = Gen.fileAt (NewGenerator reqC3w2).1 "x.proto" ∧
    mapGet (NewGenerator reqC3w).1.enumsByName "E1" =
      mapGet (NewGenerator reqC3w2).1.enumsByName "E1" :=
  ⟨(C3_permutation reqC3w reqC3w2 (NewGenerator reqC3w).1 (NewGenerator reqC3w2).1
      (List.Perm.swap fileC3y fileC3x []) rfl rfl rfl).1 "x.proto",
    (C3_permutation reqC3w reqC3w2 (NewGenerator reqC3w).1 (NewGenerator reqC3w2).1
      (List.Perm.swap fileC3y fileC3x []) rfl rfl rfl).2.1 "E1"⟩

/-! ## Claims C6 and C7: when the two request-shape errors surface -/

theorem findIdxB_isSome_of_mem (pred : α → Bool) : ∀ (l : List α) (a : α),
    a ∈ l → pred a = true → (findIdxB pred l).isSome = true
  | [], a, ha, _ => by simp at ha
  | a' :: as, a, ha, hpa => by
    rcases List.mem_cons.mp ha with rfl | ha2
    · simp [findIdxB, hpa]
    · by_cases hp : pred a'
      · simp [findIdxB, hp]
      · rw [findIdxB, if_neg hp]
        have hrec := findIdxB_isSome_of_mem pred as a ha2 hpa
        rcases hx : findIdxB pred as with _ | i
        · rw [hx] at hrec
          cases hrec
        · rfl

/-- After a successful loop run from the initial state, the by-path table
knows exactly the supplied file paths. -/
theorem loop_paths_mem (ps : List FileDesc) (gen1 : Gen)
    (hloop : newGeneratorLoop Gen.initial ps = (gen1, .ok ())) :
    ∀ s, (mapGet gen1.filesByPath s).isSome = true ↔ s ∈ ps.map (·.path) := by
  rcases loop_ok ps Gen.initial gen1 hloop GenWF_initial (by simp [Gen.initial]) with
    ⟨wf1, hfiles1, _, _, _, _, _, _⟩
  have hfiles1' : gen1.files = ps.map fileNodeResolved := by
    rw [hfiles1]
    simp [Gen.initial]
  intro s
  rw [wf1.fbpEq s, hfiles1', findIdxB_map]
  rw [show (fun p : FileDesc => (fileNodeResolved p).desc.path == s) =
    (fun p : FileDesc => p.path == s) from rfl]
  constructor
  · intro hs
    rcases hx : findIdxB (fun p : FileDesc => p.path == s) ps with _ | i
    · rw [hx] at hs
      cases hs
    · rcases findIdxB_some_get _ _ _ hx with ⟨p, hp, hpp⟩
      refine List.mem_map.mpr ⟨p, List.get?_mem hp, ?_⟩
      simpa using hpp
  · intro hs
    rcases List.mem_map.mp hs with ⟨p, hp, rfl⟩
    exact findIdxB_isSome_of_mem _ _ p hp (by simp)

/-- Claim C6 (amended): when the loop over the supplied files succeeds and
the to-generate list names a path not among the supplied files, the build
fails with `UnknownFileToGenerate` for the first such path — but only after
every supplied file has already been built *and* resolved: the final trace
is the full per-file build/resolve trace of all supplied files. -/
theorem C6_unknown_file (req : CodeGeneratorRequest) (gen1 : Gen) (fn0 : String)
    (hloop : newGeneratorLoop Gen.initial req.protoFile = (gen1, .ok ()))
    (hfind : req.fileToGenerate.find?
      (fun s => !(req.protoFile.map (·.path)).contains s) = some fn0) :
    (NewGenerator req).2 = .error (.unknownFileToGenerate fn0) ∧
    (NewGenerator req).1.trace = (req.protoFile.map fileTrace).flatten := by
  rcases loop_ok req.protoFile Gen.initial gen1 hloop GenWF_initial
    (by simp [Gen.initial]) with ⟨_, _, htrace1, _, _, _, _, _⟩
  rcases markGenerate_err (req.protoFile.map (·.path)) req.fileToGenerate gen1 fn0
    (loop_paths_mem req.protoFile gen1 hloop) hfind with ⟨herr, htr2, _⟩
  have hrun : NewGenerator req = markGenerate gen1 req.fileToGenerate := by
    rw [NewGenerator, hloop]
  rw [hrun]
  refine ⟨herr, ?_⟩
  rw [htr2, htrace1]
  simp [Gen.initial]

/-- A file whose single message has a self-referencing message-typed field,
so resolving it performs a map read. -/
def fileC6 : FileDesc :=
  { path := "a.proto"
    dependencies := []
    enums := []
    messages := [.mk "M" [] []
      [{ fullName := "M.x", kind := .messageKind, typeName := "M", oneofIdx := none,
         isExtension := false, extendeeName := "" }] [] []]
    extensions := []
    services := []
    locs := [] }

def reqC6 : CodeGeneratorRequest :=
  { protoFile := [fileC6], fileToGenerate := ["missing.proto"] }

/-- Counterexample to C6 as stated: with a to-generate entry naming a path
that was never supplied, the build does fail with `UnknownFileToGenerate` —
but not before resolution: the trace of the failed run already contains a
cross-reference map read. -/
theorem C6_counterexample :
    (NewGenerator reqC6).2 = .error (.unknownFileToGenerate "missing.proto") ∧
    (NewGenerator reqC6).1.trace.any (fun e => e.isRead) = true :=
  ⟨rfl, rfl⟩

/-- Witness for the amended C6 at the one-file request. -/
theorem C6_unknown_file_witness :
    (NewGenerator reqC6).2 = .error (.unknownFileToGenerate "missing.proto") ∧
    (NewGenerator reqC6).1.trace = (reqC6.protoFile.map fileTrace).flatten :=
  C6_unknown_file reqC6 (newGeneratorLoop Gen.initial reqC6.protoFile).1
    "missing.proto" rfl rfl

/-- Splitting the file loop at any point of the supplied list. -/
theorem loop_append : ∀ (l1 l2 : List FileDesc) (gen : Gen),
    newGeneratorLoop gen (l1 ++ l2) =
      match newGeneratorLoop gen l1 with
      | (gen1, .ok _) => newGeneratorLoop gen1 l2
      | (gen1, .error e) => (gen1, .error e)
  | [], l2, gen => rfl
  | p :: l1, l2, gen => by
    show newGeneratorLoop gen (p :: (l1 ++ l2)) = _
    rw [newGeneratorLoop]
    conv_rhs => rw [newGeneratorLoop]
    by_cases hdup : (mapGet gen.filesByPath p.path).isSome = true
    · rw [if_pos hdup, if_pos hdup]
    · rw [if_neg hdup, if_neg hdup]
      rcases hnf : newFile gen p with ⟨gen1, res⟩
      rcases res with e | f
      · rfl
      · show newGeneratorLoop _ (l1 ++ l2) = _
        rw [loop_append l1 l2]

/-- Claim C7 (amended): when the supplied list contains a file whose path
repeats one built earlier, the build fails with `DuplicateFile` for that
path — but only on reaching the duplicate: every file before it has already
been built *and* resolved, as the final trace shows. -/
theorem C7_duplicate (req : CodeGeneratorRequest) (ps1 ps2 : List FileDesc)
    (q : FileDesc) (gen1 : Gen)
    (hsplit : req.protoFile = ps1 ++ q :: ps2)
    (hloop : newGeneratorLoop Gen.initial ps1 = (gen1, .ok ()))
    (hdup : q.path ∈ ps1.map (·.path)) :
    (NewGenerator req).2 = .error (.duplicateFile q.path) ∧
    (NewGenerator req).1.trace = (ps1.map fileTrace).flatten := by
  rcases loop_ok ps1 Gen.initial gen1 hloop GenWF_initial (by simp [Gen.initial]) with
    ⟨_, _, htrace1, _, _, _, _, _⟩
  have hdup2 : (mapGet gen1.filesByPath q.path).isSome = true :=
    (loop_paths_mem ps1 gen1 hloop q.path).mpr hdup
  have hrun : newGeneratorLoop Gen.initial req.protoFile =
      (gen1, .error (.duplicateFile q.path)) := by
    rw [hsplit, loop_append, hloop]
    show newGeneratorLoop gen1 (q :: ps2) = _
    rw [newGeneratorLoop, if_pos hdup2]
  have hfinal : NewGenerator req = (gen1, .error (.duplicateFile q.path)) := by
    rw [NewGenerator, hrun]
  rw [hfinal]
  refine ⟨rfl, ?_⟩
  show gen1.trace = _
  rw [htrace1]
  simp [Gen.initial]

/-- The first supplied file at the duplicated path: it carries a message
with a self-referencing field so its resolution performs a map read. -/
def fileC7 : FileDesc :=
  { path := "d.proto"
    dependencies := []
    enums := []
    messages := [.mk "N" [] []
      [{ fullName := "N.x", kind := .messageKind, typeName := "N", oneofIdx := none,
         isExtension := false, extendeeName := "" }] [] []]
    extensions := []
    services := []
    locs := [] }

/-- A second, empty file declaring the same path. -/
def fileC7dup : FileDesc :=
  { path := "d.proto", dependencies := [], enums := [], messages := []
    extensions := [], services := [], locs := [] }

def reqC7 : CodeGeneratorRequest :=
  { protoFile := [fileC7, fileC7dup], fileToGenerate := [] }

/-- Counterexample to C7 as stated: two supplied descriptors share a path
and the build does fail with `DuplicateFile` — but not before resolution:
the trace of the failed run already contains a cross-reference map read,
because the first file at the path was built and resolved before the
duplicate was reached. -/
theorem C7_counterexample :
    (NewGenerator reqC7).2 = .error (.duplicateFile "d.proto") ∧
    (NewGenerator reqC7).1.trace.any (fun e => e.isRead) = true :=
  ⟨rfl, rfl⟩

/-- Witness for the amended C7 at the two-file request. -/
theorem C7_duplicate_witness :
    (NewGenerator reqC7).2 = .error (.duplicateFile fileC7dup.path) ∧
    (NewGenerator reqC7).1.trace = ([fileC7].map fileTrace).flatten :=
  C7_duplicate reqC7 [fileC7] [] fileC7dup (newGeneratorLoop Gen.initial [fileC7]).1
    rfl rfl (List.mem_singleton.mpr rfl)

/-! ## Claim C4: location paths -/

/-- `allIdxFrom q j l`: the indexed check `q` holds of every element of `l`,
indices starting at `j`. -/
def allIdxFrom (q : Nat → β → Bool) : Nat → List β → Bool
  | _, [] => true
  | i, b :: bs => q i b && allIdxFrom q (i + 1) bs

/-- One (tag, index) extension step of a location path. -/
def pathStep (parent : List Int) (tag : Int) (i : Nat) : List Int :=
  parent ++ [tag, (i : Int)]

def checkValueAt (eloc : List Int) (i : Nat) (v : EnumValueNode) : Bool :=
  v.location.path == pathStep eloc Enumdescriptorproto_Value_FieldNumber i

def checkEnumAt (parentPath : List Int) (tag : Int) (i : Nat) (e : EnumNode) : Bool :=
  (e.location.path == pathStep parentPath tag i) &&
    allIdxFrom (checkValueAt e.location.path) 0 e.values

def checkMethodAt (sloc : List Int) (i : Nat) (m : MethodNode) : Bool :=
  m.location.path == pathStep sloc Servicedescriptorproto_Method_FieldNumber i

def checkSvcAt (flocPath : List Int) (i : Nat) (s : ServiceNode) : Bool :=
  (s.location.path == pathStep flocPath FileDescriptorProto_Service_FieldNumber i) &&
    allIdxFrom (checkMethodAt s.location.path) 0 s.methods

def checkFieldAt (parentPath : List Int) (tag : Int) (i : Nat) (f : FieldNode) : Bool :=
  f.location.path == pathStep parentPath tag i

def checkOneofAt (mloc : List Int) (i : Nat) (o : OneofNode) : Bool :=
  o.location.path == pathStep mloc Descriptorproto_OneofDecl_FieldNumber i

mutual

/-- Every declaration under a message sits at its parent's path extended by
the fixed (tag, index) pair. -/
def checkMsgAt (parentPath : List Int) (tag : Int) (i : Nat) : MessageNode → Bool
  | .mk _ fields oneofs enums messages extensions loc _ =>
    (loc.path == pathStep parentPath tag i) &&
    allIdxFrom (checkFieldAt loc.path Descriptorproto_Field_FieldNumber) 0 fields &&
    allIdxFrom (checkOneofAt loc.path) 0 oneofs &&
    allIdxFrom (checkEnumAt loc.path Descriptorproto_EnumType_FieldNumber) 0 enums &&
    checkMsgListAt loc.path Descriptorproto_NestedType_FieldNumber 0 messages &&
    allIdxFrom (checkFieldAt loc.path Descriptorproto_Extension_FieldNumber) 0 extensions

def checkMsgListAt (parentPath : List Int) (tag : Int) : Nat → List MessageNode → Bool
  | _, [] => true
  | i, m :: ms => checkMsgAt parentPath tag i m && checkMsgListAt parentPath tag (i + 1) ms

end

/-- Every declaration of the file sits at its parent's path extended by the
fixed (tag, index) pair, starting from the file's empty path. -/
def checkFilePaths (f : FileNode) : Bool :=
  (f.location.path == ([] : List Int)) &&
  allIdxFrom (checkEnumAt f.location.path FileDescriptorProto_EnumType_FieldNumber) 0 f.enums &&
  checkMsgListAt f.location.path FileDescriptorProto_MessageType_FieldNumber 0 f.messages &&
  allIdxFrom (checkFieldAt f.location.path FileDescriptorProto_Extension_FieldNumber) 0
    f.extensions &&
  allIdxFrom (checkSvcAt f.location.path) 0 f.services

mutual

/-- Well-formed descriptor input: a message's `fields` are not extensions
and its `extensions` are (protodesc validation guarantees this; the Go
location switch in `newField` branches on `desc.IsExtension()`). -/
def msgFlagsOK : MessageDesc → Bool
  | .mk _ _ messages fields _ extensions =>
    fields.all (fun f => !f.isExtension) && extensions.all (fun f => f.isExtension) &&
      msgFlagsOKList messages

def msgFlagsOKList : List MessageDesc → Bool
  | [] => true
  | m :: ms => msgFlagsOK m && msgFlagsOKList ms

end

def fileFlagsOK (p : FileDesc) : Bool :=
  msgFlagsOKList p.messages && p.extensions.all (fun f => f.isExtension)

theorem allIdxFrom_mapIdxFrom (q : Nat → β → Bool) (g : Nat → α → β) :
    ∀ (j : Nat) (l : List α), (∀ i a, a ∈ l → q i (g i a) = true) →
    allIdxFrom q j (mapIdxFrom g j l) = true
  | _, [], _ => rfl
  | j, a :: as, h => by
    rw [mapIdxFrom, allIdxFrom, h j a (List.mem_cons_self a as),
      allIdxFrom_mapIdxFrom q g (j + 1) as (fun i b hb => h i b (List.mem_cons_of_mem a hb))]
    rfl

theorem map_mapIdxFrom (m : β → γ) (g : Nat → α → β) : ∀ (j : Nat) (l : List α),
    (mapIdxFrom g j l).map m = mapIdxFrom (fun i a => m (g i a)) j l
  | _, [] => rfl
  | j, a :: as => by simp [mapIdxFrom, map_mapIdxFrom m g (j + 1) as]

theorem allIdxFrom_checkFieldAt_map (P : List Int) (tag : Int) (g : FieldNode → FieldNode)
    (hg : ∀ f, (g f).location = f.location) : ∀ (j : Nat) (fs : List FieldNode),
    allIdxFrom (checkFieldAt P tag) j (fs.map g) = allIdxFrom (checkFieldAt P tag) j fs
  | _, [] => rfl
  | j, f :: fs => by
    simp only [List.map_cons, allIdxFrom, checkFieldAt, hg f,
      allIdxFrom_checkFieldAt_map P tag g hg (j + 1) fs]

theorem allIdxFrom_checkOneofAt_congr (P : List Int) : ∀ (j : Nat) (os os2 : List OneofNode),
    os.map (fun o => o.location) = os2.map (fun o => o.location) →
    allIdxFrom (checkOneofAt P) j os = allIdxFrom (checkOneofAt P) j os2
  | _, [], [], _ => rfl
  | _, [], _ :: _, h => by simp at h
  | _, _ :: _, [], h => by simp at h
  | j, o :: os, o2 :: os2, h => by
    simp only [List.map_cons, List.cons.injEq] at h
    simp only [allIdxFrom, checkOneofAt, h.1,
      allIdxFrom_checkOneofAt_congr P (j + 1) os os2 h.2]

theorem fieldResolved_location (f : FieldNode) : (fieldResolved f).location = f.location := by
  unfold fieldResolved
  rcases hk : f.desc.kind
  all_goals rcases hx : f.desc.isExtension
  all_goals simp [hk, hx]

theorem wireField_location (f : FieldNode) : (wireField f).location = f.location := by
  unfold wireField
  rcases hf : f.desc.oneofIdx <;> rfl

theorem wireOneofs_snd_loc : ∀ (i : Nat) (fs : List FieldNode) (os : List OneofNode),
    ((wireOneofs i fs os).2).map (fun o => o.location) = os.map (fun o => o.location)
  | _, [], _ => rfl
  | i, f :: fs, os => by
    rcases hf : f.desc.oneofIdx with _ | j
    · simp only [wireOneofs, hf]
      exact wireOneofs_snd_loc (i + 1) fs os
    · simp only [wireOneofs, hf]
      rw [wireOneofs_snd_loc (i + 1) fs _]
      exact map_modifyIdx (fun o : OneofNode => o.location)
        (fun o => { o with fields := o.fields ++ [i] }) (fun o => rfl) j os

theorem checkValueAt_newEnumValue (locs : List SourceLoc) (eloc : Location) (i : Nat)
    (d : EnumValueDesc) : checkValueAt eloc.path i (newEnumValue locs eloc i d) = true := by
  simp [checkValueAt, newEnumValue, Location.appendPath, pathStep]

theorem checkEnumAt_newEnum_some (floc ploc : Location) (locs : List SourceLoc) (i : Nat)
    (d : EnumDesc) : checkEnumAt ploc.path Descriptorproto_EnumType_FieldNumber i
      (newEnum floc locs (some ploc) i d).1 = true := by
  rw [checkEnumAt, Bool.and_eq_true]
  refine ⟨by simp [newEnum, Location.appendPath, pathStep], ?_⟩
  exact allIdxFrom_mapIdxFrom _ _ 0 d.values
    (fun j vd _ => checkValueAt_newEnumValue locs _ j vd)

theorem checkEnumAt_newEnum_none (floc : Location) (locs : List SourceLoc) (i : Nat)
    (d : EnumDesc) : checkEnumAt floc.path FileDescriptorProto_EnumType_FieldNumber i
      (newEnum floc locs none i d).1 = true := by
  rw [checkEnumAt, Bool.and_eq_true]
  refine ⟨by simp [newEnum, Location.appendPath, pathStep], ?_⟩
  exact allIdxFrom_mapIdxFrom _ _ 0 d.values
    (fun j vd _ => checkValueAt_newEnumValue locs _ j vd)

theorem checkFieldAt_newField_plain (floc mloc : Location) (locs : List SourceLoc) (i : Nat)
    (d : FieldDesc) (hx : d.isExtension = false) :
    checkFieldAt mloc.path Descriptorproto_Field_FieldNumber i
      (newField floc locs (some mloc) i d) = true := by
  simp [checkFieldAt, newField, hx, Location.appendPath, pathStep]

theorem checkFieldAt_newField_msgExt (floc mloc : Location) (locs : List SourceLoc) (i : Nat)
    (d : FieldDesc) (hx : d.isExtension = true) :
    checkFieldAt mloc.path Descriptorproto_Extension_FieldNumber i
      (newField floc locs (some mloc) i d) = true := by
  simp [checkFieldAt, newField, hx, Location.appendPath, pathStep]

theorem checkFieldAt_newField_fileExt (floc : Location) (locs : List SourceLoc) (i : Nat)
    (d : FieldDesc) (hx : d.isExtension = true) :
    checkFieldAt floc.path FileDescriptorProto_Extension_FieldNumber i
      (newField floc locs none i d) = true := by
  simp [checkFieldAt, newField, hx, Location.appendPath, pathStep]

theorem checkOneofAt_newOneof (locs : List SourceLoc) (mloc : Location) (i : Nat)
    (d : OneofDesc) : checkOneofAt mloc.path i (newOneof locs mloc i d) = true := by
  simp [checkOneofAt, newOneof, Location.appendPath, pathStep]

theorem checkMethodAt_newMethod (locs : List SourceLoc) (sloc : Location) (i : Nat)
    (d : MethodDesc) : checkMethodAt sloc.path i (newMethod locs sloc i d) = true := by
  simp [checkMethodAt, newMethod, Location.appendPath, pathStep]

theorem checkSvcAt_newService (floc : Location) (locs : List SourceLoc) (i : Nat)
    (d : ServiceDesc) : checkSvcAt floc.path i (newService floc locs i d) = true := by
  rw [checkSvcAt, Bool.and_eq_true]
  refine ⟨by simp [newService, Location.appendPath, pathStep], ?_⟩
  exact allIdxFrom_mapIdxFrom _ _ 0 d.methods
    (fun j md _ => checkMethodAt_newMethod locs _ j md)

mutual

theorem checkMsgAt_newMessage (floc : Location) (locs : List SourceLoc) :
    ∀ (pl : Option Location) (P : List Int) (tag : Int) (i : Nat) (d : MessageDesc),
    msgFlagsOK d = true →
    (match pl with | some ploc => ploc.path | none => floc.path) = P →
    (match pl with | some _ => Descriptorproto_NestedType_FieldNumber
                   | none => FileDescriptorProto_MessageType_FieldNumber) = tag →
    checkMsgAt P tag i (newMessage floc locs pl i d).1 = true
  | pl, P, tag, i, .mk fn enums messages fields oneofs extensions, hflags, hP, htag => by
    have h1 : (fields.all (fun f => !f.isExtension) &&
        extensions.all (fun f => f.isExtension) && msgFlagsOKList messages) = true := hflags
    simp only [Bool.and_eq_true] at h1
    rcases pl with _ | ploc
    all_goals subst hP
    all_goals subst htag
    all_goals simp only [newMessage.eq_def, checkMsgAt.eq_def, mapIdx]
    all_goals simp only [Bool.and_eq_true]
    all_goals refine ⟨⟨⟨⟨⟨?_, ?_⟩, ?_⟩, ?_⟩, ?_⟩, ?_⟩
    · simp [Location.appendPath, pathStep]
    · rw [wireOneofs_fst, allIdxFrom_checkFieldAt_map _ _ wireField wireField_location]
      exact allIdxFrom_mapIdxFrom _ _ 0 fields (fun j fd hfd =>
        checkFieldAt_newField_plain floc _ locs j fd
          (by simpa using List.all_eq_true.mp h1.1.1 fd hfd))
    · rw [allIdxFrom_checkOneofAt_congr _ 0 _ _ (wireOneofs_snd_loc 0 _ _)]
      exact allIdxFrom_mapIdxFrom _ _ 0 oneofs
        (fun j od _ => checkOneofAt_newOneof locs _ j od)
    · rw [map_mapIdxFrom]
      exact allIdxFrom_mapIdxFrom _ _ 0 enums
        (fun j ed _ => checkEnumAt_newEnum_some floc _ locs j ed)
    · exact checkMsgListAt_newMessageList floc locs (some _) _ _ 0 messages h1.2 rfl rfl
    · exact allIdxFrom_mapIdxFrom _ _ 0 extensions (fun j fd hfd =>
        checkFieldAt_newField_msgExt floc _ locs j fd (List.all_eq_true.mp h1.1.2 fd hfd))
    · simp [Location.appendPath, pathStep]
    · rw [wireOneofs_fst, allIdxFrom_checkFieldAt_map _ _ wireField wireField_location]
      exact allIdxFrom_mapIdxFrom _ _ 0 fields (fun j fd hfd =>
        checkFieldAt_newField_plain floc _ locs j fd
          (by simpa using List.all_eq_true.mp h1.1.1 fd hfd))
    · rw [allIdxFrom_checkOneofAt_congr _ 0 _ _ (wireOneofs_snd_loc 0 _ _)]
      exact allIdxFrom_mapIdxFrom _ _ 0 oneofs
        (fun j od _ => checkOneofAt_newOneof locs _ j od)
    · rw [map_mapIdxFrom]
      exact allIdxFrom_mapIdxFrom _ _ 0 enums
        (fun j ed _ => checkEnumAt_newEnum_some floc _ locs j ed)
    · exact checkMsgListAt_newMessageList floc locs (some _) _ _ 0 messages h1.2 rfl rfl
    · exact allIdxFrom_mapIdxFrom _ _ 0 extensions (fun j fd hfd =>
        checkFieldAt_newField_msgExt floc _ locs j fd (List.all_eq_true.mp h1.1.2 fd hfd))

theorem checkMsgListAt_newMessageList (floc : Location) (locs : List SourceLoc) :
    ∀ (pl : Option Location) (P : List Int) (tag : Int) (j : Nat) (ds : List MessageDesc),
    msgFlagsOKList ds = true →
    (match pl with | some ploc => ploc.path | none => floc.path) = P →
    (match pl with | some _ => Descriptorproto_NestedType_FieldNumber
                   | none => FileDescriptorProto_MessageType_FieldNumber) = tag →
    checkMsgListAt P tag j ((newMessageList floc locs pl j ds).map (·.1)) = true
  | pl, P, tag, j, [], _, _, _ => rfl
  | pl, P, tag, j, d :: ds, hflags, hP, htag => by
    have h1 : (msgFlagsOK d && msgFlagsOKList ds) = true := hflags
    simp only [Bool.and_eq_true] at h1
    show (checkMsgAt P tag j (newMessage floc locs pl j d).1 &&
      checkMsgListAt P tag (j + 1) ((newMessageList floc locs pl (j + 1) ds).map (·.1))) = true
    rw [checkMsgAt_newMessage floc locs pl P tag j d h1.1 hP htag,
      checkMsgListAt_newMessageList floc locs pl P tag (j + 1) ds h1.2 hP htag]
    rfl

end

theorem allIdxFrom_checkMethodAt_map (P : List Int) (g : MethodNode → MethodNode)
    (hg : ∀ m, (g m).location = m.location) : ∀ (j : Nat) (ms : List MethodNode),
    allIdxFrom (checkMethodAt P) j (ms.map g) = allIdxFrom (checkMethodAt P) j ms
  | _, [] => rfl
  | j, m :: ms => by
    simp only [List.map_cons, allIdxFrom, checkMethodAt, hg m,
      allIdxFrom_checkMethodAt_map P g hg (j + 1) ms]

theorem checkSvcAt_svcResolved (P : List Int) (i : Nat) (s : ServiceNode) :
    checkSvcAt P i (svcResolved s) = checkSvcAt P i s := by
  simp only [checkSvcAt, svcResolved]
  rw [allIdxFrom_checkMethodAt_map _ methodResolved (fun m => rfl)]

theorem allIdxFrom_checkSvcAt_resolved (P : List Int) : ∀ (j : Nat) (ss : List ServiceNode),
    allIdxFrom (checkSvcAt P) j (ss.map svcResolved) = allIdxFrom (checkSvcAt P) j ss
  | _, [] => rfl
  | j, s :: ss => by
    simp only [List.map_cons, allIdxFrom, checkSvcAt_svcResolved,
      allIdxFrom_checkSvcAt_resolved P (j + 1) ss]

mutual

theorem checkMsgAt_msgResolved (P : List Int) (t : Int) (i : Nat) : ∀ m : MessageNode,
    checkMsgAt P t i (msgResolved m) = checkMsgAt P t i m
  | .mk fn fs os es ms xs loc cs => by
    simp only [msgResolved, checkMsgAt.eq_def]
    rw [allIdxFrom_checkFieldAt_map _ _ fieldResolved fieldResolved_location,
      allIdxFrom_checkFieldAt_map _ _ fieldResolved fieldResolved_location,
      checkMsgListAt_msgResolvedList loc.path Descriptorproto_NestedType_FieldNumber 0 ms]

theorem checkMsgListAt_msgResolvedList (P : List Int) (t : Int) :
    ∀ (j : Nat) (ms : List MessageNode),
    checkMsgListAt P t j (msgResolvedList ms) = checkMsgListAt P t j ms
  | _, [] => rfl
  | j, m :: ms => by
    show (checkMsgAt P t j (msgResolved m) &&
      checkMsgListAt P t (j + 1) (msgResolvedList ms)) = _
    rw [checkMsgAt_msgResolved P t j m, checkMsgListAt_msgResolvedList P t (j + 1) ms]
    exact rfl

end

/-- The fully built and resolved node of a well-formed file has every
location path correct. -/
theorem checkFilePaths_fileNodeResolved (p : FileDesc) (hflags : fileFlagsOK p = true) :
    checkFilePaths (fileNodeResolved p) = true := by
  have h1 : (msgFlagsOKList p.messages &&
      p.extensions.all (fun f => f.isExtension)) = true := hflags
  simp only [Bool.and_eq_true] at h1
  rw [checkFilePaths]
  simp only [fileNodeResolved, fileLoc, fileEnumsW, fileMsgsW, fileExts, fileSvcs, mapIdx]
  simp only [Bool.and_eq_true]
  refine ⟨⟨⟨⟨by simp, ?_⟩, ?_⟩, ?_⟩, ?_⟩
  · rw [map_mapIdxFrom]
    exact allIdxFrom_mapIdxFrom _ _ 0 p.enums
      (fun j ed _ => checkEnumAt_newEnum_none (fileLoc p) p.locs j ed)
  · rw [checkMsgListAt_msgResolvedList]
    exact checkMsgListAt_newMessageList (fileLoc p) p.locs none _ _ 0 p.messages h1.1 rfl rfl
  · rw [allIdxFrom_checkFieldAt_map _ _ fieldResolved fieldResolved_location]
    exact allIdxFrom_mapIdxFrom _ _ 0 p.extensions (fun j fd hfd =>
      checkFieldAt_newField_fileExt (fileLoc p) p.locs j fd (List.all_eq_true.mp h1.2 fd hfd))
  · rw [allIdxFrom_checkSvcAt_resolved]
    exact allIdxFrom_mapIdxFrom _ _ 0 p.services
      (fun j sd _ => checkSvcAt_newService (fileLoc p) p.locs j sd)

/-- Claim C4: for every file of a successful build over well-formed
descriptors, every declaration's Location path is its parent's path
extended by exactly one (tag, index) pair with the fixed tag table —
file→message(4), file→enum(5), file→service(6), file→extension(7),
message→field(2), message→extension(6), message→nested-message(3),
message→nested-enum(4), message→oneof(8), enum→value(2),
service→method(2) — starting from the file's empty path. -/
theorem C4_location_paths (req : CodeGeneratorRequest) (gen : Gen)
    (h : NewGenerator req = (gen, .ok ()))
    (hflags : ∀ p ∈ req.protoFile, fileFlagsOK p = true) :
    FileDescriptorProto_MessageType_FieldNumber = 4 ∧
    FileDescriptorProto_EnumType_FieldNumber = 5 ∧
    FileDescriptorProto_Service_FieldNumber = 6 ∧
    FileDescriptorProto_Extension_FieldNumber = 7 ∧
    Descriptorproto_Field_FieldNumber = 2 ∧
    Descriptorproto_Extension_FieldNumber = 6 ∧
    Descriptorproto_NestedType_FieldNumber = 3 ∧
    Descriptorproto_EnumType_FieldNumber = 4 ∧
    Descriptorproto_OneofDecl_FieldNumber = 8 ∧
    Enumdescriptorproto_Value_FieldNumber = 2 ∧
    Servicedescriptorproto_Method_FieldNumber = 2 ∧
    ∀ f ∈ gen.files, checkFilePaths f = true := by
  refine ⟨rfl, rfl, rfl, rfl, rfl, rfl, rfl, rfl, rfl, rfl, rfl, ?_⟩
  rw [NewGenerator] at h
  split at h
  · simp at h
  · rename_i gen0 hloop
    rcases loop_ok req.protoFile Gen.initial gen0 hloop GenWF_initial
      (by simp [Gen.initial]) with ⟨wf0, hfiles0, _, _, _, _, _, _⟩
    rcases markGenerate_ok _ gen0 gen h wf0 with ⟨_, _, _, _, _, _, hpoint⟩
    have hfiles0' : gen0.files = req.protoFile.map fileNodeResolved := by
      rw [hfiles0]
      simp [Gen.initial]
    intro f hf
    rcases List.mem_iff_get?.mp hf with ⟨i, hi⟩
    rw [hpoint i, hfiles0', List.get?_map] at hi
    rcases hp : req.protoFile.get? i with _ | p
    · rw [hp] at hi
      cases hi
    · rw [hp] at hi
      simp only [Option.map_some'] at hi
      injection hi with hi2
      rw [← hi2]
      exact checkFilePaths_fileNodeResolved p (hflags p (List.get?_mem hp))

/-- A file exercising every declaration kind of the tag table. -/
def fileC4 : FileDesc :=
  { path := "c4.proto"
    dependencies := []
    enums := [{ fullName := "E", values := [{ fullName := "E_A" }] }]
    messages := [.mk "M"
      [{ fullName := "M.E2", values := [] }]
      [.mk "M.N" [] [] [] [] []]
      [{ fullName := "M.f", kind := .scalar, typeName := "", oneofIdx := some 0,
         isExtension := false, extendeeName := "" }]
      [{ fullName := "M.o" }]
      [{ fullName := "M.x", kind := .scalar, typeName := "", oneofIdx := none,
         isExtension := true, extendeeName := "M" }]]
    extensions := [{ fullName := "ext", kind := .scalar, typeName := "",
                     oneofIdx := none, isExtension := true, extendeeName := "M" }]
    services := [{ fullName := "S"
                   methods := [{ fullName := "S.m", inputName := "M", outputName := "M" }] }]
    locs := [] }

def reqC4 : CodeGeneratorRequest :=
  { protoFile := [fileC4], fileToGenerate := ["c4.proto"] }

/-- Witness for C4: the request builds successfully and the checker holds
of the recorded file node. -/
theorem C4_location_paths_witness :
    checkFilePaths ((NewGenerator reqC4).1.files.get ⟨0, by decide⟩) = true :=
  (C4_location_paths reqC4 (NewGenerator reqC4).1 rfl
    (by decide)).2.2.2.2.2.2.2.2.2.2.2 _ (List.get_mem _ _ _)

end Protogen
